import Mathlib

/-!
# CPUSparseMatrix: a shallow embedding of `Math/Math/CPUSparseMatrix.cpp`

The container and its kernels are embedded as pure functions on an explicit state.

Modelling conventions

* Element type: the kernels are generic in a commutative ring `R` with decidable equality
  (every field with decidable equality is an instance); arithmetic is exact.
* Buffers (`m_pArray`, `m_unCompIndex`, `m_compIndex`, `m_blockIds`) are total functions
  `Nat → _`; their capacities are the explicit counters `m_elemSizeAllocated` and
  `m_compIndexSize`.  The content of a buffer obtained from `new T[n]` is indeterminate in the
  source; here it is supplied by the caller of the embedded function (`FreshBuffers`, or a
  `fresh` array for the dense matrix), so every theorem quantifying over it holds whatever
  the allocator returns.
* A total function cannot be a null pointer.  In the source `Resize` allocates `m_unCompIndex`
  and `m_compIndex` when the format is a compressed one and `m_blockIds` when it is a block
  one, and the single counter `m_compIndexSize` is the length of whichever index array was
  allocated last.  `MultiplyAndAdd` retags its result matrix itself before it writes
  `m_blockIds`, so the allocation of that array is part of the state: `blockIdsLength` is the
  number of elements of the array `m_blockIds` points to (0 for the null pointer), set by
  `ZeroInit` and by the block branch of `Resize`.  A run that writes outside it ends in
  `memoryFault`.  The other kernels are stated for matrices whose format tag is the one their
  arrays were allocated for.
* `size_t`, `int` and `CPUSPARSE_INDEX_TYPE` are `Nat` / `Int` without wrap-around: all sizes
  and indices are taken to be below `2^31`.  The exception is `ColumnSliceToDense`, whose range
  guard adds two caller-supplied `size_t` arguments: these sums are taken modulo `2 ^ 64`.
* A method that mutates its receiver (or an out-parameter) returns an `Outcome`: either
  `ok s` with the state on return, or `raised e s` with the exception kind and the state the
  object is left in when the exception propagates.
* `assert` is compiled out (`NDEBUG`); OpenMP loops are run sequentially.
* Operands passed by reference are values here: an input operand never aliases the result.
-/

namespace CNTK

/-- Exception kinds thrown by the source: `std::logic_error` (also through `LogicError`),
`std::invalid_argument`, `std::runtime_error` and the `NOT_IMPLEMENTED` condition. The last
kind, `memoryFault`, is not an exception: it marks a run that writes outside an allocated
array (through a null pointer or past the end), where the source has undefined behaviour and
in practice crashes. -/
inductive Error where
  | logicError
  | invalidArgument
  | runtimeError
  | notImplemented
  | memoryFault
  deriving DecidableEq, Repr

/-- Result of a mutating call: normal return with the new state, or an exception together
with the state left behind (for `memoryFault` the state at which the run is abandoned; the
source leaves nothing to observe). -/
inductive Outcome (σ : Type) where
  | ok (s : σ)
  | raised (e : Error) (s : σ)

/-- State carried by an outcome, whether the call returned or raised. -/
def Outcome.state {σ : Type} : Outcome σ → σ
  | .ok s => s
  | .raised _ s => s

/-- The exception of an outcome, if any. -/
def Outcome.error {σ : Type} : Outcome σ → Option Error
  | .ok _ => none
  | .raised e _ => some e

/-- Modelled from the spec: the `MatrixFormat` tag of the header (not part of the source file).
The four sparse layouts of the spec, and `matrixFormatDense` standing for every other tag. -/
inductive MatrixFormat where
  | matrixFormatDense
  | matrixFormatSparseCSC
  | matrixFormatSparseCSR
  | matrixFormatSparseBlockCol
  | matrixFormatSparseBlockRow
  deriving DecidableEq, Repr

/-- The macro `IDX2C(i,j,ld) = j*ld + i` (0-based column-major index). -/
def IDX2C (i j ld : Nat) : Nat := j * ld + i

/-- Modelled from the spec: the dense matrix collaborator `CPUMatrix` (a dense 2-D buffer with
indexed element access, resize, zero-fill and element count), stored column-major. -/
structure CPUMatrix (R : Type) where
  m_numRows : Nat
  m_numCols : Nat
  m_pArray : Nat → R

namespace CPUMatrix

variable {R : Type}

/-- Modelled from the spec: `GetNumRows` of the dense collaborator. -/
def GetNumRows (A : CPUMatrix R) : Nat := A.m_numRows

/-- Modelled from the spec: `GetNumCols` of the dense collaborator. -/
def GetNumCols (A : CPUMatrix R) : Nat := A.m_numCols

/-- Modelled from the spec: element count query of the dense collaborator. -/
def GetNumElements (A : CPUMatrix R) : Nat := A.m_numRows * A.m_numCols

/-- Modelled from the spec: `IsEmpty` of the dense collaborator (no element). -/
def IsEmpty (A : CPUMatrix R) : Bool := A.m_numRows == 0 || A.m_numCols == 0

/-- Modelled from the spec: indexed element read `A(i,j)` of the dense collaborator. -/
def get (A : CPUMatrix R) (i j : Nat) : R := A.m_pArray (IDX2C i j A.m_numRows)

/-- Modelled from the spec: indexed element write `A(i,j) = v` of the dense collaborator. -/
def set (A : CPUMatrix R) (i j : Nat) (v : R) : CPUMatrix R :=
  { A with m_pArray := Function.update A.m_pArray (IDX2C i j A.m_numRows) v }

/-- Modelled from the spec: `Resize` of the dense collaborator. Nothing happens when the shape
is already the requested one; otherwise the content is indeterminate (`fresh`). -/
def Resize (fresh : Nat → R) (numRows numCols : Nat) (A : CPUMatrix R) : CPUMatrix R :=
  if A.m_numRows = numRows ∧ A.m_numCols = numCols then A
  else { m_numRows := numRows, m_numCols := numCols, m_pArray := fresh }

/-- The call `memset(c.GetArray(), 0, sizeof(ElemType) * c.GetNumElements())`. -/
def memsetZero [Zero R] (A : CPUMatrix R) : CPUMatrix R :=
  { A with m_pArray := fun x => if x < A.GetNumElements then 0 else A.m_pArray x }

/-- Modelled from the spec: the header macro `foreach_coord(i,j,c)`, a loop over the columns
`j` and, inside, over the rows `i` of `c`; `body i j` is the loop body. -/
def foreach_coord (body : Nat → Nat → CPUMatrix R → CPUMatrix R) (c : CPUMatrix R) :
    CPUMatrix R :=
  (List.range c.GetNumCols).foldl
    (fun c1 j => (List.range c.GetNumRows).foldl (fun c2 i => body i j c2) c1) c

end CPUMatrix

/-- The sparse container: the members of `CPUSparseMatrix<ElemType>` (set by `ZeroInit`), and
`blockIdsLength`, which is not a member but the state of the heap: the number of elements of
the array `m_blockIds` points to, 0 when `m_blockIds` is null. -/
structure CPUSparseMatrix (R : Type) where
  m_format : MatrixFormat
  m_numRows : Nat
  m_numCols : Nat
  m_elemSizeAllocated : Nat
  m_compIndexSize : Nat
  m_nz : Nat
  m_matrixName : Option String
  m_colIdx : Int
  m_blockSize : Nat
  m_pArray : Nat → R
  m_unCompIndex : Nat → Nat
  m_compIndex : Nat → Nat
  m_blockIds : Nat → Nat
  blockIdsLength : Nat

/-- Content of newly allocated buffers (`new T[n]` leaves it indeterminate). -/
structure FreshBuffers (R : Type) where
  pArray : Nat → R
  unCompIndex : Nat → Nat
  compIndex : Nat → Nat
  blockIds : Nat → Nat

/-- The call `memcpy(dst, src, n * sizeof(T))`: the first `n` cells of `dst` become those of
`src`. -/
def memcpy {α : Type} (dst src : Nat → α) (n : Nat) : Nat → α :=
  fun x => if x < n then src x else dst x

namespace CPUSparseMatrix

variable {R : Type}

/-- Whether the format is one of the two compressed layouts. -/
def isCompressed (f : MatrixFormat) : Bool :=
  f == .matrixFormatSparseCSC || f == .matrixFormatSparseCSR

/-- Whether the format is one of the two block layouts. -/
def isBlock (f : MatrixFormat) : Bool :=
  f == .matrixFormatSparseBlockCol || f == .matrixFormatSparseBlockRow

/-- Modelled from the spec: `GetNumRows` (header). -/
def GetNumRows (M : CPUSparseMatrix R) : Nat := M.m_numRows

/-- Modelled from the spec: `GetNumCols` (header). -/
def GetNumCols (M : CPUSparseMatrix R) : Nat := M.m_numCols

/-- Modelled from the spec: `GetFormat` (header). -/
def GetFormat (M : CPUSparseMatrix R) : MatrixFormat := M.m_format

/-- Modelled from the spec: `SetFormat` (header), which only retags the matrix. -/
def SetFormat (f : MatrixFormat) (M : CPUSparseMatrix R) : CPUSparseMatrix R :=
  { M with m_format := f }

/-- Modelled from the spec: `IsEmpty` (header), no logical cell. -/
def IsEmpty (M : CPUSparseMatrix R) : Bool := M.m_numRows == 0 || M.m_numCols == 0

/-- Modelled from the spec: `GetSizeAllocated` (header), the `allocatedCapacity`. -/
def GetSizeAllocated (M : CPUSparseMatrix R) : Nat := M.m_elemSizeAllocated

/-- Modelled from the spec: `NzCount` (header), the number of stored entries. -/
def NzCount (M : CPUSparseMatrix R) : Nat := M.m_nz

/-- Modelled from the spec: `SetNzCount` (header). -/
def SetNzCount (nz : Nat) (M : CPUSparseMatrix R) : CPUSparseMatrix R :=
  { M with m_nz := nz }

/-- Modelled from the spec: number of lanes of a compressed layout (columns for CSC, rows
for CSR). -/
def laneCount (M : CPUSparseMatrix R) : Nat :=
  if M.m_format = .matrixFormatSparseCSC then M.m_numCols else M.m_numRows

/-- Modelled from the spec: `SecondaryIndexCount` (header), the length of the secondary-index
array, "column-or-row count + 1 depending on format". -/
def SecondaryIndexCount (M : CPUSparseMatrix R) : Nat := M.laneCount + 1

/-- The method `ZeroInit()`, on an object whose `m_format` was just set by `CheckInit`; the
buffers are null, their (unreadable) content is `fresh`. -/
def ZeroInit (fresh : FreshBuffers R) (format : MatrixFormat) : CPUSparseMatrix R :=
  { m_format := format
    m_numRows := 0
    m_numCols := 0
    m_elemSizeAllocated := 0
    m_compIndexSize := 0
    m_nz := 0
    m_matrixName := none
    m_colIdx := -1
    m_blockSize := 0
    m_pArray := fresh.pArray
    m_unCompIndex := fresh.unCompIndex
    m_compIndex := fresh.compIndex
    m_blockIds := fresh.blockIds
    blockIdsLength := 0 }

/-- The method `Resize(numRows, numCols, numNZElemToReserve, growOnly, keepExistingValues)`. -/
def Resize (fresh : FreshBuffers R) (numRows numCols numNZElemToReserve : Nat)
    (growOnly keepExistingValues : Bool) (M : CPUSparseMatrix R) :
    Outcome (CPUSparseMatrix R) :=
  let keepExistingValues : Bool :=
    if M.m_numRows ≠ numRows ∨ M.m_numCols ≠ numCols then false else keepExistingValues
  let newCompIndexSize : Nat := (if numCols > numRows then numCols else numRows) + 1
  let reallocate : Bool :=
    decide (M.m_elemSizeAllocated < numNZElemToReserve)
      || (decide (M.m_elemSizeAllocated > numNZElemToReserve) && !growOnly)
      || decide (M.m_compIndexSize < newCompIndexSize)
  let M1 : CPUSparseMatrix R := { M with m_numRows := numRows, m_numCols := numCols }
  if reallocate then
    if isCompressed M1.m_format then
      if keepExistingValues
          && (decide (M1.m_nz > numNZElemToReserve)
              || decide (M1.m_compIndexSize > newCompIndexSize)) then
        .raised .logicError M1
      else
        let copy : Bool := keepExistingValues && decide (M1.m_nz > 0)
        .ok { M1 with
          m_pArray := if copy then memcpy fresh.pArray M1.m_pArray M1.m_nz else fresh.pArray
          m_unCompIndex :=
            if copy then memcpy fresh.unCompIndex M1.m_unCompIndex M1.m_nz
            else fresh.unCompIndex
          m_compIndex :=
            if copy then memcpy fresh.compIndex M1.m_compIndex M1.SecondaryIndexCount
            else fresh.compIndex
          m_elemSizeAllocated := numNZElemToReserve
          m_compIndexSize := newCompIndexSize }
    else if isBlock M1.m_format then
      if keepExistingValues
          && (decide (M1.m_nz > numNZElemToReserve)
              || decide (M1.m_compIndexSize > newCompIndexSize)) then
        .raised .logicError M1
      else
        let copy : Bool := keepExistingValues && decide (M1.m_elemSizeAllocated > 0)
        .ok { M1 with
          m_pArray := if copy then memcpy fresh.pArray M1.m_pArray M1.m_nz else fresh.pArray
          m_blockIds :=
            if copy then memcpy fresh.blockIds M1.m_blockIds M1.m_compIndexSize
            else fresh.blockIds
          blockIdsLength := newCompIndexSize
          m_elemSizeAllocated := numNZElemToReserve
          m_compIndexSize := newCompIndexSize }
    else
      .ok { M1 with
        m_elemSizeAllocated := numNZElemToReserve
        m_compIndexSize := newCompIndexSize }
  else
    .ok M1

/-- The method `CheckInit(format)` behind the constructor `CPUSparseMatrix(format)`: only the
four sparse layouts are accepted. -/
def CheckInit (fresh : FreshBuffers R) (format : MatrixFormat) :
    Except Error (CPUSparseMatrix R) :=
  if format ≠ .matrixFormatSparseCSC ∧ format ≠ .matrixFormatSparseCSR
      ∧ format ≠ .matrixFormatSparseBlockCol ∧ format ≠ .matrixFormatSparseBlockRow then
    .error .logicError
  else .ok (ZeroInit fresh format)

/-- The constructor `CPUSparseMatrix(format, numRows, numCols, size)`, for one of the four
sparse layouts: `CheckInit(format)` followed by `Resize(numRows, numCols, size, true, false)`. -/
def create (fresh : FreshBuffers R) (format : MatrixFormat) (numRows numCols size : Nat) :
    Outcome (CPUSparseMatrix R) :=
  Resize fresh numRows numCols size true false (ZeroInit fresh format)

/-- The method `Reset()`. -/
def Reset (M : CPUSparseMatrix R) : CPUSparseMatrix R :=
  { M with m_nz := 0, m_colIdx := -1, m_blockSize := 0 }

/-- The automatic resize at the head of `SetValue`:
`if (m_elemSizeAllocated < m_nz + 1) Resize(m_numRows, m_numCols, m_nz + 100, true, true)`. -/
def autoGrow (fresh : FreshBuffers R) (M : CPUSparseMatrix R) : Outcome (CPUSparseMatrix R) :=
  if M.m_elemSizeAllocated < M.m_nz + 1 then
    Resize fresh M.m_numRows M.m_numCols (M.m_nz + 100) true true M
  else .ok M

/-- The body of `SetValue` after the automatic resize: bounds checks, write of the value and of
its major index, consistency check, stamps of the secondary index, increment of `m_nz`. -/
def storeEntry (row col : Nat) (v : R) (M1 : CPUSparseMatrix R) : Outcome (CPUSparseMatrix R) :=
  if row ≥ M1.m_numRows then .raised .logicError M1
  else if col ≥ M1.m_numCols then .raised .logicError M1
  else
    let r : Nat := if M1.m_format = .matrixFormatSparseCSC then row else col
    let c : Nat := if M1.m_format = .matrixFormatSparseCSC then col else row
    let M2 : CPUSparseMatrix R :=
      { M1 with
        m_pArray := Function.update M1.m_pArray M1.m_nz v
        m_unCompIndex := Function.update M1.m_unCompIndex M1.m_nz r }
    if M2.m_nz > 0 ∧ (c : Int) = M2.m_colIdx ∧ r ≤ M2.m_unCompIndex (M2.m_nz - 1) then
      .raised .logicError M2
    else
      let M3 : CPUSparseMatrix R :=
        if (c : Int) ≠ M2.m_colIdx then
          { M2 with
            m_compIndex := Function.update M2.m_compIndex c M2.m_nz
            m_colIdx := (c : Int) }
        else M2
      .ok { M3 with
        m_compIndex := Function.update M3.m_compIndex (c + 1) (M3.m_nz + 1)
        m_nz := M3.m_nz + 1 }

/-- The method `SetValue(row, col, v)`: format check, automatic resize, then the store. -/
def SetValue (fresh : FreshBuffers R) (row col : Nat) (v : R) (M : CPUSparseMatrix R) :
    Outcome (CPUSparseMatrix R) :=
  if M.m_format ≠ .matrixFormatSparseCSC ∧ M.m_format ≠ .matrixFormatSparseCSR then
    .raised .logicError M
  else
    match autoGrow fresh M with
    | .raised e M1 => .raised e M1
    | .ok M1 => storeEntry row col v M1

end CPUSparseMatrix

/-- Indices visited by the loop `for (p = lo; p < hi; p++)`. -/
def loopRange (lo hi : Nat) : List Nat := List.range' lo (hi - lo)

section Kernels

variable {R : Type} [CommRing R] [DecidableEq R]

/-- Innermost loop of `MultiplyAndWeightedAdd`, no transpose, for the nonzero `(i, j, val)`:
`for h < lhs.GetNumRows(): c(h,j) += alpha * lhs(h,i) * val`. -/
def mwaNoTransStep (alpha : R) (lhs : CPUMatrix R) (i j : Nat) (val : R) (c : CPUMatrix R) :
    CPUMatrix R :=
  (List.range lhs.GetNumRows).foldl
    (fun c h => c.set h j (c.get h j + alpha * lhs.get h i * val)) c

/-- Innermost loop of `MultiplyAndWeightedAdd`, transposed right operand, for the nonzero
`(i, j, val)`: `for h < lhs.GetNumRows(): c(h,i) += alpha * lhs(h,j) * val`. -/
def mwaTransBStep (alpha : R) (lhs : CPUMatrix R) (i j : Nat) (val : R) (c : CPUMatrix R) :
    CPUMatrix R :=
  (List.range lhs.GetNumRows).foldl
    (fun c h => c.set h i (c.get h i + alpha * lhs.get h j * val)) c

/-- The column-by-column scan shared by the two implemented cases of `MultiplyAndWeightedAdd`:
`for j < rhs.GetNumCols(): for p in [m_compIndex[j], m_compIndex[j+1])`, with
`i = m_unCompIndex[p]`, `val = m_pArray[p]`, running `step i j val`. -/
def cscScan {σ : Type} (rhs : CPUSparseMatrix R) (step : Nat → Nat → R → σ → σ) (s : σ) : σ :=
  (List.range rhs.GetNumCols).foldl
    (fun s j =>
      (loopRange (rhs.m_compIndex j) (rhs.m_compIndex (j + 1))).foldl
        (fun s p => step (rhs.m_unCompIndex p) j (rhs.m_pArray p) s) s) s

/-- The static method `MultiplyAndWeightedAdd(alpha, lhs, transposeA, rhs, transposeB, beta, c)`
(`c = alpha*op(lhs)*op(rhs) + beta*c`); `fresh` is the content `c` gets if it is resized. -/
def MultiplyAndWeightedAdd (fresh : Nat → R) (alpha : R) (lhs : CPUMatrix R)
    (transposeA : Bool) (rhs : CPUSparseMatrix R) (transposeB : Bool) (beta : R)
    (c : CPUMatrix R) : Outcome (CPUMatrix R) :=
  if lhs.IsEmpty || rhs.IsEmpty then .raised .logicError c
  else
    let m : Nat := if transposeA then lhs.GetNumCols else lhs.GetNumRows
    let k : Nat := if transposeA then lhs.GetNumRows else lhs.GetNumCols
    let l : Nat := if transposeB then rhs.GetNumCols else rhs.GetNumRows
    let n : Nat := if transposeB then rhs.GetNumRows else rhs.GetNumCols
    if k ≠ l then .raised .invalidArgument c
    else
      let c1 : CPUMatrix R :=
        if c.GetNumRows ≠ m ∨ c.GetNumCols ≠ n then c.Resize fresh m n else c
      let c2 : CPUMatrix R :=
        if beta = 0 then c1.memsetZero
        else if beta ≠ 1 then
          CPUMatrix.foreach_coord (fun i j c => c.set i j (beta * c.get i j)) c1
        else c1
      if rhs.GetFormat ≠ .matrixFormatSparseCSC then .raised .notImplemented c2
      else if !transposeA && !transposeB then
        .ok (cscScan rhs (fun i j val c => mwaNoTransStep alpha lhs i j val c) c2)
      else if !transposeA && transposeB then
        .ok (cscScan rhs (fun i j val c => mwaTransBStep alpha lhs i j val c) c2)
      else if transposeA && !transposeB then .raised .notImplemented c2
      else .raised .notImplemented c2

/-- Loop state of `MultiplyAndAdd`: the map `w2Id` (a `std::map<size_t,size_t>`, kept as the
list of its key/value pairs in insertion order) and the result matrix. -/
structure MulAddState (R : Type) where
  w2Id : List (Nat × Nat)
  c : CPUSparseMatrix R

/-- Body of the nonzero loop of `MultiplyAndAdd` for the nonzero `(i, j, val)`. -/
def multiplyAndAddStep (alpha : R) (lhs : CPUMatrix R) (i j : Nat) (val : R)
    (s : MulAddState R) : MulAddState R :=
  let isNew : Bool := (s.w2Id.lookup i).isNone
  let s1 : MulAddState R :=
    if isNew then
      { w2Id := s.w2Id ++ [(i, s.w2Id.length)]
        c := { s.c with
          m_blockIds := Function.update s.c.m_blockIds s.c.m_blockSize i
          m_blockSize := s.c.m_blockSize + 1 } }
    else s
  let first : Bool := isNew
  let pos : Nat := (s1.w2Id.lookup i).getD 0 * lhs.GetNumRows
  let written : (Nat → R) × Nat :=
    (List.range lhs.GetNumRows).foldl
      (fun (a : (Nat → R) × Nat) h =>
        (if first then Function.update a.1 a.2 (alpha * lhs.get h j * val)
         else Function.update a.1 a.2 (a.1 a.2 + alpha * lhs.get h j * val), a.2 + 1))
      (s1.c.m_pArray, pos)
  { s1 with c := { s1.c with m_pArray := written.1 } }

/-- The static method `MultiplyAndAdd(alpha, lhs, transposeA, rhs, transposeB, c)` producing a
block-sparse-column `c = alpha*op(lhs)*op(rhs)`; `fresh` is the content of the buffers `c`
gets if it is reallocated. The loop writes `c.m_blockIds[c.m_blockSize] = i` right after
`c.SetFormat(matrixFormatSparseBlockCol)` and `c.Resize(...)`, with `c.m_blockSize` counting
up from 0: the offsets written are `0 .. blockCount - 1`, so the run stays inside the array
`m_blockIds` exactly when the final block count is at most `blockIdsLength`. Otherwise (for
instance when `c` was allocated in a compressed format and is not reallocated, `m_blockIds`
being still null) the run has written outside the array: `memoryFault`. -/
def MultiplyAndAdd (fresh : FreshBuffers R) (alpha : R) (lhs : CPUMatrix R)
    (transposeA : Bool) (rhs : CPUSparseMatrix R) (transposeB : Bool)
    (c : CPUSparseMatrix R) : Outcome (CPUSparseMatrix R) :=
  if lhs.IsEmpty || rhs.IsEmpty then .raised .logicError c
  else
    let m : Nat := if transposeA then lhs.GetNumCols else lhs.GetNumRows
    let k : Nat := if transposeA then lhs.GetNumRows else lhs.GetNumCols
    let l : Nat := if transposeB then rhs.GetNumCols else rhs.GetNumRows
    let n : Nat := if transposeB then rhs.GetNumRows else rhs.GetNumCols
    if k ≠ l then .raised .invalidArgument c
    else
      let c0 : CPUSparseMatrix R := c.Reset
      if !transposeA && !transposeB then .raised .notImplemented c0
      else if !transposeA && transposeB then
        if rhs.GetFormat ≠ .matrixFormatSparseCSC then .raised .notImplemented c0
        else
          match CPUSparseMatrix.Resize fresh m n (m * min n rhs.m_nz) true false
              (c0.SetFormat .matrixFormatSparseBlockCol) with
          | .raised e c1 => .raised e c1
          | .ok c1 =>
            let s : MulAddState R :=
              cscScan rhs (fun i j val s => multiplyAndAddStep alpha lhs i j val s)
                { w2Id := [], c := c1 }
            if s.c.m_blockSize > c1.blockIdsLength then .raised .memoryFault s.c
            else
              let c2 : CPUSparseMatrix R := { s.c with m_nz := s.c.m_blockSize * m }
              if c2.m_nz > c2.GetSizeAllocated then .raised .logicError c2
              else .ok c2
      else if transposeA && !transposeB then .raised .notImplemented c0
      else .raised .notImplemented c0

/-- The static method `ScaleAndAdd(alpha, lhs, rhs)` (`rhs += alpha * lhs`); `lhs` is a const
reference, only the dense `rhs` is returned. -/
def ScaleAndAdd (alpha : R) (lhs : CPUSparseMatrix R) (rhs : CPUMatrix R) :
    Outcome (CPUMatrix R) :=
  if lhs.IsEmpty || rhs.IsEmpty then .raised .logicError rhs
  else if lhs.GetNumRows ≠ rhs.GetNumRows ∨ lhs.GetNumCols ≠ rhs.GetNumCols then
    .raised .invalidArgument rhs
  else if lhs.GetFormat = .matrixFormatSparseCSC ∨ lhs.GetFormat = .matrixFormatSparseCSR then
    let col_num : Nat :=
      if lhs.m_format = .matrixFormatSparseCSC then lhs.GetNumCols else lhs.GetNumRows
    .ok ((List.range col_num).foldl
      (fun rhs j =>
        (loopRange (lhs.m_compIndex j) (lhs.m_compIndex (j + 1))).foldl
          (fun rhs p =>
            let i : Nat := lhs.m_unCompIndex p
            let val : R := lhs.m_pArray p
            let r : Nat := if lhs.m_format = .matrixFormatSparseCSC then i else j
            let c : Nat := if lhs.m_format = .matrixFormatSparseCSC then j else i
            rhs.set r c (rhs.get r c + alpha * val)) rhs) rhs)
  else if lhs.m_format = .matrixFormatSparseBlockCol
      ∨ lhs.m_format = .matrixFormatSparseBlockRow then
    .ok ((List.range lhs.m_blockSize).foldl
      (fun rhs j =>
        let i : Nat := lhs.m_blockIds j
        let len : Nat :=
          if lhs.m_format = .matrixFormatSparseBlockCol then lhs.GetNumRows
          else lhs.GetNumCols
        let start : Nat := j * len
        (loopRange start (start + len)).foldl
          (fun rhs p =>
            let val : R := lhs.m_pArray p
            let r : Nat :=
              if lhs.m_format = .matrixFormatSparseBlockCol then p - start else i
            let c : Nat :=
              if lhs.m_format = .matrixFormatSparseBlockCol then i else p - start
            rhs.set r c (rhs.get r c + alpha * val)) rhs) rhs)
  else .raised .runtimeError rhs

end Kernels

/-! ## Specification-side vocabulary -/

section SpecVocabulary

variable {R : Type}

/-- Well-formed compressed structure, in the words of the spec: `secondaryIndex[0] = 0`, the
secondary index is non-decreasing over the lanes, `secondaryIndex[laneCount] = nzCount`, and
every stored major index is below `bound` (the number of rows for CSC, of columns for CSR). -/
def WellFormedLanes (M : CPUSparseMatrix R) (lanes bound : Nat) : Prop :=
  M.m_compIndex 0 = 0
    ∧ (∀ j < lanes, M.m_compIndex j ≤ M.m_compIndex (j + 1))
    ∧ M.m_compIndex lanes = M.m_nz
    ∧ ∀ p < M.m_nz, M.m_unCompIndex p < bound

/-- Well-formed CSC matrix: CSC format with a well-formed column index and every row id
below the number of rows. -/
def WellFormedCSC (M : CPUSparseMatrix R) : Prop :=
  M.m_format = .matrixFormatSparseCSC ∧ WellFormedLanes M M.m_numCols M.m_numRows

/-- Well-formed CSR matrix: CSR format with a well-formed row index and every column id
below the number of columns. -/
def WellFormedCSR (M : CPUSparseMatrix R) : Prop :=
  M.m_format = .matrixFormatSparseCSR ∧ WellFormedLanes M M.m_numRows M.m_numCols

instance (M : CPUSparseMatrix R) (lanes bound : Nat) : Decidable (WellFormedLanes M lanes bound) := by
  unfold WellFormedLanes; infer_instance

instance (M : CPUSparseMatrix R) : Decidable (WellFormedCSC M) := by
  unfold WellFormedCSC; infer_instance

instance (M : CPUSparseMatrix R) : Decidable (WellFormedCSR M) := by
  unfold WellFormedCSR; infer_instance

/-- Sum of the values stored in lane `lane` with major index `major`, `0` when none is
stored. -/
def storedAt [AddCommMonoid R] (M : CPUSparseMatrix R) (lane major : Nat) : R :=
  ∑ p in Finset.Ico (M.m_compIndex lane) (M.m_compIndex (lane + 1)),
    if M.m_unCompIndex p = major then M.m_pArray p else 0

/-- Logical cell `(i, j)` of a CSC matrix: the sum of the stored values of row `i` in column
`j`. -/
def cscEntry [AddCommMonoid R] (M : CPUSparseMatrix R) (i j : Nat) : R := storedAt M j i

/-- Logical cell `(i, j)` of a CSR matrix: the sum of the stored values of column `j` in row
`i`. -/
def csrEntry [AddCommMonoid R] (M : CPUSparseMatrix R) (i j : Nat) : R := storedAt M i j

/-- Logical cell `(r, c)` of a compressed matrix: the sum of the values stored for it (row id
`r` within column `c` for CSC, column id `c` within row `r` for CSR), `0` when none is. -/
def compressedEntry {R : Type} [AddCommMonoid R] (M : CPUSparseMatrix R) (r c : Nat) : R :=
  if M.m_format = .matrixFormatSparseCSC then cscEntry M r c else csrEntry M r c

/-- A step on dense matrices with `m` rows that keeps the shape and adds `g x` to every
buffer cell `x`. -/
def AddsTo [Add R] (m : Nat) (F : CPUMatrix R → CPUMatrix R) (g : Nat → R) : Prop :=
  ∀ c : CPUMatrix R, c.m_numRows = m →
    (F c).m_numRows = m ∧ (F c).m_numCols = c.m_numCols
      ∧ ∀ x, (F c).m_pArray x = c.m_pArray x + g x

/-- A step on dense matrices with `m` rows that keeps the shape and multiplies every buffer
cell `x` by `w x`. -/
def ScalesBy [Mul R] (m : Nat) (F : CPUMatrix R → CPUMatrix R) (w : Nat → R) : Prop :=
  ∀ c : CPUMatrix R, c.m_numRows = m →
    (F c).m_numRows = m ∧ (F c).m_numCols = c.m_numCols
      ∧ ∀ x, (F c).m_pArray x = w x * c.m_pArray x

end SpecVocabulary

/-! ## Concrete operands used by the witnesses and counterexamples -/

section Examples

/-- A sparse matrix over the integers with the given header and buffers, no name, no block
(`m_blockIds` is null). -/
def exSparse (format : MatrixFormat) (numRows numCols alloc compIndexSize nz : Nat)
    (colIdx : Int) (pArray : Nat → Int) (unCompIndex compIndex : Nat → Nat) :
    CPUSparseMatrix Int :=
  { m_format := format
    m_numRows := numRows
    m_numCols := numCols
    m_elemSizeAllocated := alloc
    m_compIndexSize := compIndexSize
    m_nz := nz
    m_matrixName := none
    m_colIdx := colIdx
    m_blockSize := 0
    m_pArray := pArray
    m_unCompIndex := unCompIndex
    m_compIndex := compIndex
    m_blockIds := fun _ => 0
    blockIdsLength := 0 }

/-- The 2-by-2 dense identity. -/
def exIdentity2 : CPUMatrix Int :=
  { m_numRows := 2, m_numCols := 2, m_pArray := fun x => if x = 0 ∨ x = 3 then 1 else 0 }

/-- A 2-by-2 dense matrix with arbitrary (non-zero) content. -/
def exDense2 : CPUMatrix Int :=
  { m_numRows := 2, m_numCols := 2, m_pArray := fun x => 7 + x }

/-- The 2-by-2 CSC matrix with the single nonzero `(0,1) = 5`: column pointers `[0,0,1]`,
row ids `[0]`, values `[5]`. -/
def exSingle01 : CPUSparseMatrix Int :=
  exSparse .matrixFormatSparseCSC 2 2 1 3 1 1 (fun _ => 5) (fun _ => 0)
    (fun j => if j ≤ 1 then 0 else 1)

end Examples

/-! ## Vocabulary for the block-sparse product -/

section BlockVocabulary

variable {R : Type}

/-- The active block ids `blockIds[0..blockCount)` of a block-sparse matrix. -/
def blockIdList (c : CPUSparseMatrix R) : List Nat := (List.range c.m_blockSize).map c.m_blockIds

end BlockVocabulary

section ExamplesBlock

/-- Fresh buffers filled with arbitrary non-zero content. -/
def exFresh : FreshBuffers Int :=
  { pArray := fun x => 100 + x
    unCompIndex := fun x => 50 + x
    compIndex := fun x => 60 + x
    blockIds := fun x => 70 + x }

/-- Fresh buffers filled with zeros. -/
def exFreshZero : FreshBuffers Int :=
  { pArray := fun _ => 0
    unCompIndex := fun _ => 0
    compIndex := fun _ => 0
    blockIds := fun _ => 0 }

/-- The 2-by-2 CSC matrix with the three nonzeros `(1,0) = 2`, `(0,1) = 3`, `(1,1) = 4`:
column pointers `[0,1,3]`, row ids `[1,0,1]`, values `[2,3,4]`. -/
def exRhs3 : CPUSparseMatrix Int :=
  exSparse .matrixFormatSparseCSC 2 2 3 3 3 1
    (fun p => if p = 0 then 2 else if p = 1 then 3 else 4)
    (fun p => if p = 1 then 0 else 1)
    (fun j => if j = 0 then 0 else if j = 1 then 1 else 3)

/-- A result matrix as the constructor `CPUSparseMatrix(matrixFormatSparseCSC, 5, 4, 9)`
leaves it: 9 values and 6 secondary indices allocated, `m_blockIds` null. -/
def exResultCompressed : CPUSparseMatrix Int :=
  exSparse .matrixFormatSparseCSC 5 4 9 6 0 (-1) (fun x => 11 * x) (fun x => x) (fun x => 2 * x)

end ExamplesBlock

/-! ## Vocabulary for the incremental fill -/

section FillVocabulary

variable {R : Type}

/-- Lane addressed by `SetValue(row, col, _)`: the column for CSC, the row for CSR. -/
def fillLane (f : MatrixFormat) (row col : Nat) : Nat :=
  if f = .matrixFormatSparseCSC then col else row

/-- Major index stored by `SetValue(row, col, _)`: the row for CSC, the column for CSR. -/
def fillMajor (f : MatrixFormat) (row col : Nat) : Nat :=
  if f = .matrixFormatSparseCSC then row else col

/-- Fill-order violation: the matrix holds an entry, the call addresses the current fill lane
and its major index is not above the major index of the last stored entry. -/
def FillOrderViolation (M : CPUSparseMatrix R) (row col : Nat) : Prop :=
  M.m_nz > 0 ∧ (fillLane M.m_format row col : Int) = M.m_colIdx
    ∧ fillMajor M.m_format row col ≤ M.m_unCompIndex (M.m_nz - 1)

/-- The automatic resize of `SetValue` is refused by `Resize`: the matrix is full and its
secondary-index capacity exceeds `max(numRows, numCols) + 1`. -/
def GrowRefused (M : CPUSparseMatrix R) : Prop :=
  M.m_elemSizeAllocated < M.m_nz + 1 ∧ M.m_compIndexSize > max M.m_numRows M.m_numCols + 1

instance (M : CPUSparseMatrix R) (row col : Nat) : Decidable (FillOrderViolation M row col) := by
  unfold FillOrderViolation; infer_instance

instance (M : CPUSparseMatrix R) : Decidable (GrowRefused M) := by
  unfold GrowRefused; infer_instance

/-- What a successful automatic resize keeps of the matrix `M` in the resulting `M1`. -/
structure GrowFrame (M M1 : CPUSparseMatrix R) : Prop where
  format : M1.m_format = M.m_format
  rows : M1.m_numRows = M.m_numRows
  cols : M1.m_numCols = M.m_numCols
  nz : M1.m_nz = M.m_nz
  colIdx : M1.m_colIdx = M.m_colIdx
  alloc : M1.m_elemSizeAllocated
    = if M.m_elemSizeAllocated < M.m_nz + 1 then M.m_nz + 100 else M.m_elemSizeAllocated
  values : ∀ p < M.m_nz, M1.m_pArray p = M.m_pArray p
  major : ∀ p < M.m_nz, M1.m_unCompIndex p = M.m_unCompIndex p
  secondary : (0 < M.m_nz ∨ M.m_nz < M.m_elemSizeAllocated) →
    ∀ i ≤ M.laneCount, M1.m_compIndex i = M.m_compIndex i

/-- One `SetValue` call of a fill sequence, with the content `fresh` the allocator hands out
should this call grow the buffers. -/
structure SetValueCall (R : Type) where
  row : Nat
  col : Nat
  v : R
  fresh : FreshBuffers R

/-- A sequence of `SetValue` calls, stopped by the first exception. -/
def setValues : List (SetValueCall R) → CPUSparseMatrix R → Outcome (CPUSparseMatrix R)
  | [], M => .ok M
  | a :: rest, M =>
    match CPUSparseMatrix.SetValue a.fresh a.row a.col a.v M with
    | .ok M1 => setValues rest M1
    | .raised e M1 => .raised e M1

/-- The lanes addressed by a sequence of calls, in call order. -/
def callLanes (f : MatrixFormat) (calls : List (SetValueCall R)) : List Nat :=
  calls.map fun a => fillLane f a.row a.col

/-- The entries of the secondary index stamped by a sequence of calls: `lane` and `lane + 1`
for every call. -/
def stampedLanes (f : MatrixFormat) (calls : List (SetValueCall R)) : List Nat :=
  (callLanes f calls).flatMap fun c => [c, c + 1]

/-- The matrix after `SetValue(row, col, v)` has stored its entry in `M1` (the state after the
automatic resize): the entry is written at position `m_nz`, the secondary index is stamped at
the lane (on a lane change) and at the next lane, the fill lane and `m_nz` are updated. -/
def storedEntry {R : Type} (row col : Nat) (v : R) (M1 : CPUSparseMatrix R) : CPUSparseMatrix R :=
  { M1 with
    m_pArray := Function.update M1.m_pArray M1.m_nz v
    m_unCompIndex := Function.update M1.m_unCompIndex M1.m_nz (fillMajor M1.m_format row col)
    m_compIndex :=
      Function.update
        (if (fillLane M1.m_format row col : Int) ≠ M1.m_colIdx then
          Function.update M1.m_compIndex (fillLane M1.m_format row col) M1.m_nz
         else M1.m_compIndex)
        (fillLane M1.m_format row col + 1) (M1.m_nz + 1)
    m_colIdx := (fillLane M1.m_format row col : Int)
    m_nz := M1.m_nz + 1 }

/-- Number of calls of a sequence that address a lane below `i`. -/
def countBelow {R : Type} (f : MatrixFormat) (calls : List (SetValueCall R)) (i : Nat) : Nat :=
  (callLanes f calls).countP fun c => decide (c < i)

/-- Invariant of an incremental fill: state `M` reached from the empty matrix `M0` by the
successful calls `done`, whose lanes never decrease. -/
structure FillInv {R : Type} (M0 : CPUSparseMatrix R) (done : List (SetValueCall R))
    (M : CPUSparseMatrix R) : Prop where
  format : M.m_format = M0.m_format
  rows : M.m_numRows = M0.m_numRows
  cols : M.m_numCols = M0.m_numCols
  nz : M.m_nz = done.length
  empty : done = [] → M.m_colIdx = -1
  last : ∀ l, (callLanes M0.m_format done).getLast? = some l → M.m_colIdx = (l : Int)
  below : ∀ x ∈ callLanes M0.m_format done, (x : Int) ≤ M.m_colIdx
  inRange : ∀ x ∈ callLanes M0.m_format done, x < M0.laneCount
  stamps : ∀ i ∈ stampedLanes M0.m_format done,
    M.m_compIndex i = countBelow M0.m_format done i

end FillVocabulary

section ExamplesFill

/-- A CSC matrix constructed 10-by-10 with no reserved entry and then resized to 2-by-2: the
secondary-index capacity stays 11, above `max(2,2) + 1`. -/
def exShrunk : CPUSparseMatrix Int :=
  (CPUSparseMatrix.Resize exFresh 2 2 0 true false
    (CPUSparseMatrix.create exFresh .matrixFormatSparseCSC 10 10 0).state).state

/-- A freshly constructed 2-by-2 CSC matrix with no reserved entry. -/
def exEmpty22 : CPUSparseMatrix Int :=
  (CPUSparseMatrix.create exFresh .matrixFormatSparseCSC 2 2 0).state

/-- A freshly constructed 1-by-4 CSC matrix with no reserved entry. -/
def exEmpty14 (fresh : FreshBuffers Int) : CPUSparseMatrix Int :=
  (CPUSparseMatrix.create fresh .matrixFormatSparseCSC 1 4 0).state

end ExamplesFill

section ExamplesFillSequences

/-- Three ordered calls filling a 2-by-2 CSC matrix: `(1,0) = 5`, `(0,1) = 7`, `(1,1) = 9`. -/
def exCalls : List (SetValueCall Int) :=
  [{ row := 1, col := 0, v := 5, fresh := exFresh },
   { row := 0, col := 1, v := 7, fresh := exFresh },
   { row := 1, col := 1, v := 9, fresh := exFresh }]

/-- Two ordered calls filling columns 0 and 3 of a 1-by-4 CSC matrix, `(0,0) = 5` and
`(0,3) = 7`, leaving columns 1 and 2 without entry; `fresh` is what the allocator hands out. -/
def exGapCalls (fresh : FreshBuffers Int) : List (SetValueCall Int) :=
  [{ row := 0, col := 0, v := 5, fresh := fresh },
   { row := 0, col := 3, v := 7, fresh := fresh }]

/-- Fresh buffers whose secondary-index content is `1` everywhere. -/
def exFreshOne : FreshBuffers Int :=
  { pArray := fun _ => 0
    unCompIndex := fun _ => 0
    compIndex := fun _ => 1
    blockIds := fun _ => 0 }

/-- A dense 1-by-4 matrix. -/
def exDense14 : CPUMatrix Int :=
  { m_numRows := 1, m_numCols := 4, m_pArray := fun x => 10 + x }

end ExamplesFillSequences

/-! ## Vocabulary for capacity management -/

section ResizeVocabulary

variable {R : Type}

/-- The condition under which `Resize(numRows, numCols, reserve, growOnly, _)` reallocates: the
local `reallocate` of the source, `max(numRows, numCols) + 1` being its `newCompIndexSize`. -/
def ResizeReallocates (M : CPUSparseMatrix R) (numRows numCols reserve : Nat)
    (growOnly : Bool) : Prop :=
  M.m_elemSizeAllocated < reserve
    ∨ (growOnly = false ∧ M.m_elemSizeAllocated > reserve)
    ∨ M.m_compIndexSize < max numRows numCols + 1

instance (M : CPUSparseMatrix R) (numRows numCols reserve : Nat) (growOnly : Bool) :
    Decidable (ResizeReallocates M numRows numCols reserve growOnly) := by
  unfold ResizeReallocates; infer_instance

/-- The result matrix `c` handed to `MultiplyAndAdd` has a block-id array long enough once the
kernel has run `c.Reset(); c.SetFormat(matrixFormatSparseBlockCol);
c.Resize(m, n, reserve, true, false)`: either the `Resize` reallocates (`Reset` and `SetFormat`
leave the two capacity counters alone) and, the format now being a block one, allocates
`m_blockIds` with `max(m, n) + 1` elements, or the array `m_blockIds` that `c` brings along has
at least `m_compIndexSize` elements, as it has in every matrix allocated in a block format.
The remaining case is a `c` allocated in a compressed format whose capacities already
suffice: the source then keeps the null `m_blockIds` and writes through it. -/
def HasBlockBuffers (c : CPUSparseMatrix R) (m n reserve : Nat) : Prop :=
  ResizeReallocates c m n reserve true ∨ c.m_compIndexSize ≤ c.blockIdsLength

instance (c : CPUSparseMatrix R) (m n reserve : Nat) :
    Decidable (HasBlockBuffers c m n reserve) := by
  unfold HasBlockBuffers; infer_instance

/-- The matrix is in one of the four sparse layouts accepted by `CheckInit`. -/
def IsSparseLayout (M : CPUSparseMatrix R) : Prop :=
  CPUSparseMatrix.isCompressed M.m_format = true ∨ CPUSparseMatrix.isBlock M.m_format = true

instance (M : CPUSparseMatrix R) : Decidable (IsSparseLayout M) := by
  unfold IsSparseLayout; infer_instance

/-- The capacity invariant of the spec: `nzCount <= allocatedCapacity`. -/
def CapacityInv (M : CPUSparseMatrix R) : Prop := M.m_nz ≤ M.m_elemSizeAllocated

instance (M : CPUSparseMatrix R) : Decidable (CapacityInv M) := by
  unfold CapacityInv; infer_instance

end ResizeVocabulary

section ExamplesResize

/-- A CSC matrix freshly constructed 10-by-10 with no reserved entry: capacity 0,
secondary-index capacity 11. -/
def exBuilt1010 : CPUSparseMatrix Int :=
  (CPUSparseMatrix.create exFresh .matrixFormatSparseCSC 10 10 0).state

end ExamplesResize

/-! ## Bulk load -/

namespace CPUSparseMatrix

variable {R : Type}

/-- Modelled from the spec: `NzSize()` (header) in elements, the `nzCount` stored values. -/
def NzSize (M : CPUSparseMatrix R) : Nat := M.m_nz

/-- Modelled from the spec: `MajorIndexSize()` (header) in elements, one major index per stored
value. -/
def MajorIndexSize (M : CPUSparseMatrix R) : Nat := M.m_nz

/-- Modelled from the spec: `SecondaryIndexSize()` (header) in elements, the length of the
secondary-index array. -/
def SecondaryIndexSize (M : CPUSparseMatrix R) : Nat := M.SecondaryIndexCount

/-- Modelled from the spec: `RowSize()` (header) in elements; the row ids are the major index
of a CSC matrix and the secondary index of a CSR matrix. -/
def RowSize (M : CPUSparseMatrix R) : Nat :=
  if M.m_format = .matrixFormatSparseCSR then M.SecondaryIndexSize else M.MajorIndexSize

/-- Modelled from the spec: `ColSize()` (header) in elements; the column ids are the secondary
index of a CSC matrix and the major index of a CSR matrix. -/
def ColSize (M : CPUSparseMatrix R) : Nat :=
  if M.m_format = .matrixFormatSparseCSR then M.MajorIndexSize else M.SecondaryIndexSize

/-- Modelled from the spec: the call `memcpy(RowLocation(), src, RowSize())`, `RowLocation()`
(header) being the buffer of the row ids. -/
def copyToRowLocation (src : Nat → Nat) (M : CPUSparseMatrix R) : CPUSparseMatrix R :=
  if M.m_format = .matrixFormatSparseCSR then
    { M with m_compIndex := memcpy M.m_compIndex src M.RowSize }
  else { M with m_unCompIndex := memcpy M.m_unCompIndex src M.RowSize }

/-- Modelled from the spec: the call `memcpy(ColLocation(), src, ColSize())`, `ColLocation()`
(header) being the buffer of the column ids. -/
def copyToColLocation (src : Nat → Nat) (M : CPUSparseMatrix R) : CPUSparseMatrix R :=
  if M.m_format = .matrixFormatSparseCSR then
    { M with m_unCompIndex := memcpy M.m_unCompIndex src M.ColSize }
  else { M with m_compIndex := memcpy M.m_compIndex src M.ColSize }

/-- The method `SetMatrixFromCSCFormat(h_CSCCol, h_Row, h_Val, nz, numRows, numCols)`. -/
def SetMatrixFromCSCFormat (fresh : FreshBuffers R) (h_CSCCol h_Row : Nat → Nat)
    (h_Val : Nat → R) (nz numRows numCols : Nat) (M : CPUSparseMatrix R) :
    Outcome (CPUSparseMatrix R) :=
  match Resize fresh numRows numCols nz true false
      { M with m_format := .matrixFormatSparseCSC } with
  | .raised e M1 => .raised e M1
  | .ok M1 =>
    let M2 : CPUSparseMatrix R := M1.SetNzCount nz
    let M3 : CPUSparseMatrix R := M2.copyToRowLocation h_Row
    let M4 : CPUSparseMatrix R := M3.copyToColLocation h_CSCCol
    .ok { M4 with m_pArray := memcpy M4.m_pArray h_Val M4.NzSize }

end CPUSparseMatrix

/-! ## Vocabulary for the replay after `Reset` -/

section ReplayVocabulary

variable {R : Type}

/-- Two sequences of `SetValue` calls make the same calls `(row, col, v)` in the same order;
the content the allocator hands to each call may differ. -/
def SameCalls : List (SetValueCall R) → List (SetValueCall R) → Prop
  | [], [] => True
  | a :: s, b :: t => a.row = b.row ∧ a.col = b.col ∧ a.v = b.v ∧ SameCalls s t
  | _, _ => False

/-- Lockstep invariant of a replay: `A` is the state of the first fill after the calls `done`,
`N` the state of the replay (started from `Reset` of the final state `M`) after the same
calls. The replay has the counters of `A`, the capacities of `M`, the entries of `A` below
`m_nz`, and the buffers of `M` wherever it has not written yet. -/
structure ReplayInv (M : CPUSparseMatrix R) (done : List (SetValueCall R))
    (A N : CPUSparseMatrix R) : Prop where
  format : N.m_format = A.m_format
  rows : N.m_numRows = A.m_numRows
  cols : N.m_numCols = A.m_numCols
  nz : N.m_nz = A.m_nz
  colIdx : N.m_colIdx = A.m_colIdx
  alloc : N.m_elemSizeAllocated = M.m_elemSizeAllocated
  cis : N.m_compIndexSize = M.m_compIndexSize
  low : ∀ p < A.m_nz, N.m_pArray p = A.m_pArray p ∧ N.m_unCompIndex p = A.m_unCompIndex p
  high : ∀ p, A.m_nz ≤ p → N.m_pArray p = M.m_pArray p ∧ N.m_unCompIndex p = M.m_unCompIndex p
  unstamped : ∀ i, i ∉ stampedLanes M.m_format done → N.m_compIndex i = M.m_compIndex i

end ReplayVocabulary

section ExamplesReplay

/-- The calls of `exCalls` issued again, the allocator now holding other content. -/
def exReplayCalls : List (SetValueCall Int) :=
  [{ row := 1, col := 0, v := 5, fresh := exFreshOne },
   { row := 0, col := 1, v := 7, fresh := exFreshOne },
   { row := 1, col := 1, v := 9, fresh := exFreshOne }]

end ExamplesReplay

/-! ## Column slice -/

namespace CPUMatrix

variable {R : Type}

/-- Modelled from the spec: the constructor `CPUMatrix(numRows, numCols)` of the dense
collaborator, a freshly allocated `numRows`-by-`numCols` matrix whose elements are all zero. -/
def create [Zero R] (numRows numCols : Nat) : CPUMatrix R :=
  { m_numRows := numRows, m_numCols := numCols, m_pArray := fun _ => 0 }

end CPUMatrix

namespace CPUSparseMatrix

variable {R : Type}

/-- The method `ColumnSliceToDense(startColumn, numCols)`, a `const` method: the sparse matrix
is only read, the dense slice is returned. The two arguments are `size_t` values and the sums
`startColumn + numCols`, `startColumn + j` and `startColumn + j + 1` are computed in `size_t`
(64 bits wide): they wrap modulo `2 ^ 64`. -/
def ColumnSliceToDense [Zero R] (M : CPUSparseMatrix R) (startColumn numCols : Nat) :
    Except Error (CPUMatrix R) :=
  if numCols = 0 then .error .logicError
  else if (startColumn + numCols) % 2 ^ 64 > M.m_numCols then .error .logicError
  else if M.m_format ≠ .matrixFormatSparseCSC then .error .notImplemented
  else
    let slice : CPUMatrix R := CPUMatrix.create M.m_numRows numCols
    .ok ((List.range numCols).foldl
      (fun slice j =>
        (loopRange (M.m_compIndex ((startColumn + j) % 2 ^ 64))
            (M.m_compIndex ((startColumn + j + 1) % 2 ^ 64))).foldl
          (fun slice p => slice.set (M.m_unCompIndex p) j (M.m_pArray p)) slice) slice)

end CPUSparseMatrix

section SliceVocabulary

variable {R : Type}

/-- The writes `slice(i, j) = value` made by `ColumnSliceToDense(startColumn, numCols)`, in
program order. -/
def sliceWrites (M : CPUSparseMatrix R) (startColumn numCols : Nat) : List (Nat × Nat × R) :=
  (List.range numCols).flatMap fun j =>
    (loopRange (M.m_compIndex (startColumn + j)) (M.m_compIndex (startColumn + j + 1))).map
      fun p => (M.m_unCompIndex p, j, M.m_pArray p)

/-- The row ids stored within each column are pairwise distinct. -/
def DistinctRowIds (M : CPUSparseMatrix R) : Prop :=
  ∀ j < M.m_numCols, ∀ p < M.m_compIndex (j + 1), ∀ q < M.m_compIndex (j + 1),
    M.m_compIndex j ≤ p ∧ M.m_compIndex j ≤ q ∧ M.m_unCompIndex p = M.m_unCompIndex q → p = q

instance (M : CPUSparseMatrix R) : Decidable (DistinctRowIds M) := by
  unfold DistinctRowIds; infer_instance

end SliceVocabulary

/-! ## Momentum smoothing -/

namespace CPUMatrix

variable {R : Type}

/-- Modelled from the spec: `SetValue(v)` of the dense collaborator, the fill of every element
with `v` (the zero-fill for `v = 0`). -/
def SetValue (v : R) (A : CPUMatrix R) : CPUMatrix R :=
  { A with m_pArray := fun x => if x < A.GetNumElements then v else A.m_pArray x }

end CPUMatrix

section Smoothing

variable {R : Type} [CommRing R]

/-- The body of the inner loop of `NormalGrad` at buffer position `p` and cell `(row, col)`:
`c(row, col) = (1-momentum)*val + momentum*c(row, col); m_pArray[p] = c(row, col)`. The state
is the gradient matrix (`this`) together with the dense `c`. -/
def normalGradStep (momentum : R) (p row col : Nat) (s : CPUSparseMatrix R × CPUMatrix R) :
    CPUSparseMatrix R × CPUMatrix R :=
  let val : R := s.1.m_pArray p
  let c : CPUMatrix R := s.2.set row col ((1 - momentum) * val + momentum * s.2.get row col)
  ({ s.1 with m_pArray := Function.update s.1.m_pArray p (c.get row col) }, c)

/-- The method `NormalGrad(c, momentum)`; `fresh` is the content `c` gets from its `Resize`.
The loops write only `m_pArray` and the elements of `c`, so the format, the dimensions, the
block count and the block ids are read from the matrix on entry. -/
def NormalGrad (fresh : Nat → R) (momentum : R) (M : CPUSparseMatrix R) (c : CPUMatrix R) :
    Outcome (CPUSparseMatrix R × CPUMatrix R) :=
  let c1 : CPUMatrix R :=
    if c.IsEmpty then (c.Resize fresh M.GetNumRows M.GetNumCols).SetValue 0 else c
  if M.m_format = .matrixFormatSparseBlockCol ∨ M.m_format = .matrixFormatSparseBlockRow then
    .ok ((List.range M.m_blockSize).foldl
      (fun s j =>
        let i : Nat := M.m_blockIds j
        let len : Nat :=
          if M.m_format = .matrixFormatSparseBlockCol then M.GetNumRows else M.GetNumCols
        let start : Nat := j * len
        (loopRange start (start + len)).foldl
          (fun s p =>
            let row : Nat := if M.m_format = .matrixFormatSparseBlockCol then p - start else i
            let col : Nat := if M.m_format = .matrixFormatSparseBlockCol then i else p - start
            normalGradStep momentum p row col s) s) (M, c1))
  else .raised .runtimeError (M, c1)

end Smoothing

section SmoothingVocabulary

variable {R : Type}

/-- Length of a block: `numRows` for block-sparse-column, `numCols` for block-sparse-row. -/
def blockLen (M : CPUSparseMatrix R) : Nat :=
  if M.m_format = .matrixFormatSparseBlockCol then M.m_numRows else M.m_numCols

/-- Row of the logical cell of element `h` of block `j`. -/
def blockCellRow (M : CPUSparseMatrix R) (j h : Nat) : Nat :=
  if M.m_format = .matrixFormatSparseBlockCol then h else M.m_blockIds j

/-- Column of the logical cell of element `h` of block `j`. -/
def blockCellCol (M : CPUSparseMatrix R) (j h : Nat) : Nat :=
  if M.m_format = .matrixFormatSparseBlockCol then M.m_blockIds j else h

/-- The steps of `NormalGrad` in program order: buffer position, row and column. -/
def gradSteps (M : CPUSparseMatrix R) : List (Nat × Nat × Nat) :=
  (List.range M.m_blockSize).flatMap fun j =>
    (loopRange (j * blockLen M) (j * blockLen M + blockLen M)).map fun p =>
      (p, blockCellRow M j (p - j * blockLen M), blockCellCol M j (p - j * blockLen M))

/-- Well-formed block-sparse matrix: a block format, pairwise distinct block ids, each the
index of a column (block-sparse-column) or of a row (block-sparse-row) of the matrix. -/
def WellFormedBlocks (M : CPUSparseMatrix R) : Prop :=
  (M.m_format = .matrixFormatSparseBlockCol ∨ M.m_format = .matrixFormatSparseBlockRow)
    ∧ (blockIdList M).Nodup
    ∧ ∀ j < M.m_blockSize, M.m_blockIds j
        < if M.m_format = .matrixFormatSparseBlockCol then M.m_numCols else M.m_numRows

instance (M : CPUSparseMatrix R) : Decidable (WellFormedBlocks M) := by
  unfold WellFormedBlocks; infer_instance

end SmoothingVocabulary

section ExamplesSmoothing

/-- A 2-by-2 block-sparse-column gradient with the single active column 1 holding `(3, 4)`. -/
def exGrad : CPUSparseMatrix Int :=
  { m_format := .matrixFormatSparseBlockCol
    m_numRows := 2
    m_numCols := 2
    m_elemSizeAllocated := 2
    m_compIndexSize := 3
    m_nz := 2
    m_matrixName := none
    m_colIdx := -1
    m_blockSize := 1
    m_pArray := fun p => if p = 0 then 3 else if p = 1 then 4 else 0
    m_unCompIndex := fun _ => 0
    m_compIndex := fun _ => 0
    m_blockIds := fun j => if j = 0 then 1 else 0
    blockIdsLength := 3 }

/-- A dense 2-by-2 state matrix with `c(0,0) = 10`, `c(1,0) = 20`, `c(0,1) = 30`,
`c(1,1) = 40`. -/
def exState22 : CPUMatrix Int :=
  { m_numRows := 2, m_numCols := 2, m_pArray := fun x => 10 * (x + 1) }

/-- A dense 1-by-1 state matrix holding `10`. -/
def exState11 : CPUMatrix Int :=
  { m_numRows := 1, m_numCols := 1, m_pArray := fun _ => 10 }

end ExamplesSmoothing

/-! ## Elementwise transforms -/

/-- The C expression `m & ~3` on a non-negative `long`: `m` rounded down to a multiple of 4. -/
def roundDown4 (m : Nat) : Nat := m / 4 * 4

/-- The values taken by `i` in the four-way unrolled loop
`for (long i = 0; i < (m & ~3); i += 4)`. -/
def unrolledRange (m : Nat) : List Nat := (List.range (roundDown4 m / 4)).map fun k => 4 * k

section Transforms

variable {R : Type} [LinearOrderedRing R]

/-- The statement `if (nzValues[i] > pos) nzValues[i] = pos; else if (nzValues[i] < neg)
nzValues[i] = neg;` of `InplaceTruncate`. -/
def truncateAt (pos neg : R) (i : Nat) (nzValues : Nat → R) : Nat → R :=
  if nzValues i > pos then Function.update nzValues i pos
  else if nzValues i < neg then Function.update nzValues i neg
  else nzValues

/-- The statement `if (nzValues[i] > threshold) nzValues[i] -= threshold; else if
(nzValues[i] < -threshold) nzValues[i] += threshold; else nzValues[i] = 0;` of
`InplaceSoftThreshold`. -/
def softThresholdAt (threshold : R) (i : Nat) (nzValues : Nat → R) : Nat → R :=
  if nzValues i > threshold then Function.update nzValues i (nzValues i - threshold)
  else if nzValues i < -threshold then Function.update nzValues i (nzValues i + threshold)
  else Function.update nzValues i 0

/-- The loop structure shared by the elementwise transforms: the four-way unrolled loop over
`[0, m & ~3)` followed by the loop over the remaining positions `[m & ~3, m)`; `body i` is the
statement run for position `i`. -/
def unrolledLoop (m : Nat) (body : Nat → (Nat → R) → Nat → R) (nzValues : Nat → R) : Nat → R :=
  let unrolled : Nat → R :=
    (unrolledRange m).foldl
      (fun v i => body (i + 3) (body (i + 2) (body (i + 1) (body i v)))) nzValues
  (loopRange (roundDown4 m) m).foldl (fun v i => body i v) unrolled

namespace CPUSparseMatrix

/-- The method `InplaceTruncate(threshold)`; `NzValues()` (header) is the value buffer
`m_pArray`. -/
def InplaceTruncate (threshold : R) (M : CPUSparseMatrix R) : CPUSparseMatrix R :=
  let locThresholdPos : R := |threshold|
  let locTHresholdNeg : R := -locThresholdPos
  let m : Nat := M.NzCount
  { M with m_pArray := unrolledLoop m (truncateAt locThresholdPos locTHresholdNeg) M.m_pArray }

/-- The method `InplaceSoftThreshold(threshold)`; `NzValues()` (header) is the value buffer
`m_pArray`. -/
def InplaceSoftThreshold (threshold : R) (M : CPUSparseMatrix R) : CPUSparseMatrix R :=
  let m : Nat := M.NzCount
  { M with m_pArray := unrolledLoop m (softThresholdAt threshold) M.m_pArray }

end CPUSparseMatrix

end Transforms

section ExamplesTransforms

/-- A 1-by-5 CSR matrix over the rationals whose five stored values are `-4, -1, 0, 1, 4`. -/
def exFive : CPUSparseMatrix Rat :=
  { m_format := .matrixFormatSparseCSR
    m_numRows := 1
    m_numCols := 5
    m_elemSizeAllocated := 5
    m_compIndexSize := 6
    m_nz := 5
    m_matrixName := none
    m_colIdx := 0
    m_blockSize := 0
    m_pArray := fun p =>
      if p = 0 then -4 else if p = 1 then -1 else if p = 2 then 0 else if p = 3 then 1 else 4
    m_unCompIndex := fun p => p
    m_compIndex := fun j => if j = 0 then 0 else 5
    m_blockIds := fun _ => 0
    blockIdsLength := 0 }

end ExamplesTransforms

/-! ## Comparison -/

namespace CPUSparseMatrix

variable {R : Type}

/-- Modelled from the spec: the element access `a(i, j)` of the sparse matrix (header), the
logical cell `(row, col)`. For the compressed formats it is the value stored for the cell, 0
when none is; for the block formats it is the element of the dense segment of the cell's
column (block-sparse-column) or row (block-sparse-row), 0 outside the active blocks. -/
def get [AddCommMonoid R] (M : CPUSparseMatrix R) (row col : Nat) : R :=
  if isCompressed M.m_format then compressedEntry M row col
  else if M.m_format = .matrixFormatSparseBlockCol then
    if col ∈ blockIdList M then M.m_pArray ((blockIdList M).indexOf col * M.m_numRows + row)
    else 0
  else if M.m_format = .matrixFormatSparseBlockRow then
    if row ∈ blockIdList M then M.m_pArray ((blockIdList M).indexOf row * M.m_numCols + col)
    else 0
  else 0

end CPUSparseMatrix

section Comparison

variable {R : Type} [LinearOrderedRing R]

/-- The inner loop of `AreEqual` over the rows `rows` of column `j`, with its `break`: the
first mismatch sets `result = false` and leaves the loop. -/
def areEqualColumn (a b : CPUSparseMatrix R) (threshold : R) (j : Nat) :
    List Nat → Bool → Bool
  | [], result => result
  | i :: rows, result =>
    if |a.get i j - b.get i j| > threshold then false
    else areEqualColumn a b threshold j rows result

/-- The static method `AreEqual(a, b, threshold)`; `foreach_coord(i, j, a)` is the loop over
the columns `j` and, inside, over the rows `i` of `a`, so the `break` leaves the loop over the
rows only. -/
def AreEqual (a b : CPUSparseMatrix R) (threshold : R) : Except Error Bool :=
  if a.IsEmpty || b.IsEmpty then .error .logicError
  else if a.GetNumRows ≠ b.GetNumRows ∨ a.GetNumCols ≠ b.GetNumCols then .ok false
  else
    .ok ((List.range a.GetNumCols).foldl
      (fun result j => areEqualColumn a b threshold j (List.range a.GetNumRows) result) true)

end Comparison

/-! ## Serialization -/

/-- Modelled from the spec: one item of the binary stream kept by the `File` collaborator: a
begin-section or end-section marker, a `size_t`, a string, the integer format tag, an element
value or a sparse index. -/
inductive StreamItem (R : Type) where
  | beginSection
  | endSection
  | size (n : Nat)
  | name (s : String)
  | tag (f : MatrixFormat)
  | value (v : R)
  | index (i : Nat)
  deriving DecidableEq

section Serialization

variable {R : Type}

/-- A read that finds no item of the expected kind fails. -/
def orFail {α : Type} : Option α → Except Error α
  | some a => .ok a
  | none => .error .runtimeError

/-- Modelled from the spec: `stream.GetMarker(fileMarkerBeginSection, "BMAT")`. -/
def readBegin : List (StreamItem R) → Option (List (StreamItem R))
  | .beginSection :: rest => some rest
  | _ => none

/-- Modelled from the spec: `stream.GetMarker(fileMarkerEndSection, "EMAT")`. -/
def readEnd : List (StreamItem R) → Option (List (StreamItem R))
  | .endSection :: rest => some rest
  | _ => none

/-- Modelled from the spec: `stream >> n` for a `size_t`. -/
def readSize : List (StreamItem R) → Option (Nat × List (StreamItem R))
  | .size n :: rest => some (n, rest)
  | _ => none

/-- Modelled from the spec: `stream >> s` for a string. -/
def readName : List (StreamItem R) → Option (String × List (StreamItem R))
  | .name s :: rest => some (s, rest)
  | _ => none

/-- Modelled from the spec: `stream >> format` for the integer format tag. -/
def readTag : List (StreamItem R) → Option (MatrixFormat × List (StreamItem R))
  | .tag f :: rest => some (f, rest)
  | _ => none

/-- The loop `for (i = 0; i < n; ++i) stream >> dataBuffer[i]`, with `count` iterations left
and `i` the current position. -/
def readValues : Nat → Nat → List (StreamItem R) → (Nat → R) →
    Option ((Nat → R) × List (StreamItem R))
  | 0, _, stream, buffer => some (buffer, stream)
  | count + 1, i, .value v :: rest, buffer =>
    readValues count (i + 1) rest (Function.update buffer i v)
  | _ + 1, _, _, _ => none

/-- The loop `for (i = 0; i < n; ++i) stream >> index[i]`, with `count` iterations left and
`i` the current position. -/
def readIndices : Nat → Nat → List (StreamItem R) → (Nat → Nat) →
    Option ((Nat → Nat) × List (StreamItem R))
  | 0, _, stream, buffer => some (buffer, stream)
  | count + 1, i, .index x :: rest, buffer =>
    readIndices count (i + 1) rest (Function.update buffer i x)
  | _ + 1, _, _, _ => none

/-- The function `operator<<(File& stream, const CPUSparseMatrix<ElemType>& us)`;
`sizeofElem` is `sizeof(ElemType)`. The source declares the locals `nz`, `numRows`,
`numCols` without initialising them and never assigns them: the parameters of the same names
are the values they hold. `MajorIndexLocation()` and `SecondaryIndexLocation()` (header) are
the major-index and the secondary-index buffer. -/
def operatorPut (sizeofElem nz numRows numCols : Nat) (stream : List (StreamItem R))
    (us : CPUSparseMatrix R) : Except Error (List (StreamItem R)) :=
  if us.GetFormat ≠ .matrixFormatSparseCSC ∧ us.GetFormat ≠ .matrixFormatSparseCSR then
    .error .notImplemented
  else
    let s1 : List (StreamItem R) := stream ++ [.beginSection, .size sizeofElem]
    let s2 : List (StreamItem R) :=
      match us.m_matrixName with
      | none => s1 ++ [.name "nnmatrix"]
      | some s => s1 ++ [.name s]
    let compressedSize : Nat := us.SecondaryIndexCount
    let format : MatrixFormat := us.GetFormat
    let s3 : List (StreamItem R) :=
      s2 ++ [.tag format, .size nz, .size numCols, .size numRows]
    let s4 : List (StreamItem R) :=
      if nz > 0 then
        s3 ++ (List.range nz).map (fun i => StreamItem.value (us.m_pArray i))
          ++ (List.range nz).map (fun i => StreamItem.index (us.m_unCompIndex i))
          ++ (List.range compressedSize).map (fun i => StreamItem.index (us.m_compIndex i))
      else s3
    .ok (s4 ++ [.endSection])

/-- The function `operator>>(File& stream, CPUSparseMatrix<ElemType>& us)`; `sizeofElem` is
`sizeof(ElemType)`, `fresh` the content of the buffers allocated by `Resize`. It returns the
rest of the stream and the matrix read. -/
def operatorGet (fresh : FreshBuffers R) (sizeofElem : Nat) (stream : List (StreamItem R))
    (us : CPUSparseMatrix R) : Except Error (List (StreamItem R) × CPUSparseMatrix R) := do
  let s1 ← orFail (readBegin stream)
  let (elsize, s2) ← orFail (readSize s1)
  if sizeofElem ≠ elsize then throw Error.runtimeError
  let (matrixName, s3) ← orFail (readName s2)
  let (format, s4) ← orFail (readTag s3)
  let (nz, s5) ← orFail (readSize s4)
  let (colnum, s6) ← orFail (readSize s5)
  let (rownum, s7) ← orFail (readSize s6)
  let us1 : CPUSparseMatrix R := us.SetFormat format
  if us1.GetFormat ≠ .matrixFormatSparseCSC ∧ us1.GetFormat ≠ .matrixFormatSparseCSR then
    throw Error.notImplemented
  let us2 ←
    match CPUSparseMatrix.Resize fresh rownum colnum nz true false us1 with
    | .ok M => pure M
    | .raised e _ => throw e
  let (us3, s8) ←
    if nz > 0 then do
      let compressedSize : Nat :=
        if us2.GetFormat = .matrixFormatSparseCSC then colnum + 1 else rownum + 1
      let (dataBuffer, t1) ← orFail (readValues nz 0 s7 us2.m_pArray)
      let (unCompressedIndex, t2) ← orFail (readIndices nz 0 t1 us2.m_unCompIndex)
      let (compressedIndex, t3) ← orFail (readIndices compressedSize 0 t2 us2.m_compIndex)
      pure ({ us2 with
        m_pArray := dataBuffer
        m_unCompIndex := unCompressedIndex
        m_compIndex := compressedIndex }, t3)
    else pure (us2, s7)
  let s9 ← orFail (readEnd s8)
  pure (s9, { us3 with m_matrixName := some matrixName })

/-- Writing `M` to an empty stream with `operator<<` and reading the record back with
`operator>>` into the matrix `target`. -/
def roundTrip (fresh : FreshBuffers R) (sizeofElem nz numRows numCols : Nat)
    (M target : CPUSparseMatrix R) : Except Error (CPUSparseMatrix R) := do
  let record ← operatorPut sizeofElem nz numRows numCols [] M
  let (_, M') ← operatorGet fresh sizeofElem record target
  pure M'

end Serialization

/-! ## Assertions of `Resize` -/

namespace CPUSparseMatrix

variable {R : Type}

/-- The `assert` evaluated by `Resize(numRows, numCols, numNZElemToReserve, growOnly,
keepExistingValues)` in its copy branches (the release build, which `Resize` models, compiles
it out): `none` when the call evaluates no assertion, `some b` when it evaluates one, `b` being
the value of the asserted condition. -/
def ResizeAssertion (numRows numCols numNZElemToReserve : Nat)
    (growOnly keepExistingValues : Bool) (M : CPUSparseMatrix R) : Option Bool :=
  let keepExistingValues : Bool :=
    if M.m_numRows ≠ numRows ∨ M.m_numCols ≠ numCols then false else keepExistingValues
  let newCompIndexSize : Nat := (if numCols > numRows then numCols else numRows) + 1
  let reallocate : Bool :=
    decide (M.m_elemSizeAllocated < numNZElemToReserve)
      || (decide (M.m_elemSizeAllocated > numNZElemToReserve) && !growOnly)
      || decide (M.m_compIndexSize < newCompIndexSize)
  let M1 : CPUSparseMatrix R := { M with m_numRows := numRows, m_numCols := numCols }
  if reallocate then
    if isCompressed M1.m_format then
      if keepExistingValues
          && (decide (M1.m_nz > numNZElemToReserve)
              || decide (M1.m_compIndexSize > newCompIndexSize)) then
        none
      else if keepExistingValues && decide (M1.m_nz > 0) then
        some (decide (M1.m_compIndexSize > 0) && decide (M1.m_nz < numNZElemToReserve))
      else none
    else if isBlock M1.m_format then
      if keepExistingValues
          && (decide (M1.m_nz > numNZElemToReserve)
              || decide (M1.m_compIndexSize > newCompIndexSize)) then
        none
      else if keepExistingValues && decide (M1.m_elemSizeAllocated > 0) then
        some (decide (M1.m_compIndexSize > 0)
          && decide (M1.m_elemSizeAllocated < numNZElemToReserve))
      else none
    else none
  else none

end CPUSparseMatrix

section ExamplesAssertions

/-- The 2-by-2 CSC matrix with the three nonzeros of `exRhs3`, in buffers of capacity 5. -/
def exRoomy : CPUSparseMatrix Int :=
  { exRhs3 with m_elemSizeAllocated := 5 }

/-- The 2-by-2 block-sparse-column matrix `exGrad` (one block, 2 values) in a value buffer of
capacity 4. -/
def exGradRoomy : CPUSparseMatrix Int :=
  { exGrad with m_elemSizeAllocated := 4 }

end ExamplesAssertions

/-! ## Buffer offsets written by `MultiplyAndAdd` -/

section ProductOffsets

variable {R : Type}

end ProductOffsets

/-! ## Adaptive scaling -/

section Adaptive

variable {R : Type} [Field R]

/-- The constant `const ElemType floor = 1e-16f` of `Adagrad`, as the exact number
`10^-16`. -/
def adagradFloor : R := 1 / 10 ^ 16

/-- Loop state of `Adagrad`: the gradient matrix (`this`), the dense state `c` and the local
`aveMultiplier`. -/
structure AdagradState (R : Type) where
  grad : CPUSparseMatrix R
  c : CPUMatrix R
  aveMultiplier : R

/-- The body of the inner loop of the compressed branch of `Adagrad` at buffer position `p`
and cell `(row, col)`: `adenorm = c(row, col) + val*val; a = sqrt(floor + adenorm);
m_pArray[p] = val / a; c(row, col) = adenorm; if (needAveMultiplier) aveMultiplier += 1/a`.
The square root `sqrt` of the element type is a parameter. -/
def adagradCompressedStep (sqrt : R → R) (needAveMultiplier : Bool) (p row col : Nat)
    (s : AdagradState R) : AdagradState R :=
  let val : R := s.grad.m_pArray p
  let adenorm : R := s.c.get row col + val * val
  let a : R := sqrt (adagradFloor + adenorm)
  { grad := { s.grad with m_pArray := Function.update s.grad.m_pArray p (val / a) }
    c := s.c.set row col adenorm
    aveMultiplier := if needAveMultiplier then s.aveMultiplier + 1 / a else s.aveMultiplier }

/-- The body of the inner loop of the block branch of `Adagrad` at buffer position `p` and
cell `(row, col)`: `c(row, col) += val*val; a = sqrt(floor + c(row, col)); m_pArray[p] /= a;
if (needAveMultiplier) aveMultiplier += 1/a`. -/
def adagradBlockStep (sqrt : R → R) (needAveMultiplier : Bool) (p row col : Nat)
    (s : AdagradState R) : AdagradState R :=
  let val : R := s.grad.m_pArray p
  let c1 : CPUMatrix R := s.c.set row col (s.c.get row col + val * val)
  let a : R := sqrt (adagradFloor + c1.get row col)
  { grad := { s.grad with m_pArray := Function.update s.grad.m_pArray p (s.grad.m_pArray p / a) }
    c := c1
    aveMultiplier := if needAveMultiplier then s.aveMultiplier + 1 / a else s.aveMultiplier }

/-- The method `Adagrad(c, needAveMultiplier)`: it returns the value returned by the source
together with the gradient matrix and the dense `c` it leaves. `sqrt` is the square root of
the element type and `fresh` the content `c` gets from its `Resize`. The loops write only
`m_pArray`, the elements of `c` and `aveMultiplier`, so the format, the dimensions and the
index buffers are read from the matrix on entry; in the block branch `p` is the running
position, carried along with the loop state. -/
def Adagrad (sqrt : R → R) (fresh : Nat → R) (needAveMultiplier : Bool)
    (M : CPUSparseMatrix R) (c : CPUMatrix R) : R × CPUSparseMatrix R × CPUMatrix R :=
  let c1 : CPUMatrix R :=
    if c.IsEmpty = true ∨ c.GetNumCols ≠ M.GetNumCols ∨ c.GetNumRows ≠ M.GetNumRows then
      (c.Resize fresh M.GetNumRows M.GetNumCols).SetValue 0
    else c
  let s0 : AdagradState R := { grad := M, c := c1, aveMultiplier := 0 }
  let s : AdagradState R :=
    if M.m_format = .matrixFormatSparseCSC ∨ M.m_format = .matrixFormatSparseCSR then
      let col_num : Nat :=
        if M.m_format = .matrixFormatSparseCSC then M.GetNumCols else M.GetNumRows
      (List.range col_num).foldl
        (fun s j =>
          (loopRange (M.m_compIndex j) (M.m_compIndex (j + 1))).foldl
            (fun s p =>
              let i : Nat := M.m_unCompIndex p
              let row : Nat := if M.m_format = .matrixFormatSparseCSC then i else j
              let col : Nat := if M.m_format = .matrixFormatSparseCSC then j else i
              adagradCompressedStep sqrt needAveMultiplier p row col s) s) s0
    else if M.m_format = .matrixFormatSparseBlockCol
        ∨ M.m_format = .matrixFormatSparseBlockRow then
      let len : Nat :=
        if M.m_format = .matrixFormatSparseBlockCol then M.GetNumRows else M.GetNumCols
      ((List.range M.m_blockSize).foldl
        (fun (sp : AdagradState R × Nat) j =>
          let colOrRow : Nat := M.m_blockIds j
          (List.range len).foldl
            (fun (sp : AdagradState R × Nat) i =>
              let row : Nat :=
                if M.m_format = .matrixFormatSparseBlockCol then i else colOrRow
              let col : Nat :=
                if M.m_format = .matrixFormatSparseBlockCol then colOrRow else i
              (adagradBlockStep sqrt needAveMultiplier sp.2 row col sp.1, sp.2 + 1)) sp)
        (s0, 0)).1
    else s0
  (if needAveMultiplier = true ∧ s.grad.m_nz > 0 then s.aveMultiplier / (s.grad.m_nz : R)
   else 1,
   s.grad, s.c)

end Adaptive

section AdaptiveVocabulary

variable {R : Type}

/-- The major indices stored within each of the first `lanes` lanes are pairwise distinct:
one stored element per logical cell. -/
def DistinctInLanes (M : CPUSparseMatrix R) (lanes : Nat) : Prop :=
  ∀ j < lanes, ∀ p < M.m_compIndex (j + 1), ∀ q < M.m_compIndex (j + 1),
    M.m_compIndex j ≤ p ∧ M.m_compIndex j ≤ q ∧ M.m_unCompIndex p = M.m_unCompIndex q → p = q

instance (M : CPUSparseMatrix R) (lanes : Nat) : Decidable (DistinctInLanes M lanes) := by
  unfold DistinctInLanes; infer_instance

/-- The stored elements of a compressed matrix in scan order: buffer position, row and
column of the logical cell. -/
def compressedSteps (M : CPUSparseMatrix R) : List (Nat × Nat × Nat) :=
  (List.range M.laneCount).flatMap fun j =>
    (loopRange (M.m_compIndex j) (M.m_compIndex (j + 1))).map fun p =>
      (p, if M.m_format = .matrixFormatSparseCSC then M.m_unCompIndex p else j,
        if M.m_format = .matrixFormatSparseCSC then j else M.m_unCompIndex p)

/-- The active elements of a sparse matrix: buffer position, row and column of the logical
cell, for the stored elements of a compressed matrix or the elements of the active blocks of a
block-sparse one. -/
def activeElements (M : CPUSparseMatrix R) : List (Nat × Nat × Nat) :=
  if CPUSparseMatrix.isCompressed M.m_format then compressedSteps M else gradSteps M

/-- The gradients on which `Adagrad` is specified: a well-formed CSC or CSR matrix with one
stored element per logical cell, or a well-formed block-sparse matrix. -/
def AdagradReady (M : CPUSparseMatrix R) : Prop :=
  (WellFormedCSC M ∧ DistinctInLanes M M.m_numCols)
    ∨ (WellFormedCSR M ∧ DistinctInLanes M M.m_numRows)
    ∨ WellFormedBlocks M

instance (M : CPUSparseMatrix R) : Decidable (AdagradReady M) := by
  unfold AdagradReady; infer_instance

end AdaptiveVocabulary

section ExamplesAdaptive

/-- The 1-by-1 CSC matrix holding the single value `v`. -/
def exOne {R : Type} (v : R) : CPUSparseMatrix R :=
  { m_format := .matrixFormatSparseCSC
    m_numRows := 1
    m_numCols := 1
    m_elemSizeAllocated := 1
    m_compIndexSize := 2
    m_nz := 1
    m_matrixName := none
    m_colIdx := 0
    m_blockSize := 0
    m_pArray := fun _ => v
    m_unCompIndex := fun _ => 0
    m_compIndex := fun j => if j = 0 then 0 else 1
    m_blockIds := fun _ => 0
    blockIdsLength := 0 }

end ExamplesAdaptive

/-! ## Loops as sums -/

section LoopLemmas

variable {R : Type} [CommRing R]

theorem sum_map_range (f : Nat → R) (n : Nat) :
    ((List.range n).map f).sum = ∑ i in Finset.range n, f i := by
  induction n with
  | zero => simp
  | succ n ih => simp [List.range_succ, Finset.sum_range_succ, ih]

theorem sum_map_loopRange (f : Nat → R) (lo hi : Nat) :
    ((loopRange lo hi).map f).sum = ∑ p in Finset.Ico lo hi, f p := by
  unfold loopRange
  rcases Nat.lt_or_ge lo hi with h | h
  · obtain ⟨d, rfl⟩ : ∃ d, hi = lo + d := ⟨hi - lo, by omega⟩
    clear h
    induction d with
    | zero => simp
    | succ d ih =>
      have e1 : lo + (d + 1) - lo = d + 1 := by omega
      have e2 : lo + d - lo = d := by omega
      rw [e1, List.range'_concat, List.map_append, List.sum_append]
      rw [e2] at ih
      rw [ih, ← Nat.add_assoc, Finset.sum_Ico_succ_top (by omega)]
      simp
  · have e : hi - lo = 0 := by omega
    rw [e, Finset.Ico_eq_empty (by omega)]
    simp

theorem AddsTo_foldl {ι : Type} (m : Nat) (l : List ι) (f : ι → CPUMatrix R → CPUMatrix R)
    (g : ι → Nat → R) (hf : ∀ a ∈ l, AddsTo m (f a) (g a)) :
    AddsTo m (fun c => l.foldl (fun c a => f a c) c) (fun x => (l.map (fun a => g a x)).sum) := by
  induction l with
  | nil => intro c hc; simp [hc]
  | cons a l ih =>
    intro c hc
    obtain ⟨h1, h2, h3⟩ := hf a (List.mem_cons_self _ _) c hc
    obtain ⟨k1, k2, k3⟩ := ih (fun b hb => hf b (List.mem_cons_of_mem _ hb)) (f a c) h1
    refine ⟨k1, by rw [← h2]; exact k2, fun x => ?_⟩
    simp only [List.foldl_cons, List.map_cons, List.sum_cons]
    rw [k3 x, h3 x, add_assoc]

theorem AddsTo_set_add (m i j : Nat) (v : R) :
    AddsTo m (fun c => c.set i j (c.get i j + v))
      (fun x => if x = IDX2C i j m then v else 0) := by
  intro c hc
  refine ⟨hc, rfl, fun x => ?_⟩
  subst hc
  by_cases hx : x = IDX2C i j c.m_numRows
  · subst hx; simp [CPUMatrix.set, CPUMatrix.get]
  · simp [CPUMatrix.set, CPUMatrix.get, hx]

theorem IDX2C_inj {m h h0 j j0 : Nat} (hh : h < m) (hh0 : h0 < m) :
    IDX2C h j m = IDX2C h0 j0 m ↔ h = h0 ∧ j = j0 := by
  unfold IDX2C
  constructor
  · intro e
    have hj : j = j0 := by
      rcases Nat.lt_trichotomy j j0 with hlt | heq | hgt
      · exfalso
        have : (j + 1) * m ≤ j0 * m := Nat.mul_le_mul_right m hlt
        rw [Nat.add_mul] at this; omega
      · exact heq
      · exfalso
        have : (j0 + 1) * m ≤ j * m := Nat.mul_le_mul_right m hgt
        rw [Nat.add_mul] at this; omega
    subst hj
    exact ⟨by omega, rfl⟩
  · rintro ⟨rfl, rfl⟩; rfl

end LoopLemmas

section DenseProductLemmas

variable {R : Type} [CommRing R]

theorem prod_map_range (f : Nat → R) (n : Nat) :
    ((List.range n).map f).prod = ∏ i in Finset.range n, f i := by
  induction n with
  | zero => simp
  | succ n ih => simp [List.range_succ, Finset.prod_range_succ, ih]

theorem ScalesBy_foldl {ι : Type} (m : Nat) (l : List ι) (f : ι → CPUMatrix R → CPUMatrix R)
    (w : ι → Nat → R) (hf : ∀ a ∈ l, ScalesBy m (f a) (w a)) :
    ScalesBy m (fun c => l.foldl (fun c a => f a c) c)
      (fun x => (l.map (fun a => w a x)).prod) := by
  induction l with
  | nil => intro c hc; simp [hc]
  | cons a l ih =>
    intro c hc
    obtain ⟨h1, h2, h3⟩ := hf a (List.mem_cons_self _ _) c hc
    obtain ⟨k1, k2, k3⟩ := ih (fun b hb => hf b (List.mem_cons_of_mem _ hb)) (f a c) h1
    refine ⟨k1, by rw [← h2]; exact k2, fun x => ?_⟩
    simp only [List.foldl_cons, List.map_cons, List.prod_cons]
    rw [k3 x, h3 x]
    ring

theorem ScalesBy_set_mul (m i j : Nat) (beta : R) :
    ScalesBy m (fun c => c.set i j (beta * c.get i j))
      (fun x => if x = IDX2C i j m then beta else 1) := by
  intro c hc
  refine ⟨hc, rfl, fun x => ?_⟩
  subst hc
  by_cases hx : x = IDX2C i j c.m_numRows
  · subst hx; simp [CPUMatrix.set, CPUMatrix.get]
  · simp [CPUMatrix.set, CPUMatrix.get, hx]

theorem IDX2C_lt {m n h j : Nat} (hh : h < m) (hj : j < n) : IDX2C h j m < m * n := by
  unfold IDX2C
  have : (j + 1) * m ≤ n * m := Nat.mul_le_mul_right m hj
  rw [Nat.add_mul, Nat.mul_comm n m] at this
  omega

/-- The prescaling phase of `MultiplyAndWeightedAdd` (zero-fill, identity or scaling loop)
leaves `beta * c(h,j)` in every cell and keeps the shape. -/
theorem prescale_spec [DecidableEq R] (beta : R) (c1 : CPUMatrix R) :
    let c2 : CPUMatrix R :=
      if beta = 0 then c1.memsetZero
      else if beta ≠ 1 then
        CPUMatrix.foreach_coord (fun i j c => c.set i j (beta * c.get i j)) c1
      else c1
    c2.m_numRows = c1.m_numRows ∧ c2.m_numCols = c1.m_numCols
      ∧ ∀ h < c1.m_numRows, ∀ j < c1.m_numCols, c2.get h j = beta * c1.get h j := by
  intro c2
  by_cases hb0 : beta = 0
  · have e : c2 = c1.memsetZero := by simp [c2, hb0]
    rw [e]
    refine ⟨rfl, rfl, fun h hh j hj => ?_⟩
    simp [CPUMatrix.memsetZero, CPUMatrix.get, CPUMatrix.GetNumElements, IDX2C_lt hh hj, hb0]
  · by_cases hb1 : beta = 1
    · have e : c2 = c1 := by
        show (if beta = 0 then _ else if beta ≠ 1 then _ else _) = _
        rw [if_neg hb0, if_neg (not_not.mpr hb1)]
      rw [e]
      exact ⟨rfl, rfl, fun h _ j _ => by simp [hb1]⟩
    · have e : c2 = CPUMatrix.foreach_coord (fun i j c => c.set i j (beta * c.get i j)) c1 := by
        simp [c2, hb0, hb1]
      rw [e]
      have key := ScalesBy_foldl c1.m_numRows (List.range c1.GetNumCols)
        (fun j c => (List.range c1.GetNumRows).foldl
          (fun c2 i => c2.set i j (beta * c2.get i j)) c)
        (fun j x => ((List.range c1.GetNumRows).map
          (fun i => if x = IDX2C i j c1.m_numRows then beta else 1)).prod)
        (fun j _ => ScalesBy_foldl c1.m_numRows (List.range c1.GetNumRows)
          (fun i c => c.set i j (beta * c.get i j))
          (fun i x => if x = IDX2C i j c1.m_numRows then beta else 1)
          (fun i _ => ScalesBy_set_mul c1.m_numRows i j beta))
      obtain ⟨k1, k2, k3⟩ := key c1 rfl
      have k1' : (CPUMatrix.foreach_coord
          (fun i j c => c.set i j (beta * c.get i j)) c1).m_numRows = c1.m_numRows := k1
      have k3' : ∀ x, (CPUMatrix.foreach_coord
          (fun i j c => c.set i j (beta * c.get i j)) c1).m_pArray x
            = ((List.range c1.GetNumCols).map (fun j => ((List.range c1.GetNumRows).map
                (fun i => if x = IDX2C i j c1.m_numRows then beta else 1)).prod)).prod
              * c1.m_pArray x := k3
      refine ⟨k1, k2, fun h hh j hj => ?_⟩
      rw [CPUMatrix.get, k1', k3', CPUMatrix.get]
      congr 1
      simp only [prod_map_range, CPUMatrix.GetNumRows, CPUMatrix.GetNumCols]
      rw [Finset.prod_eq_single j]
      · rw [Finset.prod_eq_single h]
        · simp
        · intro i hi hne
          have hi' : i < c1.m_numRows := Finset.mem_range.mp hi
          rw [if_neg]
          intro e
          exact hne ((IDX2C_inj hi' hh).mp e.symm).1
        · intro hn; exact absurd (Finset.mem_range.mpr hh) hn
      · intro j' _ hne
        apply Finset.prod_eq_one
        intro i hi
        have hi' : i < c1.m_numRows := Finset.mem_range.mp hi
        rw [if_neg]
        intro e
        exact hne ((IDX2C_inj hi' hh).mp e.symm).2
      · intro hn; exact absurd (Finset.mem_range.mpr hj) hn

end DenseProductLemmas

theorem WellFormedLanes.le_nz {R : Type} {M : CPUSparseMatrix R} {lanes bound : Nat}
    (hwf : WellFormedLanes M lanes bound) {j : Nat} (hj : j ≤ lanes) :
    M.m_compIndex j ≤ M.m_nz := by
  obtain ⟨_, hmono, hlast, _⟩ := hwf
  rw [← hlast]
  obtain ⟨d, rfl⟩ : ∃ d, lanes = j + d := ⟨lanes - j, by omega⟩
  clear hlast hj
  induction d with
  | zero => exact Nat.le_refl _
  | succ d ih =>
    exact Nat.le_trans (ih (fun i hi => hmono i (by omega))) (hmono (j + d) (by omega))

theorem WellFormedLanes.major_lt {R : Type} {M : CPUSparseMatrix R} {lanes bound : Nat}
    (hwf : WellFormedLanes M lanes bound) {j p : Nat} (hj : j < lanes)
    (hp : p ∈ Finset.Ico (M.m_compIndex j) (M.m_compIndex (j + 1))) :
    M.m_unCompIndex p < bound := by
  have h1 : M.m_compIndex (j + 1) ≤ M.m_nz := hwf.le_nz (by omega)
  have h2 := (Finset.mem_Ico.mp hp).2
  exact hwf.2.2.2 p (by omega)

section ScanLemmas

variable {R : Type} [CommRing R]

theorem cscScan_addsTo (m : Nat) (rhs : CPUSparseMatrix R)
    (step : Nat → Nat → R → CPUMatrix R → CPUMatrix R) (g : Nat → Nat → R → Nat → R)
    (hstep : ∀ i j v, AddsTo m (step i j v) (g i j v)) :
    AddsTo m (cscScan rhs step)
      (fun x => ∑ j in Finset.range rhs.m_numCols,
        ∑ p in Finset.Ico (rhs.m_compIndex j) (rhs.m_compIndex (j + 1)),
          g (rhs.m_unCompIndex p) j (rhs.m_pArray p) x) := by
  have key := AddsTo_foldl m (List.range rhs.GetNumCols)
    (fun j c => (loopRange (rhs.m_compIndex j) (rhs.m_compIndex (j + 1))).foldl
      (fun s p => step (rhs.m_unCompIndex p) j (rhs.m_pArray p) s) c)
    (fun j x => ((loopRange (rhs.m_compIndex j) (rhs.m_compIndex (j + 1))).map
      (fun p => g (rhs.m_unCompIndex p) j (rhs.m_pArray p) x)).sum)
    (fun j _ => AddsTo_foldl m (loopRange (rhs.m_compIndex j) (rhs.m_compIndex (j + 1)))
      (fun p c => step (rhs.m_unCompIndex p) j (rhs.m_pArray p) c)
      (fun p x => g (rhs.m_unCompIndex p) j (rhs.m_pArray p) x)
      (fun p _ => hstep _ _ _))
  intro c hc
  obtain ⟨k1, k2, k3⟩ := key c hc
  refine ⟨k1, k2, fun x => ?_⟩
  have k3' := k3 x
  simp only [sum_map_range, sum_map_loopRange, CPUSparseMatrix.GetNumCols] at k3'
  exact k3'

theorem mwaNoTransStep_addsTo (alpha : R) (lhs : CPUMatrix R) (i j : Nat) (val : R) (m : Nat) :
    AddsTo m (mwaNoTransStep alpha lhs i j val)
      (fun x => ∑ h in Finset.range lhs.m_numRows,
        if x = IDX2C h j m then alpha * lhs.get h i * val else 0) := by
  have key := AddsTo_foldl m (List.range lhs.GetNumRows)
    (fun h c => c.set h j (c.get h j + alpha * lhs.get h i * val))
    (fun h x => if x = IDX2C h j m then alpha * lhs.get h i * val else 0)
    (fun h _ => AddsTo_set_add m h j _)
  intro c hc
  obtain ⟨k1, k2, k3⟩ := key c hc
  refine ⟨k1, k2, fun x => ?_⟩
  have k3' := k3 x
  simp only [sum_map_range, CPUMatrix.GetNumRows] at k3'
  exact k3'

theorem mwaTransBStep_eq (alpha : R) (lhs : CPUMatrix R) (i j : Nat) (val : R) :
    mwaTransBStep alpha lhs i j val = mwaNoTransStep alpha lhs j i val := rfl

theorem sum_IDX2C_row {m h0 : Nat} (hh0 : h0 < m) (j j0 : Nat) (t : Nat → R) :
    (∑ h in Finset.range m, if IDX2C h0 j0 m = IDX2C h j m then t h else 0)
      = if j = j0 then t h0 else 0 := by
  by_cases hj : j = j0
  · subst hj
    rw [if_pos rfl, Finset.sum_eq_single h0]
    · simp
    · intro h hh hne
      rw [if_neg]
      intro e
      exact hne ((IDX2C_inj (Finset.mem_range.mp hh) hh0).mp e.symm).1
    · intro hn; exact absurd (Finset.mem_range.mpr hh0) hn
  · rw [if_neg hj]
    apply Finset.sum_eq_zero
    intro h hh
    rw [if_neg]
    intro e
    exact hj ((IDX2C_inj (Finset.mem_range.mp hh) hh0).mp e.symm).2

end ScanLemmas

section MultiplyAndWeightedAddTheorems

variable {R : Type} [CommRing R] [DecidableEq R]

/-- Both implemented cases of `MultiplyAndWeightedAdd` on operands of matching shapes: the
call returns the prescaled `c` to which the scan has added the contributions `g`. -/
theorem MultiplyAndWeightedAdd_unfold (fresh : Nat → R) (alpha beta : R) (lhs : CPUMatrix R)
    (rhs : CPUSparseMatrix R) (transposeB : Bool) (c : CPUMatrix R) {m k n : Nat}
    (hm : 0 < m) (hk : 0 < k) (hn : 0 < n)
    (hlhs : lhs.m_numRows = m ∧ lhs.m_numCols = k)
    (hrhs : if transposeB then rhs.m_numRows = n ∧ rhs.m_numCols = k
            else rhs.m_numRows = k ∧ rhs.m_numCols = n)
    (hfmt : rhs.m_format = .matrixFormatSparseCSC)
    (hc : c.m_numRows = m ∧ c.m_numCols = n) :
    ∃ c2 : CPUMatrix R, c2.m_numRows = m ∧ c2.m_numCols = n
      ∧ (∀ h < m, ∀ j < n, c2.get h j = beta * c.get h j)
      ∧ MultiplyAndWeightedAdd fresh alpha lhs false rhs transposeB beta c
          = .ok (cscScan rhs
              (if transposeB then fun i j val c => mwaTransBStep alpha lhs i j val c
               else fun i j val c => mwaNoTransStep alpha lhs i j val c) c2) := by
  obtain ⟨hl1, hl2⟩ := hlhs
  obtain ⟨hc1, hc2⟩ := hc
  have hpre := prescale_spec beta c
  refine ⟨(if beta = 0 then c.memsetZero
      else if beta ≠ 1 then
        CPUMatrix.foreach_coord (fun i j c => c.set i j (beta * c.get i j)) c
      else c), ?_, ?_, ?_, ?_⟩
  pick_goal 4
  · unfold MultiplyAndWeightedAdd
    have he : (lhs.IsEmpty || rhs.IsEmpty) = false := by
      cases transposeB <;> simp at hrhs <;>
        simp [CPUMatrix.IsEmpty, CPUSparseMatrix.IsEmpty, hl1, hl2, hrhs.1, hrhs.2] <;> omega
    cases transposeB <;> simp at hrhs <;>
      simp [he, CPUMatrix.GetNumRows, CPUMatrix.GetNumCols, CPUSparseMatrix.GetNumRows,
        CPUSparseMatrix.GetNumCols, CPUSparseMatrix.GetFormat, hl1, hl2, hrhs.1, hrhs.2, hfmt,
        hc1, hc2]
  · rw [hpre.1, hc1]
  · rw [hpre.2.1, hc2]
  · intro h hh j hj
    exact hpre.2.2 h (by omega) j (by omega)

/-- On non-empty operands `MultiplyAndWeightedAdd` without transposes returns, and each cell of
the result is `alpha * sum_i lhs(h,i) * rhs(i,j) + beta * c_old(h,j)`. -/
theorem MultiplyAndWeightedAdd_noTranspose_nonempty (fresh : Nat → R) (alpha beta : R)
    (lhs : CPUMatrix R) (rhs : CPUSparseMatrix R) (c : CPUMatrix R) (m k n : Nat)
    (hm : 0 < m) (hk : 0 < k) (hn : 0 < n)
    (hlhs : lhs.m_numRows = m ∧ lhs.m_numCols = k)
    (hrhs : rhs.m_numRows = k ∧ rhs.m_numCols = n)
    (hwf : WellFormedCSC rhs)
    (hc : c.m_numRows = m ∧ c.m_numCols = n) :
    ∃ c' : CPUMatrix R,
      MultiplyAndWeightedAdd fresh alpha lhs false rhs false beta c = .ok c'
        ∧ c'.m_numRows = m ∧ c'.m_numCols = n
        ∧ ∀ h < m, ∀ j < n,
            c'.get h j
              = alpha * (∑ i in Finset.range k, lhs.get h i * cscEntry rhs i j)
                + beta * c.get h j := by
  obtain ⟨c2, hr2, hc2, hval, hcall⟩ :=
    MultiplyAndWeightedAdd_unfold fresh alpha beta lhs rhs false c hm hk hn hlhs
      (by simpa using hrhs) hwf.1 hc
  simp only [Bool.false_eq_true, if_false] at hcall
  obtain ⟨k1, k2, k3⟩ := cscScan_addsTo m rhs
    (fun i j val c => mwaNoTransStep alpha lhs i j val c) _
    (fun i j v => mwaNoTransStep_addsTo alpha lhs i j v m) c2 hr2
  refine ⟨_, hcall, k1, by rw [k2, hc2], fun h hh j hj => ?_⟩
  rw [CPUMatrix.get, k1, k3, ← hr2, ← CPUMatrix.get, hval h hh j hj, add_comm]
  congr 1
  rw [hlhs.1, hrhs.2, hr2]
  simp only [sum_IDX2C_row hh]
  rw [Finset.sum_eq_single j]
  · simp only [if_true]
    rw [Finset.mul_sum]
    simp only [cscEntry, storedAt, Finset.mul_sum]
    rw [Finset.sum_comm]
    apply Finset.sum_congr rfl
    intro p hp
    have hlt : rhs.m_unCompIndex p < k := by
      have := hwf.2.major_lt (by rw [hrhs.2]; exact hj) hp
      rwa [hrhs.1] at this
    rw [Finset.sum_eq_single (rhs.m_unCompIndex p)]
    · simp [mul_assoc]
    · intro i _ hne
      rw [if_neg (Ne.symm hne)]; simp
    · intro hn; exact absurd (Finset.mem_range.mpr hlt) hn
  · intro j' _ hne
    apply Finset.sum_eq_zero
    intro p _
    rw [if_neg hne]
  · intro hn; exact absurd (Finset.mem_range.mpr hj) hn

/-- Empty operands: `MultiplyAndWeightedAdd` raises a logic error and leaves `c` alone. -/
theorem MultiplyAndWeightedAdd_empty (fresh : Nat → R) (alpha beta : R) (lhs : CPUMatrix R)
    (transposeA transposeB : Bool) (rhs : CPUSparseMatrix R) (c : CPUMatrix R)
    (he : (lhs.IsEmpty || rhs.IsEmpty) = true) :
    MultiplyAndWeightedAdd fresh alpha lhs transposeA rhs transposeB beta c
      = .raised .logicError c := by
  unfold MultiplyAndWeightedAdd
  rw [if_pos he]

/-- C1. `MultiplyAndWeightedAdd` without transposes computes `alpha*lhs*rhs + beta*c`: for
every `m`-by-`k` dense `lhs`, every well-formed `k`-by-`n` CSC `rhs` and every `m`-by-`n` dense
`c`, after the call each cell satisfies
`c(h,j) = alpha * sum_i lhs(h,i) * rhs(i,j) + beta * c_old(h,j)`, where `rhs(i,j)` is the sum
of the stored values of row `i` in column `j`; and the call does return whenever the operands
are non-empty (`m, k, n > 0`). -/
theorem MultiplyAndWeightedAdd_noTranspose_spec (fresh : Nat → R) (alpha beta : R)
    (lhs : CPUMatrix R) (rhs : CPUSparseMatrix R) (c : CPUMatrix R) (m k n : Nat)
    (hlhs : lhs.m_numRows = m ∧ lhs.m_numCols = k)
    (hrhs : rhs.m_numRows = k ∧ rhs.m_numCols = n)
    (hwf : WellFormedCSC rhs)
    (hc : c.m_numRows = m ∧ c.m_numCols = n) :
    (∀ c' : CPUMatrix R,
        MultiplyAndWeightedAdd fresh alpha lhs false rhs false beta c = .ok c' →
          c'.m_numRows = m ∧ c'.m_numCols = n
            ∧ ∀ h < m, ∀ j < n,
                c'.get h j
                  = alpha * (∑ i in Finset.range k, lhs.get h i * cscEntry rhs i j)
                    + beta * c.get h j)
      ∧ (0 < m → 0 < k → 0 < n →
          ∃ c' : CPUMatrix R,
            MultiplyAndWeightedAdd fresh alpha lhs false rhs false beta c = .ok c') := by
  by_cases hpos : 0 < m ∧ 0 < k ∧ 0 < n
  · obtain ⟨c0, hcall, h1, h2, h3⟩ :=
      MultiplyAndWeightedAdd_noTranspose_nonempty fresh alpha beta lhs rhs c m k n
        hpos.1 hpos.2.1 hpos.2.2 hlhs hrhs hwf hc
    refine ⟨fun c' h => ?_, fun _ _ _ => ⟨c0, hcall⟩⟩
    rw [hcall] at h
    injection h with h
    subst h
    exact ⟨h1, h2, h3⟩
  · have he : (lhs.IsEmpty || rhs.IsEmpty) = true := by
      simp only [CPUMatrix.IsEmpty, CPUSparseMatrix.IsEmpty, hlhs.1, hlhs.2, hrhs.1, hrhs.2,
        Bool.or_eq_true, beq_iff_eq]
      omega
    rw [MultiplyAndWeightedAdd_empty fresh alpha beta lhs false false rhs c he]
    exact ⟨fun c' h => Outcome.noConfusion h, fun h1 h2 h3 => (hpos ⟨h1, h2, h3⟩).elim⟩

end MultiplyAndWeightedAddTheorems

/-- C1, witness: `alpha = 1`, `beta = 0`, `lhs` the 2-by-2 identity and `rhs` with the single
nonzero `(0,1) = 5` give `c(0,1) = 5` and `0` elsewhere. -/
theorem MultiplyAndWeightedAdd_noTranspose_witness :
    ∃ c' : CPUMatrix Int,
      MultiplyAndWeightedAdd (fun _ => 0) 1 exIdentity2 false exSingle01 false 0 exDense2
          = .ok c'
        ∧ c'.get 0 1 = 5 ∧ c'.get 0 0 = 0 ∧ c'.get 1 0 = 0 ∧ c'.get 1 1 = 0 := by
  obtain ⟨hpost, hret⟩ :=
    MultiplyAndWeightedAdd_noTranspose_spec (fun _ => 0) 1 0 exIdentity2 exSingle01 exDense2
      2 2 2 (by decide) (by decide) (by decide) (by decide)
  obtain ⟨c', hcall⟩ := hret (by decide) (by decide) (by decide)
  obtain ⟨_, _, hcell⟩ := hpost c' hcall
  refine ⟨c', hcall, ?_, ?_, ?_, ?_⟩
  · rw [hcell 0 (by decide) 1 (by decide)]; decide
  · rw [hcell 0 (by decide) 0 (by decide)]; decide
  · rw [hcell 1 (by decide) 0 (by decide)]; decide
  · rw [hcell 1 (by decide) 1 (by decide)]; decide

section MultiplyAndWeightedAddTransposed

variable {R : Type} [CommRing R] [DecidableEq R]

/-- On non-empty operands `MultiplyAndWeightedAdd` with only the right operand transposed
returns, and each cell of the result is
`alpha * sum_j lhs(h,j) * rhs(i,j) + beta * c_old(h,i)`. -/
theorem MultiplyAndWeightedAdd_transposeB_nonempty (fresh : Nat → R) (alpha beta : R)
    (lhs : CPUMatrix R) (rhs : CPUSparseMatrix R) (c : CPUMatrix R) (m k n : Nat)
    (hm : 0 < m) (hk : 0 < k) (hn : 0 < n)
    (hlhs : lhs.m_numRows = m ∧ lhs.m_numCols = k)
    (hrhs : rhs.m_numRows = n ∧ rhs.m_numCols = k)
    (hwf : WellFormedCSC rhs)
    (hc : c.m_numRows = m ∧ c.m_numCols = n) :
    ∃ c' : CPUMatrix R,
      MultiplyAndWeightedAdd fresh alpha lhs false rhs true beta c = .ok c'
        ∧ c'.m_numRows = m ∧ c'.m_numCols = n
        ∧ ∀ h < m, ∀ i < n,
            c'.get h i
              = alpha * (∑ j in Finset.range k, lhs.get h j * cscEntry rhs i j)
                + beta * c.get h i := by
  obtain ⟨c2, hr2, hc2, hval, hcall⟩ :=
    MultiplyAndWeightedAdd_unfold fresh alpha beta lhs rhs true c hm hk hn hlhs
      (by simpa using hrhs) hwf.1 hc
  simp only [if_true] at hcall
  obtain ⟨k1, k2, k3⟩ := cscScan_addsTo m rhs
    (fun i j val c => mwaTransBStep alpha lhs i j val c) _
    (fun i j v => mwaNoTransStep_addsTo alpha lhs j i v m) c2 hr2
  refine ⟨_, hcall, k1, by rw [k2, hc2], fun h hh i _ => ?_⟩
  rw [CPUMatrix.get, k1, k3, ← hr2, ← CPUMatrix.get, hval h hh i (by assumption), add_comm]
  congr 1
  rw [hlhs.1, hrhs.2, hr2]
  simp only [sum_IDX2C_row hh]
  simp only [cscEntry, storedAt, Finset.mul_sum]
  apply Finset.sum_congr rfl
  intro j _
  apply Finset.sum_congr rfl
  intro p _
  by_cases hp : rhs.m_unCompIndex p = i
  · simp [hp, mul_assoc]
  · simp [hp]

/-- C2. `MultiplyAndWeightedAdd` with only the right operand transposed computes
`alpha*lhs*transpose(rhs) + beta*c`: for every `m`-by-`k` dense `lhs`, every well-formed
`n`-by-`k` CSC `rhs` and every `m`-by-`n` dense `c`, after the call each cell satisfies
`c(h,i) = alpha * sum_j lhs(h,j) * rhs(i,j) + beta * c_old(h,i)`; and the call does return
whenever the operands are non-empty (`m, k, n > 0`). -/
theorem MultiplyAndWeightedAdd_transposeB_spec (fresh : Nat → R) (alpha beta : R)
    (lhs : CPUMatrix R) (rhs : CPUSparseMatrix R) (c : CPUMatrix R) (m k n : Nat)
    (hlhs : lhs.m_numRows = m ∧ lhs.m_numCols = k)
    (hrhs : rhs.m_numRows = n ∧ rhs.m_numCols = k)
    (hwf : WellFormedCSC rhs)
    (hc : c.m_numRows = m ∧ c.m_numCols = n) :
    (∀ c' : CPUMatrix R,
        MultiplyAndWeightedAdd fresh alpha lhs false rhs true beta c = .ok c' →
          c'.m_numRows = m ∧ c'.m_numCols = n
            ∧ ∀ h < m, ∀ i < n,
                c'.get h i
                  = alpha * (∑ j in Finset.range k, lhs.get h j * cscEntry rhs i j)
                    + beta * c.get h i)
      ∧ (0 < m → 0 < k → 0 < n →
          ∃ c' : CPUMatrix R,
            MultiplyAndWeightedAdd fresh alpha lhs false rhs true beta c = .ok c') := by
  by_cases hpos : 0 < m ∧ 0 < k ∧ 0 < n
  · obtain ⟨c0, hcall, h1, h2, h3⟩ :=
      MultiplyAndWeightedAdd_transposeB_nonempty fresh alpha beta lhs rhs c m k n
        hpos.1 hpos.2.1 hpos.2.2 hlhs hrhs hwf hc
    refine ⟨fun c' h => ?_, fun _ _ _ => ⟨c0, hcall⟩⟩
    rw [hcall] at h
    injection h with h
    subst h
    exact ⟨h1, h2, h3⟩
  · have he : (lhs.IsEmpty || rhs.IsEmpty) = true := by
      simp only [CPUMatrix.IsEmpty, CPUSparseMatrix.IsEmpty, hlhs.1, hlhs.2, hrhs.1, hrhs.2,
        Bool.or_eq_true, beq_iff_eq]
      omega
    rw [MultiplyAndWeightedAdd_empty fresh alpha beta lhs false true rhs c he]
    exact ⟨fun c' h => Outcome.noConfusion h, fun h1 h2 h3 => (hpos ⟨h1, h2, h3⟩).elim⟩

end MultiplyAndWeightedAddTransposed

/-- C3, as amended. In the transpose-RHS case the innermost loop run for a stored nonzero at
(row `i`, column `j`) with value `v` adds `alpha*v*lhs(h,j)`, the `lhs` column selected by the
nonzero's COLUMN index `j`, to `c(h,i)` for every `h`, and leaves the other columns of `c`
as they were. -/
theorem mwaTransBStep_contribution {R : Type} [CommRing R] (alpha v : R) (lhs c : CPUMatrix R) (i j h i' : Nat)
    (hrows : c.m_numRows = lhs.m_numRows) (hh : h < lhs.m_numRows) :
    (mwaTransBStep alpha lhs i j v c).get h i'
      = c.get h i' + (if i' = i then alpha * v * lhs.get h j else 0) := by
  obtain ⟨k1, _, k3⟩ := mwaNoTransStep_addsTo alpha lhs j i v lhs.m_numRows c hrows
  rw [mwaTransBStep_eq, CPUMatrix.get, k1, k3, ← hrows, ← CPUMatrix.get]
  congr 1
  rw [hrows]
  simp only [sum_IDX2C_row hh]
  by_cases hi : i' = i
  · subst hi; simp; ring
  · rw [if_neg hi, if_neg (fun e => hi e.symm)]

/-- C2, witness: the 2-by-2 identity times the transpose of the matrix with the single
nonzero `(0,1) = 5`, with `alpha = 1` and `beta = 2`. -/
theorem MultiplyAndWeightedAdd_transposeB_witness :
    ∃ c' : CPUMatrix Int,
      MultiplyAndWeightedAdd (fun _ => 0) 1 exIdentity2 false exSingle01 true 2 exDense2
          = .ok c'
        ∧ c'.get 1 0 = 5 + 2 * exDense2.get 1 0 ∧ c'.get 0 0 = 2 * exDense2.get 0 0 := by
  obtain ⟨hpost, hret⟩ :=
    MultiplyAndWeightedAdd_transposeB_spec (fun _ => 0) 1 2 exIdentity2 exSingle01 exDense2
      2 2 2 (by decide) (by decide) (by decide) (by decide)
  obtain ⟨c', hcall⟩ := hret (by decide) (by decide) (by decide)
  obtain ⟨_, _, hcell⟩ := hpost c' hcall
  refine ⟨c', hcall, ?_, ?_⟩
  · rw [hcell 1 (by decide) 0 (by decide)]; decide
  · rw [hcell 0 (by decide) 0 (by decide)]; decide

/-- C3, counterexample: with `lhs(0,0) = 7`, `lhs(0,1) = 9` and the nonzero (row 0, column 1,
value 5), the transpose-RHS loop adds `5 * lhs(0,1) = 45` to `c(0,0)`, not
`alpha * v * lhs(0,0) = 35` as the row-indexed reading would have it. -/
theorem mwaTransBStep_not_row_indexed :
    (mwaTransBStep 1 exDense2 0 1 5 exIdentity2).get 0 0 = exIdentity2.get 0 0 + 45
      ∧ (mwaTransBStep 1 exDense2 0 1 5 exIdentity2).get 0 0
          ≠ exIdentity2.get 0 0 + 1 * 5 * exDense2.get 0 0 := by
  decide

/-- C3, witness of the amended statement on the same operands. -/
theorem mwaTransBStep_contribution_witness :
    (mwaTransBStep 1 exDense2 0 1 5 exIdentity2).get 0 0
      = exIdentity2.get 0 0 + (if 0 = 0 then 1 * 5 * exDense2.get 0 1 else 0) :=
  mwaTransBStep_contribution 1 5 exDense2 exIdentity2 0 1 0 0 (by decide) (by decide)

section FirstOccurrences

end FirstOccurrences

section MultiplyAndAddLemmas

variable {R : Type} [CommRing R]

theorem foldl_flatMap_map {α β σ : Type} (l : List α) (f : α → List β) (g : σ → β → σ) (s : σ) :
    (l.flatMap f).foldl g s = l.foldl (fun s a => (f a).foldl g s) s := by
  induction l generalizing s with
  | nil => rfl
  | cons a l ih => simp [List.flatMap_cons, List.foldl_append, ih]

end MultiplyAndAddLemmas

section MultiplyAndAddStep

variable {R : Type} [CommRing R]

omit [CommRing R] in
theorem blockIdList_length (c : CPUSparseMatrix R) : (blockIdList c).length = c.m_blockSize := by
  simp [blockIdList]

end MultiplyAndAddStep

section MultiplyAndAddInvariant

variable {R : Type} [CommRing R]

end MultiplyAndAddInvariant

section MultiplyAndAddMaster

variable {R : Type} [CommRing R] [DecidableEq R]

end MultiplyAndAddMaster

section MultiplyAndAddResult

variable {R : Type} [CommRing R]

end MultiplyAndAddResult

theorem blockIds_index {R : Type} (c : CPUSparseMatrix R) (hnd : (blockIdList c).Nodup) (b : Nat)
    (hb : b < c.m_blockSize) :
    c.m_blockIds b ∈ blockIdList c ∧ (blockIdList c).indexOf (c.m_blockIds b) = b := by
  have hb' : b < (blockIdList c).length := by rw [blockIdList_length]; exact hb
  have e : (blockIdList c)[b] = c.m_blockIds b := by simp [blockIdList]
  constructor
  · exact List.mem_map.mpr ⟨b, List.mem_range.mpr hb, rfl⟩
  · rw [← e]; exact List.indexOf_getElem hnd b hb'

section MultiplyAndAddTheorems

variable {R : Type} [CommRing R]

end MultiplyAndAddTheorems

/-- A result matrix allocated in a compressed format whose capacities already suffice is not
reallocated by the kernel: `m_blockIds` stays null and the first new block is written through
it. -/
theorem MultiplyAndAdd_null_blockIds :
    ¬ HasBlockBuffers exResultCompressed 2 2 (2 * min 2 exRhs3.m_nz)
      ∧ (MultiplyAndAdd exFresh 1 exDense2 false exRhs3 true exResultCompressed).error
          = some .memoryFault := by
  exact ⟨by decide, rfl⟩

section ScaleAndAddTheorems

variable {R : Type} [CommRing R]

/-- The compressed branch of `ScaleAndAdd`, as a step adding to every buffer cell the
contributions that land on it. -/
theorem scaleAndAdd_loop_addsTo (alpha : R) (lhs : CPUSparseMatrix R) (m lanes : Nat)
    (cell : Nat → Nat → Nat × Nat) :
    AddsTo m
      (fun rhs => (List.range lanes).foldl
        (fun rhs j =>
          (loopRange (lhs.m_compIndex j) (lhs.m_compIndex (j + 1))).foldl
            (fun (rhs : CPUMatrix R) p =>
              rhs.set (cell (lhs.m_unCompIndex p) j).1 (cell (lhs.m_unCompIndex p) j).2
                (rhs.get (cell (lhs.m_unCompIndex p) j).1 (cell (lhs.m_unCompIndex p) j).2
                  + alpha * lhs.m_pArray p)) rhs) rhs)
      (fun x => ∑ j in Finset.range lanes,
        ∑ p in Finset.Ico (lhs.m_compIndex j) (lhs.m_compIndex (j + 1)),
          if x = IDX2C (cell (lhs.m_unCompIndex p) j).1 (cell (lhs.m_unCompIndex p) j).2 m
          then alpha * lhs.m_pArray p else 0) := by
  have key := AddsTo_foldl m (List.range lanes)
    (fun j (c : CPUMatrix R) =>
      (loopRange (lhs.m_compIndex j) (lhs.m_compIndex (j + 1))).foldl
        (fun (rhs : CPUMatrix R) p =>
          rhs.set (cell (lhs.m_unCompIndex p) j).1 (cell (lhs.m_unCompIndex p) j).2
            (rhs.get (cell (lhs.m_unCompIndex p) j).1 (cell (lhs.m_unCompIndex p) j).2
              + alpha * lhs.m_pArray p)) c)
    (fun j x => ((loopRange (lhs.m_compIndex j) (lhs.m_compIndex (j + 1))).map
      (fun p => if x = IDX2C (cell (lhs.m_unCompIndex p) j).1 (cell (lhs.m_unCompIndex p) j).2 m
        then alpha * lhs.m_pArray p else 0)).sum)
    (fun j _ => AddsTo_foldl m (loopRange (lhs.m_compIndex j) (lhs.m_compIndex (j + 1)))
      (fun p (rhs : CPUMatrix R) =>
        rhs.set (cell (lhs.m_unCompIndex p) j).1 (cell (lhs.m_unCompIndex p) j).2
          (rhs.get (cell (lhs.m_unCompIndex p) j).1 (cell (lhs.m_unCompIndex p) j).2
            + alpha * lhs.m_pArray p))
      (fun p x => if x = IDX2C (cell (lhs.m_unCompIndex p) j).1
          (cell (lhs.m_unCompIndex p) j).2 m then alpha * lhs.m_pArray p else 0)
      (fun p _ => AddsTo_set_add m _ _ _))
  intro c hc
  obtain ⟨k1, k2, k3⟩ := key c hc
  refine ⟨k1, k2, fun x => ?_⟩
  have k3' := k3 x
  simp only [sum_map_range, sum_map_loopRange] at k3'
  exact k3'

/-- C6. `ScaleAndAdd` on a compressed operand computes `rhs += alpha*lhs`: for a well-formed
CSC or CSR `lhs` and a non-empty dense `rhs` of the same shape the call returns, the shape of
`rhs` is kept and every cell satisfies `rhs(r,c) = rhs_old(r,c) + alpha*lhs(r,c)`. (The sparse
operand is a const reference: the call has no way to change it.) -/
theorem ScaleAndAdd_compressed_spec (alpha : R) (lhs : CPUSparseMatrix R) (rhs : CPUMatrix R)
    (hwf : WellFormedCSC lhs ∨ WellFormedCSR lhs)
    (hne : rhs.IsEmpty = false)
    (hshape : rhs.m_numRows = lhs.m_numRows ∧ rhs.m_numCols = lhs.m_numCols) :
    ∃ rhs' : CPUMatrix R,
      ScaleAndAdd alpha lhs rhs = .ok rhs'
        ∧ rhs'.m_numRows = rhs.m_numRows ∧ rhs'.m_numCols = rhs.m_numCols
        ∧ ∀ r < rhs.m_numRows, ∀ c < rhs.m_numCols,
            rhs'.get r c = rhs.get r c + alpha * compressedEntry lhs r c := by
  obtain ⟨hs1, hs2⟩ := hshape
  have he : (lhs.IsEmpty || rhs.IsEmpty) = false := by
    simp only [CPUMatrix.IsEmpty, CPUSparseMatrix.IsEmpty, hs1, hs2] at hne ⊢
    simp [hne]
  rcases hwf with ⟨hfmt, hwf⟩ | ⟨hfmt, hwf⟩
  · obtain ⟨k1, k2, k3⟩ := scaleAndAdd_loop_addsTo alpha lhs rhs.m_numRows lhs.m_numCols
      (fun i j => (i, j)) rhs rfl
    refine ⟨_, ?_, k1, k2, fun r hr c hc => ?_⟩
    · unfold ScaleAndAdd
      simp only [he, CPUSparseMatrix.GetNumRows, CPUSparseMatrix.GetNumCols,
        CPUMatrix.GetNumRows, CPUMatrix.GetNumCols, CPUSparseMatrix.GetFormat, hs1, hs2, hfmt]
      simp
    · rw [CPUMatrix.get, k1, k3, ← CPUMatrix.get]
      congr 1
      simp only [compressedEntry, hfmt, if_true, cscEntry, storedAt, Finset.mul_sum]
      rw [Finset.sum_eq_single c]
      · apply Finset.sum_congr rfl
        intro p hp
        have hlt : lhs.m_unCompIndex p < rhs.m_numRows := by
          rw [hs1]; exact hwf.major_lt (by rw [← hs2]; exact hc) hp
        by_cases hpi : lhs.m_unCompIndex p = r
        · simp [hpi]
        · rw [if_neg hpi, if_neg, mul_zero]
          intro e
          exact hpi ((IDX2C_inj hr hlt).mp e).1.symm
      · intro j hj hne'
        apply Finset.sum_eq_zero
        intro p hp
        have hlt : lhs.m_unCompIndex p < rhs.m_numRows := by
          rw [hs1]; exact hwf.major_lt (Finset.mem_range.mp hj) hp
        rw [if_neg]
        intro e
        exact hne' ((IDX2C_inj hr hlt).mp e).2.symm
      · intro hn; rw [← hs2] at hn; exact absurd (Finset.mem_range.mpr hc) hn
  · obtain ⟨k1, k2, k3⟩ := scaleAndAdd_loop_addsTo alpha lhs rhs.m_numRows lhs.m_numRows
      (fun i j => (j, i)) rhs rfl
    refine ⟨_, ?_, k1, k2, fun r hr c hc => ?_⟩
    · unfold ScaleAndAdd
      simp only [he, CPUSparseMatrix.GetNumRows, CPUSparseMatrix.GetNumCols,
        CPUMatrix.GetNumRows, CPUMatrix.GetNumCols, CPUSparseMatrix.GetFormat, hs1, hs2, hfmt]
      simp
    · rw [CPUMatrix.get, k1, k3, ← CPUMatrix.get]
      congr 1
      simp only [compressedEntry, hfmt]
      rw [if_neg (by decide)]
      simp only [csrEntry, storedAt, Finset.mul_sum]
      rw [Finset.sum_eq_single r]
      · apply Finset.sum_congr rfl
        intro p _
        by_cases hpi : lhs.m_unCompIndex p = c
        · simp [hpi]
        · rw [if_neg hpi, if_neg, mul_zero]
          intro e
          exact hpi ((IDX2C_inj hr hr).mp e).2.symm
      · intro j hj hne'
        apply Finset.sum_eq_zero
        intro p _
        have hjlt : j < rhs.m_numRows := by rw [hs1]; exact Finset.mem_range.mp hj
        rw [if_neg]
        intro e
        exact hne' ((IDX2C_inj hr hjlt).mp e).1.symm
      · intro hn; rw [← hs1] at hn; exact absurd (Finset.mem_range.mpr hr) hn

end ScaleAndAddTheorems

/-- C6, witness: adding twice the CSC matrix with nonzeros `(1,0) = 2`, `(0,1) = 3`,
`(1,1) = 4` into a dense 2-by-2 matrix. -/
theorem ScaleAndAdd_compressed_witness :
    ∃ rhs' : CPUMatrix Int,
      ScaleAndAdd 2 exRhs3 exDense2 = .ok rhs'
        ∧ rhs'.get 1 0 = exDense2.get 1 0 + 4 ∧ rhs'.get 0 0 = exDense2.get 0 0
        ∧ rhs'.get 0 1 = exDense2.get 0 1 + 6 ∧ rhs'.get 1 1 = exDense2.get 1 1 + 8 := by
  obtain ⟨rhs', hcall, _, _, hcell⟩ :=
    ScaleAndAdd_compressed_spec 2 exRhs3 exDense2 (Or.inl (by decide)) (by decide) (by decide)
  refine ⟨rhs', hcall, ?_, ?_, ?_, ?_⟩
  · rw [hcell 1 (by decide) 0 (by decide)]; decide
  · rw [hcell 0 (by decide) 0 (by decide)]; decide
  · rw [hcell 0 (by decide) 1 (by decide)]; decide
  · rw [hcell 1 (by decide) 1 (by decide)]; decide

section SetValueLemmas

variable {R : Type}

theorem autoGrow_refused (fresh : FreshBuffers R) (M : CPUSparseMatrix R)
    (hfmt : CPUSparseMatrix.isCompressed M.m_format = true) (h : GrowRefused M) :
    CPUSparseMatrix.autoGrow fresh M = .raised .logicError M := by
  obtain ⟨h1, h2⟩ := h
  unfold CPUSparseMatrix.autoGrow CPUSparseMatrix.Resize
  rw [if_pos h1]
  have h3 : M.m_compIndexSize > (if M.m_numCols > M.m_numRows then M.m_numCols
      else M.m_numRows) + 1 := by
    split_ifs <;> omega
  have h5 : M.m_elemSizeAllocated < M.m_nz + 100 := by omega
  simp [h5, hfmt, h3]

theorem autoGrow_ok (fresh : FreshBuffers R) (M : CPUSparseMatrix R)
    (hfmt : CPUSparseMatrix.isCompressed M.m_format = true) (h : ¬ GrowRefused M) :
    ∃ M1, CPUSparseMatrix.autoGrow fresh M = .ok M1 ∧ GrowFrame M M1 := by
  unfold CPUSparseMatrix.autoGrow
  by_cases h1 : M.m_elemSizeAllocated < M.m_nz + 1
  · rw [if_pos h1]
    have h3 : ¬ M.m_compIndexSize > (if M.m_numCols > M.m_numRows then M.m_numCols
        else M.m_numRows) + 1 := by
      intro h3
      apply h
      refine ⟨h1, ?_⟩
      split_ifs at h3 <;> omega
    have h5 : M.m_elemSizeAllocated < M.m_nz + 100 := by omega
    unfold CPUSparseMatrix.Resize
    simp only [ne_eq, not_true_eq_false, or_self, if_false, h5, decide_True, Bool.true_or,
      hfmt, if_true, h3, decide_False, Bool.or_false, Bool.true_and]
    have h4 : ¬ M.m_nz > M.m_nz + 100 := by omega
    simp only [h4, decide_False, Bool.false_eq_true, if_false]
    refine ⟨_, rfl, ?_⟩
    constructor
    · rfl
    · rfl
    · rfl
    · rfl
    · rfl
    · simp [h1]
    · intro p hp
      have : 0 < M.m_nz := by omega
      simp [this, memcpy, hp]
    · intro p hp
      have : 0 < M.m_nz := by omega
      simp [this, memcpy, hp]
    · intro hor i hi
      have : 0 < M.m_nz := by omega
      have hi' : i < M.laneCount + 1 := by omega
      simp [this, memcpy, CPUSparseMatrix.SecondaryIndexCount, CPUSparseMatrix.laneCount] at hi' ⊢
      intro hcontra
      omega
  · rw [if_neg h1]
    refine ⟨M, rfl, ?_⟩
    constructor <;> simp [h1]

end SetValueLemmas

section StoreEntryLemmas

variable {R : Type}

theorem storeEntry_bounds (row col : Nat) (v : R) (M1 : CPUSparseMatrix R)
    (h : row ≥ M1.m_numRows ∨ col ≥ M1.m_numCols) :
    CPUSparseMatrix.storeEntry row col v M1 = .raised .logicError M1 := by
  unfold CPUSparseMatrix.storeEntry
  by_cases h1 : row ≥ M1.m_numRows
  · rw [if_pos h1]
  · rw [if_neg h1, if_pos (h.resolve_left h1)]

theorem storeEntry_order (row col : Nat) (v : R) (M1 : CPUSparseMatrix R)
    (hr : row < M1.m_numRows) (hc : col < M1.m_numCols) (h : FillOrderViolation M1 row col) :
    CPUSparseMatrix.storeEntry row col v M1
      = .raised .logicError { M1 with
          m_pArray := Function.update M1.m_pArray M1.m_nz v
          m_unCompIndex :=
            Function.update M1.m_unCompIndex M1.m_nz (fillMajor M1.m_format row col) } := by
  obtain ⟨h1, h2, h3⟩ := h
  have e1 : (if M1.m_format = .matrixFormatSparseCSC then col else row)
      = fillLane M1.m_format row col := rfl
  have e2 : (if M1.m_format = .matrixFormatSparseCSC then row else col)
      = fillMajor M1.m_format row col := rfl
  unfold CPUSparseMatrix.storeEntry
  rw [if_neg (by omega), if_neg (by omega)]
  have hne : M1.m_nz - 1 ≠ M1.m_nz := by omega
  simp only [e1, e2]
  rw [if_pos]
  exact ⟨h1, h2, by rw [Function.update_noteq hne]; exact h3⟩

theorem storeEntry_ok (row col : Nat) (v : R) (M1 : CPUSparseMatrix R)
    (hr : row < M1.m_numRows) (hc : col < M1.m_numCols) (h : ¬ FillOrderViolation M1 row col) :
    CPUSparseMatrix.storeEntry row col v M1 = .ok (storedEntry row col v M1) := by
  have e1 : (if M1.m_format = .matrixFormatSparseCSC then col else row)
      = fillLane M1.m_format row col := rfl
  have e2 : (if M1.m_format = .matrixFormatSparseCSC then row else col)
      = fillMajor M1.m_format row col := rfl
  unfold CPUSparseMatrix.storeEntry
  rw [if_neg (by omega), if_neg (by omega)]
  simp only [e1, e2]
  rw [if_neg]
  · unfold storedEntry
    by_cases hl : (fillLane M1.m_format row col : Int) = M1.m_colIdx
    · simp only [hl, ne_eq, not_true_eq_false, if_false]
    · simp only [hl, ne_eq, not_false_eq_true, if_true]
  · rintro ⟨h1, h2, h3⟩
    have hne : M1.m_nz - 1 ≠ M1.m_nz := by omega
    rw [Function.update_noteq hne] at h3
    exact h ⟨h1, h2, h3⟩

end StoreEntryLemmas

section SetValueTheorems

variable {R : Type}

theorem SetValue_bad_format (fresh : FreshBuffers R) (row col : Nat) (v : R)
    (M : CPUSparseMatrix R) (hfmt : CPUSparseMatrix.isCompressed M.m_format = false) :
    CPUSparseMatrix.SetValue fresh row col v M = .raised .logicError M := by
  unfold CPUSparseMatrix.SetValue
  rw [if_pos]
  simp only [CPUSparseMatrix.isCompressed, Bool.or_eq_false_iff, beq_eq_false_iff_ne] at hfmt
  exact hfmt

theorem SetValue_refused (fresh : FreshBuffers R) (row col : Nat) (v : R)
    (M : CPUSparseMatrix R) (hfmt : CPUSparseMatrix.isCompressed M.m_format = true)
    (h : GrowRefused M) :
    CPUSparseMatrix.SetValue fresh row col v M = .raised .logicError M := by
  unfold CPUSparseMatrix.SetValue
  rw [if_neg, autoGrow_refused fresh M hfmt h]
  simp only [CPUSparseMatrix.isCompressed, Bool.or_eq_true, beq_iff_eq] at hfmt
  rintro ⟨h1, h2⟩
  rcases hfmt with h3 | h3
  · exact h1 h3
  · exact h2 h3

theorem SetValue_store (fresh : FreshBuffers R) (row col : Nat) (v : R)
    (M : CPUSparseMatrix R) (hfmt : CPUSparseMatrix.isCompressed M.m_format = true)
    (h : ¬ GrowRefused M) :
    ∃ M1, GrowFrame M M1
      ∧ CPUSparseMatrix.SetValue fresh row col v M = CPUSparseMatrix.storeEntry row col v M1 := by
  obtain ⟨M1, hg, hframe⟩ := autoGrow_ok fresh M hfmt h
  refine ⟨M1, hframe, ?_⟩
  unfold CPUSparseMatrix.SetValue
  rw [if_neg, hg]
  simp only [CPUSparseMatrix.isCompressed, Bool.or_eq_true, beq_iff_eq] at hfmt
  rintro ⟨h1, h2⟩
  rcases hfmt with h3 | h3
  · exact h1 h3
  · exact h2 h3

theorem GrowFrame.fillOrder {M M1 : CPUSparseMatrix R} (hf : GrowFrame M M1) (row col : Nat) :
    FillOrderViolation M1 row col ↔ FillOrderViolation M row col := by
  unfold FillOrderViolation
  rw [hf.format, hf.nz, hf.colIdx]
  constructor
  · rintro ⟨h1, h2, h3⟩
    exact ⟨h1, h2, by rw [← hf.major _ (by omega)]; exact h3⟩
  · rintro ⟨h1, h2, h3⟩
    exact ⟨h1, h2, by rw [hf.major _ (by omega)]; exact h3⟩

/-- C9. A successful `SetValue(row, col, v)` on a CSC/CSR matrix holding `n` entries
(`n <= allocatedCapacity`) appends exactly one entry: `nzCount = n+1`, `values[n] = v`,
`majorIndex[n]` is the row (CSC) or column (CSR), the earlier pairs are unchanged, the fill lane
is the call's lane, `secondaryIndex[lane+1] = n+1`, `secondaryIndex[lane] = n` if the lane
changed, and the capacity is `n+100` if the matrix was full and unchanged otherwise. -/
theorem SetValue_success_spec (fresh : FreshBuffers R) (row col : Nat) (v : R)
    (M M' : CPUSparseMatrix R) (hcap : M.m_nz ≤ M.m_elemSizeAllocated)
    (hok : CPUSparseMatrix.SetValue fresh row col v M = .ok M') :
    (M.m_format = .matrixFormatSparseCSC ∨ M.m_format = .matrixFormatSparseCSR)
      ∧ M'.m_nz = M.m_nz + 1
      ∧ M'.m_pArray M.m_nz = v
      ∧ M'.m_unCompIndex M.m_nz
          = (if M.m_format = .matrixFormatSparseCSC then row else col)
      ∧ (∀ p < M.m_nz, M'.m_pArray p = M.m_pArray p ∧ M'.m_unCompIndex p = M.m_unCompIndex p)
      ∧ M'.m_colIdx = (fillLane M.m_format row col : Int)
      ∧ M'.m_compIndex (fillLane M.m_format row col + 1) = M.m_nz + 1
      ∧ ((fillLane M.m_format row col : Int) ≠ M.m_colIdx →
          M'.m_compIndex (fillLane M.m_format row col) = M.m_nz)
      ∧ M'.m_elemSizeAllocated
          = (if M.m_nz = M.m_elemSizeAllocated then M.m_nz + 100 else M.m_elemSizeAllocated) := by
  by_cases hfmt : CPUSparseMatrix.isCompressed M.m_format = true
  swap
  · rw [SetValue_bad_format fresh row col v M (by simpa using hfmt)] at hok
    exact absurd hok (by simp)
  by_cases hg : GrowRefused M
  · rw [SetValue_refused fresh row col v M hfmt hg] at hok
    exact absurd hok (by simp)
  obtain ⟨M1, hf, hset⟩ := SetValue_store fresh row col v M hfmt hg
  rw [hset] at hok
  by_cases hb : row ≥ M1.m_numRows ∨ col ≥ M1.m_numCols
  · rw [storeEntry_bounds row col v M1 hb] at hok
    exact absurd hok (by simp)
  have hr : row < M1.m_numRows := by omega
  have hc : col < M1.m_numCols := by omega
  by_cases hv : FillOrderViolation M1 row col
  · rw [storeEntry_order row col v M1 hr hc hv] at hok
    exact absurd hok (by simp)
  rw [storeEntry_ok row col v M1 hr hc hv] at hok
  have hM' : M' = storedEntry row col v M1 := by
    injection hok with h; exact h.symm
  subst hM'
  have hfm := hf.format
  have hnz := hf.nz
  have hci := hf.colIdx
  refine ⟨?_, ?_, ?_, ?_, ?_, ?_, ?_, ?_, ?_⟩
  · simpa [CPUSparseMatrix.isCompressed] using hfmt
  · simp [storedEntry, hnz]
  · simp [storedEntry, hnz]
  · simp [storedEntry, hnz, hfm, fillMajor]
  · intro p hp
    have hne : p ≠ M.m_nz := by omega
    simp [storedEntry, hnz, hne, hf.values p hp, hf.major p hp]
  · simp [storedEntry, hfm]
  · simp [storedEntry, hfm, hnz]
  · intro hl
    simp [storedEntry, hfm, hnz, hci, hl]
  · show M1.m_elemSizeAllocated = _
    rw [hf.alloc]
    by_cases hfull : M.m_nz = M.m_elemSizeAllocated
    · rw [if_pos hfull, if_pos (by omega)]
    · rw [if_neg hfull, if_neg (by omega)]

end SetValueTheorems

/-- C9, witness: the first `SetValue(1, 0, 5)` on a freshly constructed, unreserved 2-by-2 CSC
matrix succeeds and grows the capacity from 0 to 100. -/
theorem SetValue_success_witness :
    (CPUSparseMatrix.SetValue exFreshZero 1 0 5 exEmpty22).state.m_nz = 1
      ∧ (CPUSparseMatrix.SetValue exFreshZero 1 0 5 exEmpty22).state.m_pArray 0 = 5
      ∧ (CPUSparseMatrix.SetValue exFreshZero 1 0 5 exEmpty22).state.m_unCompIndex 0 = 1
      ∧ (CPUSparseMatrix.SetValue exFreshZero 1 0 5 exEmpty22).state.m_compIndex 1 = 1
      ∧ (CPUSparseMatrix.SetValue exFreshZero 1 0 5 exEmpty22).state.m_elemSizeAllocated
          = 100 := by
  have h := SetValue_success_spec exFreshZero 1 0 5 exEmpty22
    (CPUSparseMatrix.SetValue exFreshZero 1 0 5 exEmpty22).state (by decide) rfl
  obtain ⟨_, h1, h2, h3, _, _, h6, _, h8⟩ := h
  exact ⟨h1, h2, h3, h6, h8⟩

/-- C8, as amended. `SetValue(row, col, v)` raises a logic error exactly when the format is not
CSC/CSR, or the matrix is full while its secondary-index capacity exceeds
`max(numRows, numCols) + 1` (the automatic `Resize` then refuses to keep the values), or
`row >= numRows`, or `col >= numCols`, or the call violates the fill order. Whenever it
raises, `nzCount`, the fill lane and the first `nzCount` (value, major index) pairs are the
same as before the call, and so are the entries `0..laneCount` of the secondary index unless
the call has grown a matrix without any entry and any capacity. -/
theorem SetValue_raises_iff {R : Type} (fresh : FreshBuffers R) (row col : Nat) (v : R)
    (M : CPUSparseMatrix R) :
    ((CPUSparseMatrix.SetValue fresh row col v M).error = some .logicError ↔
        (M.m_format ≠ .matrixFormatSparseCSC ∧ M.m_format ≠ .matrixFormatSparseCSR)
          ∨ GrowRefused M ∨ row ≥ M.m_numRows ∨ col ≥ M.m_numCols
          ∨ FillOrderViolation M row col)
      ∧ ∀ e M', CPUSparseMatrix.SetValue fresh row col v M = .raised e M' →
          e = .logicError ∧ M'.m_nz = M.m_nz ∧ M'.m_colIdx = M.m_colIdx
            ∧ (∀ p < M.m_nz,
                M'.m_pArray p = M.m_pArray p ∧ M'.m_unCompIndex p = M.m_unCompIndex p)
            ∧ ((0 < M.m_nz ∨ M.m_nz < M.m_elemSizeAllocated) →
                ∀ i ≤ M.laneCount, M'.m_compIndex i = M.m_compIndex i) := by
  by_cases hfmt : CPUSparseMatrix.isCompressed M.m_format = true
  swap
  · have hfmt' : CPUSparseMatrix.isCompressed M.m_format = false := by simpa using hfmt
    rw [SetValue_bad_format fresh row col v M hfmt']
    have hne : M.m_format ≠ .matrixFormatSparseCSC ∧ M.m_format ≠ .matrixFormatSparseCSR := by
      simpa [CPUSparseMatrix.isCompressed] using hfmt'
    refine ⟨⟨fun _ => Or.inl hne, fun _ => rfl⟩, ?_⟩
    intro e M' h
    injection h with h1 h2
    subst h1 h2
    exact ⟨rfl, rfl, rfl, fun p _ => ⟨rfl, rfl⟩, fun _ i _ => rfl⟩
  have hcomp : ¬ (M.m_format ≠ .matrixFormatSparseCSC ∧ M.m_format ≠ .matrixFormatSparseCSR) := by
    simp only [CPUSparseMatrix.isCompressed, Bool.or_eq_true, beq_iff_eq] at hfmt
    rintro ⟨h1, h2⟩
    rcases hfmt with h3 | h3
    · exact h1 h3
    · exact h2 h3
  by_cases hg : GrowRefused M
  · rw [SetValue_refused fresh row col v M hfmt hg]
    refine ⟨⟨fun _ => Or.inr (Or.inl hg), fun _ => rfl⟩, ?_⟩
    intro e M' h
    injection h with h1 h2
    subst h1 h2
    exact ⟨rfl, rfl, rfl, fun p _ => ⟨rfl, rfl⟩, fun _ i _ => rfl⟩
  obtain ⟨M1, hf, hset⟩ := SetValue_store fresh row col v M hfmt hg
  rw [hset]
  by_cases hb : row ≥ M1.m_numRows ∨ col ≥ M1.m_numCols
  · rw [storeEntry_bounds row col v M1 hb]
    have hb' : row ≥ M.m_numRows ∨ col ≥ M.m_numCols := by
      rw [← hf.rows, ← hf.cols]; exact hb
    refine ⟨⟨fun _ => ?_, fun _ => rfl⟩, ?_⟩
    · rcases hb' with h | h
      · exact Or.inr (Or.inr (Or.inl h))
      · exact Or.inr (Or.inr (Or.inr (Or.inl h)))
    · intro e M' h
      injection h with h1 h2
      subst h1 h2
      exact ⟨rfl, hf.nz, hf.colIdx, fun p hp => ⟨hf.values p hp, hf.major p hp⟩, hf.secondary⟩
  have hr : row < M1.m_numRows := by omega
  have hc : col < M1.m_numCols := by omega
  by_cases hv : FillOrderViolation M1 row col
  · rw [storeEntry_order row col v M1 hr hc hv]
    refine ⟨⟨fun _ => ?_, fun _ => rfl⟩, ?_⟩
    · exact Or.inr (Or.inr (Or.inr (Or.inr ((hf.fillOrder row col).mp hv))))
    · intro e M' h
      injection h with h1 h2
      subst h1 h2
      refine ⟨rfl, hf.nz, hf.colIdx, fun p hp => ?_, hf.secondary⟩
      have hne : p ≠ M1.m_nz := by rw [hf.nz]; omega
      simp only [Function.update_noteq hne]
      exact ⟨hf.values p hp, hf.major p hp⟩
  · rw [storeEntry_ok row col v M1 hr hc hv]
    refine ⟨⟨fun h => by simp [Outcome.error] at h, fun h => ?_⟩, fun e M' h => by simp at h⟩
    exfalso
    rcases h with h | h | h | h | h
    · exact hcomp h
    · exact hg h
    · rw [← hf.rows] at h; omega
    · rw [← hf.cols] at h; omega
    · exact hv ((hf.fillOrder row col).mpr h)

/-- C8, counterexample. (a) On a CSC matrix constructed 10-by-10 and resized to 2-by-2,
`SetValue(0, 0, 5)` raises a logic error although the format is CSC, the row and the column are
in range and no entry is stored. (b) On a freshly constructed unreserved 2-by-2 CSC matrix,
`SetValue(5, 0, 5)` raises for its row after the automatic resize has replaced the
secondary-index buffer by a newly allocated one. -/
theorem SetValue_raises_outside_listed_conditions :
    ((CPUSparseMatrix.SetValue exFresh 0 0 5 exShrunk).error = some .logicError
        ∧ ¬ ((exShrunk.m_format ≠ .matrixFormatSparseCSC
              ∧ exShrunk.m_format ≠ .matrixFormatSparseCSR)
            ∨ 0 ≥ exShrunk.m_numRows ∨ 0 ≥ exShrunk.m_numCols
            ∨ FillOrderViolation exShrunk 0 0))
      ∧ ((CPUSparseMatrix.SetValue exFreshZero 5 0 5 exEmpty22).error = some .logicError
        ∧ (CPUSparseMatrix.SetValue exFreshZero 5 0 5 exEmpty22).state.m_compIndex 0
            ≠ exEmpty22.m_compIndex 0) := by
  decide

/-- C8, witness of the amended statement: the refused automatic resize of (a). -/
theorem SetValue_raises_iff_witness :
    (CPUSparseMatrix.SetValue exFresh 0 0 5 exShrunk).error = some .logicError :=
  (SetValue_raises_iff exFresh 0 0 5 exShrunk).1.mpr (Or.inr (Or.inl (by decide)))

section FillInvariant

variable {R : Type}

theorem callLanes_concat (f : MatrixFormat) (done : List (SetValueCall R)) (a : SetValueCall R) :
    callLanes f (done ++ [a]) = callLanes f done ++ [fillLane f a.row a.col] := by
  simp [callLanes]

theorem stampedLanes_concat (f : MatrixFormat) (done : List (SetValueCall R))
    (a : SetValueCall R) :
    stampedLanes f (done ++ [a])
      = stampedLanes f done ++ [fillLane f a.row a.col, fillLane f a.row a.col + 1] := by
  simp [stampedLanes, callLanes_concat]

theorem countBelow_concat (f : MatrixFormat) (done : List (SetValueCall R)) (a : SetValueCall R)
    (i : Nat) :
    countBelow f (done ++ [a]) i
      = countBelow f done i + if fillLane f a.row a.col < i then 1 else 0 := by
  simp [countBelow, callLanes_concat, List.countP_singleton]

theorem countBelow_eq_length (f : MatrixFormat) (done : List (SetValueCall R)) (i : Nat)
    (h : ∀ x ∈ callLanes f done, x < i) : countBelow f done i = done.length := by
  have : (callLanes f done).countP (fun c => decide (c < i)) = (callLanes f done).length := by
    rw [List.countP_eq_length]
    intro x hx
    simpa using h x hx
  simpa [countBelow, callLanes] using this

theorem countBelow_mono (f : MatrixFormat) (calls : List (SetValueCall R)) {i j : Nat}
    (hij : i ≤ j) : countBelow f calls i ≤ countBelow f calls j := by
  unfold countBelow
  apply List.countP_mono_left
  intro x _ hx
  simp only [decide_eq_true_eq] at hx ⊢
  omega

theorem mem_stampedLanes (f : MatrixFormat) (calls : List (SetValueCall R)) (i : Nat) :
    i ∈ stampedLanes f calls ↔ ∃ x ∈ callLanes f calls, i = x ∨ i = x + 1 := by
  simp [stampedLanes, List.mem_flatMap]

end FillInvariant

section FillStep

variable {R : Type}

theorem SetValue_ok_inv (fresh : FreshBuffers R) (row col : Nat) (v : R)
    (M M' : CPUSparseMatrix R) (hok : CPUSparseMatrix.SetValue fresh row col v M = .ok M') :
    ∃ M1, GrowFrame M M1 ∧ row < M.m_numRows ∧ col < M.m_numCols
      ∧ CPUSparseMatrix.isCompressed M.m_format = true ∧ M' = storedEntry row col v M1 := by
  by_cases hfmt : CPUSparseMatrix.isCompressed M.m_format = true
  swap
  · rw [SetValue_bad_format fresh row col v M (by simpa using hfmt)] at hok
    exact absurd hok (by simp)
  by_cases hg : GrowRefused M
  · rw [SetValue_refused fresh row col v M hfmt hg] at hok
    exact absurd hok (by simp)
  obtain ⟨M1, hf, hset⟩ := SetValue_store fresh row col v M hfmt hg
  rw [hset] at hok
  by_cases hb : row ≥ M1.m_numRows ∨ col ≥ M1.m_numCols
  · rw [storeEntry_bounds row col v M1 hb] at hok
    exact absurd hok (by simp)
  have hr : row < M1.m_numRows := by omega
  have hc : col < M1.m_numCols := by omega
  by_cases hv : FillOrderViolation M1 row col
  · rw [storeEntry_order row col v M1 hr hc hv] at hok
    exact absurd hok (by simp)
  rw [storeEntry_ok row col v M1 hr hc hv] at hok
  refine ⟨M1, hf, by rw [← hf.rows]; exact hr, by rw [← hf.cols]; exact hc, hfmt, ?_⟩
  injection hok with h; exact h.symm

theorem SetValue_fillInv (M0 M M' : CPUSparseMatrix R) (done : List (SetValueCall R))
    (a : SetValueCall R) (hinv : FillInv M0 done M)
    (hok : CPUSparseMatrix.SetValue a.fresh a.row a.col a.v M = .ok M')
    (hge : ∀ x ∈ callLanes M0.m_format done, x ≤ fillLane M0.m_format a.row a.col) :
    FillInv M0 (done ++ [a]) M' := by
  obtain ⟨M1, hf, hr, hc, _, hM'⟩ := SetValue_ok_inv a.fresh a.row a.col a.v M M' hok
  subst hM'
  have hfm : M1.m_format = M0.m_format := hf.format.trans hinv.format
  have hnz : M1.m_nz = done.length := hf.nz.trans hinv.nz
  have hci : M1.m_colIdx = M.m_colIdx := hf.colIdx
  have hlane : fillLane M0.m_format a.row a.col < M0.laneCount := by
    unfold fillLane CPUSparseMatrix.laneCount
    rw [← hinv.rows, ← hinv.cols]
    split_ifs <;> assumption
  have hlc : M.laneCount = M0.laneCount := by
    unfold CPUSparseMatrix.laneCount
    rw [hinv.format, hinv.rows, hinv.cols]
  -- entries of the secondary index that the resize has kept
  have hkept : done ≠ [] → ∀ i ≤ M0.laneCount, M1.m_compIndex i = M.m_compIndex i := by
    intro hne i hi
    have hpos : 0 < M.m_nz := by
      rw [hinv.nz]; exact List.length_pos.mpr hne
    exact hf.secondary (Or.inl hpos) i (by rw [hlc]; exact hi)
  have hcomp : ∀ i, (storedEntry a.row a.col a.v M1).m_compIndex i
      = if i = fillLane M0.m_format a.row a.col + 1 then done.length + 1
        else if i = fillLane M0.m_format a.row a.col
            ∧ (fillLane M0.m_format a.row a.col : Int) ≠ M.m_colIdx then done.length
        else M1.m_compIndex i := by
    intro i
    simp only [storedEntry, hfm, hnz, hci]
    by_cases h1 : i = fillLane M0.m_format a.row a.col + 1
    · subst h1; simp
    · rw [Function.update_noteq h1, if_neg h1]
      by_cases h2 : (fillLane M0.m_format a.row a.col : Int) ≠ M.m_colIdx
      · rw [if_pos h2]
        by_cases h3 : i = fillLane M0.m_format a.row a.col
        · subst h3; simp [h2]
        · rw [Function.update_noteq h3, if_neg (fun h => h3 h.1)]
      · rw [if_neg h2, if_neg (fun h => h2 h.2)]
  refine
    { format := hfm
      rows := hf.rows.trans hinv.rows
      cols := hf.cols.trans hinv.cols
      nz := by simp [storedEntry, hnz]
      empty := by simp
      last := ?_
      below := ?_
      inRange := ?_
      stamps := ?_ }
  · intro l hl
    rw [callLanes_concat, List.getLast?_concat] at hl
    injection hl with hl
    subst hl
    simp [storedEntry, hfm]
  · intro x hx
    rw [callLanes_concat, List.mem_append, List.mem_singleton] at hx
    have : (storedEntry a.row a.col a.v M1).m_colIdx = (fillLane M0.m_format a.row a.col : Int) := by
      simp [storedEntry, hfm]
    rw [this]
    rcases hx with hx | hx
    · exact_mod_cast hge x hx
    · subst hx; exact le_refl _
  · intro x hx
    rw [callLanes_concat, List.mem_append, List.mem_singleton] at hx
    rcases hx with hx | hx
    · exact hinv.inRange x hx
    · subst hx; exact hlane
  · intro i hi
    rw [hcomp i, countBelow_concat]
    by_cases h1 : i = fillLane M0.m_format a.row a.col + 1
    · subst h1
      rw [if_pos rfl, if_pos (by omega), countBelow_eq_length]
      intro x hx
      have := hge x hx
      omega
    · rw [if_neg h1]
      by_cases h2 : i = fillLane M0.m_format a.row a.col
          ∧ (fillLane M0.m_format a.row a.col : Int) ≠ M.m_colIdx
      · obtain ⟨h2a, h2b⟩ := h2
        subst h2a
        rw [if_pos ⟨rfl, h2b⟩, if_neg (by omega), Nat.add_zero, countBelow_eq_length]
        intro x hx
        have h3 := hge x hx
        have h4 := hinv.below x hx
        rcases Nat.lt_or_ge x (fillLane M0.m_format a.row a.col) with h5 | h5
        · exact h5
        · exfalso
          have h6 : x = fillLane M0.m_format a.row a.col := by omega
          -- every earlier lane is at most the fill lane, which is at most this lane
          obtain ⟨l, hl⟩ : ∃ l, (callLanes M0.m_format done).getLast? = some l := by
            cases hd : (callLanes M0.m_format done).getLast? with
            | none =>
              rw [List.getLast?_eq_none_iff] at hd
              rw [hd] at hx
              exact absurd hx (List.not_mem_nil _)
            | some l => exact ⟨l, rfl⟩
          have h7 := hinv.last l hl
          have h8 := hge l (List.mem_of_getLast?_eq_some hl)
          apply h2b
          rw [h7] at h4 ⊢
          have h9 : (x : Int) ≤ (l : Int) := h4
          have h10 : x ≤ l := by exact_mod_cast h9
          have h11 : fillLane M0.m_format a.row a.col = l := by omega
          rw [h11]
      · rw [if_neg h2]
        -- an entry stamped earlier, or the current lane when it does not change
        have hmem : i ∈ stampedLanes M0.m_format done := by
          rw [stampedLanes_concat, List.mem_append] at hi
          rcases hi with hi | hi
          · exact hi
          · simp only [List.mem_cons, List.mem_singleton, List.not_mem_nil, or_false] at hi
            rcases hi with hi | hi
            · subst hi
              have h3 : (fillLane M0.m_format a.row a.col : Int) = M.m_colIdx := by
                by_contra h3
                exact h2 ⟨rfl, h3⟩
              have hne : done ≠ [] := by
                intro he
                have := hinv.empty he
                rw [this] at h3
                omega
              obtain ⟨l, hl⟩ : ∃ l, (callLanes M0.m_format done).getLast? = some l := by
                cases hd : (callLanes M0.m_format done).getLast? with
                | none =>
                  rw [List.getLast?_eq_none_iff] at hd
                  simp [callLanes] at hd
                  exact absurd hd hne
                | some l => exact ⟨l, rfl⟩
              have h7 := hinv.last l hl
              rw [h7] at h3
              have h9 : fillLane M0.m_format a.row a.col = l := by exact_mod_cast h3
              rw [mem_stampedLanes]
              exact ⟨l, List.mem_of_getLast?_eq_some hl, Or.inl h9⟩
            · exact absurd hi h1
        obtain ⟨x, hx, hix⟩ := (mem_stampedLanes _ _ _).mp hmem
        have hne : done ≠ [] := by
          intro he
          rw [he] at hx
          simp [callLanes] at hx
        have hx1 := hge x hx
        have hx2 := hinv.inRange x hx
        have hile : i ≤ M0.laneCount := by omega
        rw [hkept hne i hile, hinv.stamps i hmem, if_neg (by omega), Nat.add_zero]

end FillStep

section FillRun

variable {R : Type}

theorem FillInv_init (M0 : CPUSparseMatrix R) (hnz : M0.m_nz = 0) (hcol : M0.m_colIdx = -1) :
    FillInv M0 [] M0 :=
  { format := rfl
    rows := rfl
    cols := rfl
    nz := hnz
    empty := fun _ => hcol
    last := by intro l hl; simp [callLanes] at hl
    below := by intro x hx; simp [callLanes] at hx
    inRange := by intro x hx; simp [callLanes] at hx
    stamps := by intro i hi; simp [stampedLanes, callLanes] at hi }

theorem setValues_fillInv (rest done : List (SetValueCall R)) (M0 M Mf : CPUSparseMatrix R)
    (hinv : FillInv M0 done M) (hrun : setValues rest M = .ok Mf)
    (hord : (callLanes M0.m_format (done ++ rest)).Pairwise (· ≤ ·)) :
    FillInv M0 (done ++ rest) Mf := by
  induction rest generalizing done M with
  | nil =>
    simp only [setValues] at hrun
    injection hrun with h
    subst h
    simpa using hinv
  | cons a rest ih =>
    simp only [setValues] at hrun
    cases hstep : CPUSparseMatrix.SetValue a.fresh a.row a.col a.v M with
    | raised e M1 => rw [hstep] at hrun; exact absurd hrun (by simp)
    | ok M1 =>
      rw [hstep] at hrun
      have hge : ∀ x ∈ callLanes M0.m_format done, x ≤ fillLane M0.m_format a.row a.col := by
        intro x hx
        have h := hord
        simp only [callLanes, List.map_append, List.map_cons] at h
        rw [List.pairwise_append] at h
        exact h.2.2 x hx _ (List.mem_cons_self _ _)
      have hinv1 := SetValue_fillInv M0 M M1 done a hinv hstep hge
      have := ih (done ++ [a]) M1 hinv1 hrun (by simpa using hord)
      simpa using this

/-- C7. For every sequence of successful `SetValue` calls applied to a freshly constructed or
`Reset` matrix (no entry, no fill lane) whose lanes never decrease, the entries of the
secondary index stamped by some call are non-decreasing in the index, and the highest one,
`secondaryIndex[lastLane+1]`, equals `nzCount`. (Success of the calls already forces the
major indices to increase strictly within each lane, and the format to be CSC or CSR.) -/
theorem setValues_secondaryIndex_sorted (calls : List (SetValueCall R))
    (M0 M : CPUSparseMatrix R) (hnz : M0.m_nz = 0) (hcol : M0.m_colIdx = -1)
    (hrun : setValues calls M0 = .ok M)
    (hord : (callLanes M0.m_format calls).Pairwise (· ≤ ·)) :
    (∀ i ∈ stampedLanes M0.m_format calls, ∀ j ∈ stampedLanes M0.m_format calls,
        i ≤ j → M.m_compIndex i ≤ M.m_compIndex j)
      ∧ (∀ l, (callLanes M0.m_format calls).getLast? = some l →
          M.m_compIndex (l + 1) = M.m_nz)
      ∧ M.m_nz = calls.length := by
  have hinv := setValues_fillInv calls [] M0 M0 M (FillInv_init M0 hnz hcol) hrun
    (by simpa using hord)
  rw [List.nil_append] at hinv
  refine ⟨fun i hi j hj hij => ?_, fun l hl => ?_, hinv.nz⟩
  · rw [hinv.stamps i hi, hinv.stamps j hj]
    exact countBelow_mono _ _ hij
  · have hmem : l + 1 ∈ stampedLanes M0.m_format calls :=
      (mem_stampedLanes _ _ _).mpr ⟨l, List.mem_of_getLast?_eq_some hl, Or.inr rfl⟩
    rw [hinv.stamps _ hmem, hinv.nz, countBelow_eq_length]
    intro x hx
    have h1 := hinv.below x hx
    rw [hinv.last l hl] at h1
    have : x ≤ l := by exact_mod_cast h1
    omega

end FillRun

/-- C7, witness: the fill `(1,0)`, `(0,1)`, `(1,1)` of a 2-by-2 CSC matrix stamps the entries
0, 1, 2 of the secondary index with `0 <= 1 <= 3 = nzCount`. -/
theorem setValues_secondaryIndex_witness :
    (setValues exCalls exEmpty22).state.m_compIndex 0
        ≤ (setValues exCalls exEmpty22).state.m_compIndex 1
      ∧ (setValues exCalls exEmpty22).state.m_compIndex 1
        ≤ (setValues exCalls exEmpty22).state.m_compIndex 2
      ∧ (setValues exCalls exEmpty22).state.m_compIndex 2
        = (setValues exCalls exEmpty22).state.m_nz
      ∧ (setValues exCalls exEmpty22).state.m_nz = 3 := by
  obtain ⟨h1, h2, h3⟩ := setValues_secondaryIndex_sorted exCalls exEmpty22
    (setValues exCalls exEmpty22).state (by decide) (by decide) rfl (by decide)
  exact ⟨h1 0 (by decide) 1 (by decide) (by decide),
    h1 1 (by decide) 2 (by decide) (by decide), h2 1 (by decide), h3⟩

/-- C10, evaluation at the failing input. A 1-by-4 CSC matrix is filled from empty by
`SetValue(0,0,5)` and `SetValue(0,3,7)`; no call stamps entry 2 of the secondary index.
`ScaleAndAdd` reads it all the same: when the allocator has left `0` there, column 2 is
scanned as the range `[0,1)` and `D(0,2)` receives the value 5 of the entry `(0,0)`, although
nothing was inserted at `(0,2)`; when the allocator has left `1` there, `D(0,2)` is
unchanged. The result depends on the content of a lane that was never stamped. -/
theorem ScaleAndAdd_reads_unstamped_lane :
    (setValues (exGapCalls exFreshZero) (exEmpty14 exFreshZero)).error = none
      ∧ 2 ∉ stampedLanes .matrixFormatSparseCSC (exGapCalls exFreshZero)
      ∧ (ScaleAndAdd 1 (setValues (exGapCalls exFreshZero) (exEmpty14 exFreshZero)).state
            exDense14).error = none
      ∧ (ScaleAndAdd 1 (setValues (exGapCalls exFreshZero) (exEmpty14 exFreshZero)).state
            exDense14).state.get 0 2 = exDense14.get 0 2 + 5
      ∧ (ScaleAndAdd 1 (setValues (exGapCalls exFreshOne) (exEmpty14 exFreshOne)).state
            exDense14).state.get 0 2 = exDense14.get 0 2 := by
  decide

section ResizeLemmas

variable {R : Type}

theorem newCompIndexSize_eq (numRows numCols : Nat) :
    (if numCols > numRows then numCols else numRows) + 1 = max numRows numCols + 1 := by
  split_ifs <;> omega

/-- When the reallocation test fails, `Resize` only sets the dimensions. -/
theorem Resize_keeps_buffers (fresh : FreshBuffers R) (numRows numCols reserve : Nat)
    (growOnly keep : Bool) (M : CPUSparseMatrix R)
    (h : ¬ ResizeReallocates M numRows numCols reserve growOnly) :
    CPUSparseMatrix.Resize fresh numRows numCols reserve growOnly keep M
      = .ok { M with m_numRows := numRows, m_numCols := numCols } := by
  unfold ResizeReallocates at h
  rw [← newCompIndexSize_eq] at h
  push_neg at h
  obtain ⟨h1, h2, h3⟩ := h
  unfold CPUSparseMatrix.Resize
  have e1 : decide (M.m_elemSizeAllocated < reserve) = false := by simpa using h1
  have e3 : decide (M.m_compIndexSize
      < (if numCols > numRows then numCols else numRows) + 1) = false := by simpa using h3
  have e2 : (decide (M.m_elemSizeAllocated > reserve) && !growOnly) = false := by
    cases growOnly
    · simpa using h2 rfl
    · simp
  simp only [e1, e2, e3, Bool.or_self, Bool.false_eq_true, if_false]

/-- When the reallocation test succeeds and `Resize` returns, the capacities are the requested
ones and, in a sparse layout, the value buffer beyond the live data is the new buffer. -/
theorem Resize_reallocated (fresh : FreshBuffers R) (numRows numCols reserve : Nat)
    (growOnly keep : Bool) (M M' : CPUSparseMatrix R)
    (h : ResizeReallocates M numRows numCols reserve growOnly)
    (hok : CPUSparseMatrix.Resize fresh numRows numCols reserve growOnly keep M = .ok M') :
    M'.m_elemSizeAllocated = reserve ∧ M'.m_compIndexSize = max numRows numCols + 1
      ∧ M'.m_numRows = numRows ∧ M'.m_numCols = numCols ∧ M'.m_nz = M.m_nz
      ∧ M'.m_format = M.m_format
      ∧ (IsSparseLayout M → ∀ p, M.m_nz ≤ p → M'.m_pArray p = fresh.pArray p) := by
  unfold ResizeReallocates at h
  rw [← newCompIndexSize_eq] at h ⊢
  have hre : (decide (M.m_elemSizeAllocated < reserve)
      || (decide (M.m_elemSizeAllocated > reserve) && !growOnly)
      || decide (M.m_compIndexSize
          < (if numCols > numRows then numCols else numRows) + 1)) = true := by
    rcases h with h | ⟨h1, h2⟩ | h
    · simp [h]
    · simp [h1, h2]
    · simp [h]
  unfold CPUSparseMatrix.Resize at hok
  simp only [hre, if_true] at hok
  generalize (if M.m_numRows ≠ numRows ∨ M.m_numCols ≠ numCols then false else keep) = k at hok
  by_cases hc : CPUSparseMatrix.isCompressed M.m_format = true
  · simp only [hc, if_true] at hok
    by_cases hg : (k && (decide (M.m_nz > reserve)
        || decide (M.m_compIndexSize
            > (if numCols > numRows then numCols else numRows) + 1))) = true
    · simp only [hg, if_true] at hok
      exact Outcome.noConfusion hok
    · simp only [hg, if_false] at hok
      cases hok
      refine ⟨rfl, rfl, rfl, rfl, rfl, rfl, fun _ p hp => ?_⟩
      have hp' : ¬ p < M.m_nz := by omega
      show (if (k && decide (M.m_nz > 0)) = true then memcpy fresh.pArray M.m_pArray M.m_nz
        else fresh.pArray) p = fresh.pArray p
      split_ifs <;> simp [memcpy, hp']
  · have hc' : CPUSparseMatrix.isCompressed M.m_format = false := by simpa using hc
    simp only [hc', Bool.false_eq_true, if_false] at hok
    by_cases hb : CPUSparseMatrix.isBlock M.m_format = true
    · simp only [hb, if_true] at hok
      by_cases hg : (k && (decide (M.m_nz > reserve)
          || decide (M.m_compIndexSize
              > (if numCols > numRows then numCols else numRows) + 1))) = true
      · simp only [hg, if_true] at hok
        exact Outcome.noConfusion hok
      · simp only [hg, if_false] at hok
        cases hok
        refine ⟨rfl, rfl, rfl, rfl, rfl, rfl, fun _ p hp => ?_⟩
        have hp' : ¬ p < M.m_nz := by omega
        show (if (k && decide (M.m_elemSizeAllocated > 0)) = true
          then memcpy fresh.pArray M.m_pArray M.m_nz else fresh.pArray) p = fresh.pArray p
        split_ifs <;> simp [memcpy, hp']
    · have hb' : CPUSparseMatrix.isBlock M.m_format = false := by simpa using hb
      simp only [hb', Bool.false_eq_true, if_false] at hok
      cases hok
      refine ⟨rfl, rfl, rfl, rfl, rfl, rfl, fun hs => ?_⟩
      rcases hs with hs | hs
      · exact absurd hs hc
      · exact absurd hs hb

end ResizeLemmas

section ResizeTheorems

variable {R : Type}

/-- C11, as amended. A `Resize` that returns has reallocated (ending with
`allocatedCapacity = reserveNz`, `secondaryIndexCapacity = max(rows,cols)+1` and, in a sparse
layout, a new value buffer beyond the live data) exactly when `allocatedCapacity < reserveNz`,
or `growOnly` is false and `allocatedCapacity > reserveNz`, or the current
`secondaryIndexCapacity` is BELOW `max(rows,cols)+1`; otherwise it has only set the
dimensions. In particular `secondaryIndexCapacity >= max(rows,cols)+1` afterwards. -/
theorem Resize_reallocates_iff (fresh : FreshBuffers R) (numRows numCols reserve : Nat)
    (growOnly keep : Bool) (M M' : CPUSparseMatrix R)
    (hok : CPUSparseMatrix.Resize fresh numRows numCols reserve growOnly keep M = .ok M') :
    (ResizeReallocates M numRows numCols reserve growOnly →
        M'.m_elemSizeAllocated = reserve ∧ M'.m_compIndexSize = max numRows numCols + 1
          ∧ (IsSparseLayout M → ∀ p, M.m_nz ≤ p → M'.m_pArray p = fresh.pArray p))
      ∧ (¬ ResizeReallocates M numRows numCols reserve growOnly →
          M' = { M with m_numRows := numRows, m_numCols := numCols })
      ∧ max numRows numCols + 1 ≤ M'.m_compIndexSize := by
  by_cases h : ResizeReallocates M numRows numCols reserve growOnly
  · obtain ⟨h1, h2, _, _, _, _, h3⟩ :=
      Resize_reallocated fresh numRows numCols reserve growOnly keep M M' h hok
    exact ⟨fun _ => ⟨h1, h2, h3⟩, fun hn => absurd h hn, by omega⟩
  · rw [Resize_keeps_buffers fresh numRows numCols reserve growOnly keep M h] at hok
    cases hok
    refine ⟨fun hy => absurd hy h, fun _ => rfl, ?_⟩
    unfold ResizeReallocates at h
    push_neg at h
    exact h.2.2

/-- The guarded reallocation of `Resize` on unchanged dimensions with values kept, in a sparse
layout: it raises when the live data or the old secondary index do not fit. -/
theorem Resize_keep_raises (fresh : FreshBuffers R) (reserve : Nat) (growOnly : Bool)
    (M : CPUSparseMatrix R) (hfmt : IsSparseLayout M)
    (hre : ResizeReallocates M M.m_numRows M.m_numCols reserve growOnly)
    (hbad : M.m_nz > reserve ∨ M.m_compIndexSize > max M.m_numRows M.m_numCols + 1) :
    CPUSparseMatrix.Resize fresh M.m_numRows M.m_numCols reserve growOnly true M
      = .raised .logicError M := by
  unfold ResizeReallocates at hre
  rw [← newCompIndexSize_eq] at hre hbad
  have hre' : (decide (M.m_elemSizeAllocated < reserve)
      || (decide (M.m_elemSizeAllocated > reserve) && !growOnly)
      || decide (M.m_compIndexSize
          < (if M.m_numCols > M.m_numRows then M.m_numCols else M.m_numRows) + 1)) = true := by
    rcases hre with h | ⟨h1, h2⟩ | h
    · simp [h]
    · simp [h1, h2]
    · simp [h]
  have hg : (decide (M.m_nz > reserve) || decide (M.m_compIndexSize
      > (if M.m_numCols > M.m_numRows then M.m_numCols else M.m_numRows) + 1)) = true := by
    rcases hbad with h | h
    · simp [h]
    · simp [h]
  unfold CPUSparseMatrix.Resize
  simp only [ne_eq, not_true_eq_false, or_self, if_false, hre', if_true, hg, Bool.and_self]
  rcases hfmt with hc | hb
  · simp only [hc, if_true]
  · by_cases hc : CPUSparseMatrix.isCompressed M.m_format = true
    · simp only [hc, if_true]
    · have hc' : CPUSparseMatrix.isCompressed M.m_format = false := by simpa using hc
      simp only [hc', Bool.false_eq_true, if_false, hb, if_true]

/-- C12, as amended. On a matrix in one of the four sparse layouts, `Resize` with
`keepExisting = true`, unchanged dimensions and `reserveNz < nzCount` raises a logic error
exactly when the call decides to reallocate (which it does for `growOnly = false` whenever
`nzCount <= allocatedCapacity`); when it does not reallocate it returns and changes nothing.
Either way the matrix is left exactly as it was: live data is never truncated. -/
theorem Resize_keep_insufficient (fresh : FreshBuffers R) (reserve : Nat) (growOnly : Bool)
    (M : CPUSparseMatrix R) (hfmt : IsSparseLayout M) (hlt : reserve < M.m_nz) :
    ((CPUSparseMatrix.Resize fresh M.m_numRows M.m_numCols reserve growOnly true M).error
          = some .logicError
        ↔ ResizeReallocates M M.m_numRows M.m_numCols reserve growOnly)
      ∧ (¬ ResizeReallocates M M.m_numRows M.m_numCols reserve growOnly →
          CPUSparseMatrix.Resize fresh M.m_numRows M.m_numCols reserve growOnly true M = .ok M)
      ∧ (growOnly = false → M.m_nz ≤ M.m_elemSizeAllocated →
          ResizeReallocates M M.m_numRows M.m_numCols reserve growOnly)
      ∧ (CPUSparseMatrix.Resize fresh M.m_numRows M.m_numCols reserve growOnly true M).state
          = M := by
  have hgo : growOnly = false → M.m_nz ≤ M.m_elemSizeAllocated →
      ResizeReallocates M M.m_numRows M.m_numCols reserve growOnly :=
    fun hg hcap => Or.inr (Or.inl ⟨hg, by omega⟩)
  by_cases h : ResizeReallocates M M.m_numRows M.m_numCols reserve growOnly
  · rw [Resize_keep_raises fresh reserve growOnly M hfmt h (Or.inl hlt)]
    exact ⟨⟨fun _ => h, fun _ => rfl⟩, fun hn => absurd h hn, hgo, rfl⟩
  · rw [Resize_keeps_buffers fresh M.m_numRows M.m_numCols reserve growOnly true M h]
    exact ⟨⟨fun he => by simp [Outcome.error] at he, fun hy => absurd hy h⟩,
      fun _ => rfl, hgo, rfl⟩

end ResizeTheorems

/-- C11, counterexample. A CSC matrix constructed 10-by-10 has `secondaryIndexCapacity = 11`;
`Resize(2, 2, 0, true, false)` returns although `max(2,2)+1 = 3` differs from 11, without
reallocating: the capacity stays 11 and every buffer is the one it was. -/
theorem Resize_shrink_keeps_index_capacity :
    (CPUSparseMatrix.Resize exFresh 2 2 0 true false exBuilt1010).error = none
      ∧ max 2 2 + 1 ≠ exBuilt1010.m_compIndexSize
      ∧ (CPUSparseMatrix.Resize exFresh 2 2 0 true false exBuilt1010).state.m_compIndexSize
          = 11
      ∧ (CPUSparseMatrix.Resize exFresh 2 2 0 true false exBuilt1010).state.m_compIndexSize
          ≠ max 2 2 + 1 := by
  decide

/-- C11, witness of the amended statement on the same call. -/
theorem Resize_reallocates_iff_witness :
    max 2 2 + 1
      ≤ (CPUSparseMatrix.Resize exFresh 2 2 0 true false exBuilt1010).state.m_compIndexSize :=
  (Resize_reallocates_iff exFresh 2 2 0 true false exBuilt1010
    (CPUSparseMatrix.Resize exFresh 2 2 0 true false exBuilt1010).state rfl).2.2

/-- C12, counterexample. On the 2-by-2 CSC matrix holding 3 entries in a capacity of 3,
`Resize(2, 2, 1, growOnly = true, keepExisting = true)` asks for less than the live data and
returns without any error. -/
theorem Resize_keep_growOnly_returns :
    1 < exRhs3.m_nz
      ∧ (CPUSparseMatrix.Resize exFresh 2 2 1 true true exRhs3).error = none
      ∧ (CPUSparseMatrix.Resize exFresh 2 2 1 true true exRhs3).error ≠ some .logicError := by
  decide

/-- C12, witness of the amended statement: the same request with `growOnly = false` raises. -/
theorem Resize_keep_insufficient_witness :
    (CPUSparseMatrix.Resize exFresh exRhs3.m_numRows exRhs3.m_numCols 1 false true exRhs3).error
      = some .logicError :=
  (Resize_keep_insufficient exFresh 1 false exRhs3 (by decide) (by decide)).1.mpr (by decide)

section ResizeKeep

variable {R : Type}

/-- The reallocation of a compressed matrix on unchanged dimensions with values kept, when the
live data and the old secondary index fit: the new buffers receive the old content if there is
any entry, and are left as allocated otherwise. -/
theorem Resize_keep_compressed_ok (fresh : FreshBuffers R) (reserve : Nat) (growOnly : Bool)
    (M : CPUSparseMatrix R) (hfmt : CPUSparseMatrix.isCompressed M.m_format = true)
    (hre : ResizeReallocates M M.m_numRows M.m_numCols reserve growOnly)
    (hnz : M.m_nz ≤ reserve)
    (hcis : M.m_compIndexSize ≤ max M.m_numRows M.m_numCols + 1) :
    CPUSparseMatrix.Resize fresh M.m_numRows M.m_numCols reserve growOnly true M
      = .ok { M with
          m_pArray :=
            if 0 < M.m_nz then memcpy fresh.pArray M.m_pArray M.m_nz else fresh.pArray
          m_unCompIndex :=
            if 0 < M.m_nz then memcpy fresh.unCompIndex M.m_unCompIndex M.m_nz
            else fresh.unCompIndex
          m_compIndex :=
            if 0 < M.m_nz then memcpy fresh.compIndex M.m_compIndex M.SecondaryIndexCount
            else fresh.compIndex
          m_elemSizeAllocated := reserve
          m_compIndexSize := max M.m_numRows M.m_numCols + 1 } := by
  unfold ResizeReallocates at hre
  rw [← newCompIndexSize_eq] at hre hcis ⊢
  have hre' : (decide (M.m_elemSizeAllocated < reserve)
      || (decide (M.m_elemSizeAllocated > reserve) && !growOnly)
      || decide (M.m_compIndexSize
          < (if M.m_numCols > M.m_numRows then M.m_numCols else M.m_numRows) + 1)) = true := by
    rcases hre with h | ⟨h1, h2⟩ | h
    · simp [h]
    · simp [h1, h2]
    · simp [h]
  have hg : (decide (M.m_nz > reserve) || decide (M.m_compIndexSize
      > (if M.m_numCols > M.m_numRows then M.m_numCols else M.m_numRows) + 1)) = false := by
    have h1 : ¬ M.m_nz > reserve := by omega
    have h2 : ¬ M.m_compIndexSize
        > (if M.m_numCols > M.m_numRows then M.m_numCols else M.m_numRows) + 1 := by omega
    simp [h1, h2]
  unfold CPUSparseMatrix.Resize
  simp only [ne_eq, not_true_eq_false, or_self, if_false, hre', if_true, hg, hfmt,
    Bool.and_false, Bool.false_eq_true, Bool.true_and, gt_iff_lt, decide_eq_true_eq]

/-- C13, as amended. For a CSC/CSR matrix, `Resize` with `keepExisting = true`, unchanged
dimensions and `reserveNz >= nzCount` returns provided it does not reallocate or the current
`secondaryIndexCapacity` is at most `max(numRows,numCols)+1`; `nzCount`, `values[0..nzCount)`
and `majorIndex[0..nzCount)` are then what they were, and so is `secondaryIndex[0..laneCount]`
when the matrix holds an entry or the call did not reallocate. -/
theorem Resize_keep_preserves (fresh : FreshBuffers R) (reserve : Nat) (growOnly : Bool)
    (M : CPUSparseMatrix R) (hfmt : CPUSparseMatrix.isCompressed M.m_format = true)
    (hge : M.m_nz ≤ reserve)
    (hcis : ¬ ResizeReallocates M M.m_numRows M.m_numCols reserve growOnly
      ∨ M.m_compIndexSize ≤ max M.m_numRows M.m_numCols + 1) :
    ∃ M' : CPUSparseMatrix R,
      CPUSparseMatrix.Resize fresh M.m_numRows M.m_numCols reserve growOnly true M = .ok M'
        ∧ M'.m_nz = M.m_nz
        ∧ (∀ p < M.m_nz,
            M'.m_pArray p = M.m_pArray p ∧ M'.m_unCompIndex p = M.m_unCompIndex p)
        ∧ ((0 < M.m_nz ∨ ¬ ResizeReallocates M M.m_numRows M.m_numCols reserve growOnly) →
            ∀ i ≤ M.laneCount, M'.m_compIndex i = M.m_compIndex i) := by
  by_cases h : ResizeReallocates M M.m_numRows M.m_numCols reserve growOnly
  · have hc : M.m_compIndexSize ≤ max M.m_numRows M.m_numCols + 1 := hcis.resolve_left (by simpa using h)
    refine ⟨_, Resize_keep_compressed_ok fresh reserve growOnly M hfmt h hge hc, rfl, ?_, ?_⟩
    · intro p hp
      have hpos : 0 < M.m_nz := by omega
      simp [hpos, memcpy, hp]
    · intro hor i hi
      have hpos : 0 < M.m_nz := hor.resolve_right (by simpa using h)
      have hi' : i < M.SecondaryIndexCount := by
        unfold CPUSparseMatrix.SecondaryIndexCount; omega
      simp [hpos, memcpy, hi']
  · refine ⟨M, Resize_keeps_buffers fresh M.m_numRows M.m_numCols reserve growOnly true M h,
      rfl, fun p _ => ⟨rfl, rfl⟩, fun _ i _ => rfl⟩

end ResizeKeep

/-- C13, counterexample. (a) The CSC matrix constructed 10-by-10 and resized to 2-by-2 holds no
entry, yet `Resize(2, 2, 5, true, true)` raises instead of returning, its secondary-index
capacity 11 being above `max(2,2)+1`. (b) On a freshly constructed unreserved 2-by-2 CSC matrix
the same call returns, but with a newly allocated secondary index: entry 0 is not what it
was. -/
theorem Resize_keep_not_always_preserving :
    (CPUSparseMatrix.isCompressed exShrunk.m_format = true ∧ exShrunk.m_nz ≤ 5
        ∧ (CPUSparseMatrix.Resize exFresh exShrunk.m_numRows exShrunk.m_numCols 5 true true
            exShrunk).error = some .logicError)
      ∧ (CPUSparseMatrix.isCompressed exEmpty22.m_format = true ∧ exEmpty22.m_nz ≤ 5
        ∧ (CPUSparseMatrix.Resize exFreshZero exEmpty22.m_numRows exEmpty22.m_numCols 5 true
            true exEmpty22).error = none
        ∧ (CPUSparseMatrix.Resize exFreshZero exEmpty22.m_numRows exEmpty22.m_numCols 5 true
            true exEmpty22).state.m_compIndex 0 ≠ exEmpty22.m_compIndex 0) := by
  decide

/-- C13, witness of the amended statement: growing the 2-by-2 CSC matrix holding 3 entries. -/
theorem Resize_keep_preserves_witness :
    ∃ M' : CPUSparseMatrix Int,
      CPUSparseMatrix.Resize exFreshZero exRhs3.m_numRows exRhs3.m_numCols 8 true true exRhs3
          = .ok M'
        ∧ M'.m_nz = 3 ∧ M'.m_pArray 2 = 4 ∧ M'.m_compIndex 2 = 3 := by
  obtain ⟨M', hcall, h1, h2, h3⟩ :=
    Resize_keep_preserves exFreshZero 8 true exRhs3 (by decide) (by decide)
      (Or.inr (by decide))
  refine ⟨M', hcall, h1, ?_, ?_⟩
  · rw [(h2 2 (by decide)).1]; decide
  · rw [h3 (Or.inl (by decide)) 2 (by decide)]; decide

section BulkLoad

variable {R : Type}

/-- A `Resize` that discards the values never raises. -/
theorem Resize_discard_ok (fresh : FreshBuffers R) (numRows numCols reserve : Nat)
    (growOnly : Bool) (M : CPUSparseMatrix R) :
    ∃ M' : CPUSparseMatrix R,
      CPUSparseMatrix.Resize fresh numRows numCols reserve growOnly false M = .ok M' := by
  unfold CPUSparseMatrix.Resize
  simp only [ite_self, Bool.false_and, Bool.false_eq_true, if_false]
  split_ifs <;> exact ⟨_, rfl⟩

/-- What a `Resize` that discards the values leaves: the requested shape, the format and
`m_nz` as they were, and capacities at least those requested. -/
theorem Resize_discard_spec (fresh : FreshBuffers R) (numRows numCols reserve : Nat)
    (M : CPUSparseMatrix R) :
    ∃ M' : CPUSparseMatrix R,
      CPUSparseMatrix.Resize fresh numRows numCols reserve true false M = .ok M'
        ∧ M'.m_format = M.m_format ∧ M'.m_numRows = numRows ∧ M'.m_numCols = numCols
        ∧ M'.m_nz = M.m_nz ∧ reserve ≤ M'.m_elemSizeAllocated
        ∧ max numRows numCols + 1 ≤ M'.m_compIndexSize := by
  obtain ⟨M', hok⟩ := Resize_discard_ok fresh numRows numCols reserve true M
  refine ⟨M', hok, ?_⟩
  by_cases h : ResizeReallocates M numRows numCols reserve true
  · obtain ⟨h1, h2, h3, h4, h5, h6, _⟩ :=
      Resize_reallocated fresh numRows numCols reserve true false M M' h hok
    exact ⟨h6, h3, h4, h5, by omega, by omega⟩
  · rw [Resize_keeps_buffers fresh numRows numCols reserve true false M h] at hok
    cases hok
    unfold ResizeReallocates at h
    push_neg at h
    exact ⟨rfl, rfl, rfl, rfl, h.1, h.2.2⟩

/-- C18. Bulk load adopts the given arrays: for every matrix constructed in a compressed format
and every input, `SetMatrixFromCSCFormat(colPtr, rowIdx, vals, nz, numRows, numCols)` returns
with format CSC, dimensions `numRows`-by-`numCols`, `nzCount = nz`, `allocatedCapacity >= nz`,
`values[0..nz) = vals`, `majorIndex[0..nz) = rowIdx` and `secondaryIndex[0..numCols] = colPtr`. -/
theorem SetMatrixFromCSCFormat_spec (fresh : FreshBuffers R) (colPtr rowIdx : Nat → Nat)
    (vals : Nat → R) (nz numRows numCols : Nat) (M : CPUSparseMatrix R)
    (_hfmt : CPUSparseMatrix.isCompressed M.m_format = true) :
    ∃ M' : CPUSparseMatrix R,
      CPUSparseMatrix.SetMatrixFromCSCFormat fresh colPtr rowIdx vals nz numRows numCols M
          = .ok M'
        ∧ M'.m_format = .matrixFormatSparseCSC
        ∧ M'.m_numRows = numRows ∧ M'.m_numCols = numCols
        ∧ M'.m_nz = nz ∧ nz ≤ M'.m_elemSizeAllocated
        ∧ (∀ p < nz, M'.m_pArray p = vals p ∧ M'.m_unCompIndex p = rowIdx p)
        ∧ (∀ j ≤ numCols, M'.m_compIndex j = colPtr j) := by
  obtain ⟨M1, hres, h1, h2, h3, _, h5, _⟩ :=
    Resize_discard_spec fresh numRows numCols nz { M with m_format := .matrixFormatSparseCSC }
  have hf1 : M1.m_format = .matrixFormatSparseCSC := h1
  unfold CPUSparseMatrix.SetMatrixFromCSCFormat
  rw [hres]
  refine ⟨_, rfl, ?_, ?_, ?_, ?_, ?_, ?_, ?_⟩
  · simp [CPUSparseMatrix.copyToColLocation, CPUSparseMatrix.copyToRowLocation,
      CPUSparseMatrix.SetNzCount, hf1]
  · simp [CPUSparseMatrix.copyToColLocation, CPUSparseMatrix.copyToRowLocation,
      CPUSparseMatrix.SetNzCount, hf1, h2]
  · simp [CPUSparseMatrix.copyToColLocation, CPUSparseMatrix.copyToRowLocation,
      CPUSparseMatrix.SetNzCount, hf1, h3]
  · simp [CPUSparseMatrix.copyToColLocation, CPUSparseMatrix.copyToRowLocation,
      CPUSparseMatrix.SetNzCount, hf1]
  · simpa [CPUSparseMatrix.copyToColLocation, CPUSparseMatrix.copyToRowLocation,
      CPUSparseMatrix.SetNzCount, hf1] using h5
  · intro p hp
    simp [CPUSparseMatrix.copyToColLocation, CPUSparseMatrix.copyToRowLocation,
      CPUSparseMatrix.SetNzCount, CPUSparseMatrix.NzSize, CPUSparseMatrix.RowSize,
      CPUSparseMatrix.MajorIndexSize, hf1, memcpy, hp]
  · intro j hj
    have hj' : j < numCols + 1 := by omega
    simp [CPUSparseMatrix.copyToColLocation, CPUSparseMatrix.copyToRowLocation,
      CPUSparseMatrix.SetNzCount, CPUSparseMatrix.ColSize, CPUSparseMatrix.SecondaryIndexSize,
      CPUSparseMatrix.SecondaryIndexCount, CPUSparseMatrix.laneCount, hf1, h3, memcpy, hj']

end BulkLoad

/-- C18, witness: loading the arrays of the 2-by-2 matrix with nonzeros `(1,0) = 2`,
`(0,1) = 3`, `(1,1) = 4` into a freshly constructed 10-by-10 CSC matrix. -/
theorem SetMatrixFromCSCFormat_witness :
    ∃ M' : CPUSparseMatrix Int,
      CPUSparseMatrix.SetMatrixFromCSCFormat exFresh exRhs3.m_compIndex exRhs3.m_unCompIndex
          exRhs3.m_pArray 3 2 2 exBuilt1010 = .ok M'
        ∧ M'.m_nz = 3 ∧ M'.m_pArray 1 = 3 ∧ M'.m_unCompIndex 1 = 0 ∧ M'.m_compIndex 2 = 3
        ∧ WellFormedCSC M' := by
  obtain ⟨M', hcall, hf, hr, hc, hnz, _, hv, hci⟩ :=
    SetMatrixFromCSCFormat_spec exFresh exRhs3.m_compIndex exRhs3.m_unCompIndex
      exRhs3.m_pArray 3 2 2 exBuilt1010 (by decide)
  refine ⟨M', hcall, hnz, ?_, ?_, ?_, ?_⟩
  · rw [(hv 1 (by decide)).1]; decide
  · rw [(hv 1 (by decide)).2]; decide
  · rw [hci 2 (by decide)]; decide
  · refine ⟨hf, ?_, ?_, ?_, ?_⟩
    · rw [hci 0 (by decide)]; decide
    · intro j hj
      rw [hc] at hj
      rw [hci j (by omega), hci (j + 1) (by omega)]
      have : j = 0 ∨ j = 1 := by omega
      rcases this with rfl | rfl <;> decide
    · rw [hc, hci 2 (by decide), hnz]; decide
    · intro p hp
      rw [hnz] at hp
      rw [(hv p hp).2, hr]
      have : p = 0 ∨ p = 1 ∨ p = 2 := by omega
      rcases this with rfl | rfl | rfl <;> decide

section CapacityLemmas

variable {R : Type}

/-- A `SetValue` that returns met no fill-order violation. -/
theorem SetValue_ok_order (fresh : FreshBuffers R) (row col : Nat) (v : R)
    (M M' : CPUSparseMatrix R) (hok : CPUSparseMatrix.SetValue fresh row col v M = .ok M') :
    ¬ FillOrderViolation M row col := by
  intro hv
  obtain ⟨_, _, hr, hc, hfmt, _⟩ := SetValue_ok_inv fresh row col v M M' hok
  by_cases hg : GrowRefused M
  · rw [SetValue_refused fresh row col v M hfmt hg] at hok
    exact Outcome.noConfusion hok
  obtain ⟨M1, hf, hset⟩ := SetValue_store fresh row col v M hfmt hg
  rw [hset, storeEntry_order row col v M1 (by rw [hf.rows]; exact hr)
    (by rw [hf.cols]; exact hc) ((hf.fillOrder row col).mpr hv)] at hok
  exact Outcome.noConfusion hok

/-- A `SetValue` that returns has stored one more entry within the capacity, and kept the
format and the dimensions. -/
theorem SetValue_ok_counts (fresh : FreshBuffers R) (row col : Nat) (v : R)
    (M M' : CPUSparseMatrix R) (hok : CPUSparseMatrix.SetValue fresh row col v M = .ok M') :
    M'.m_nz = M.m_nz + 1 ∧ M'.m_nz ≤ M'.m_elemSizeAllocated ∧ M'.m_format = M.m_format
      ∧ M'.m_numRows = M.m_numRows ∧ M'.m_numCols = M.m_numCols := by
  obtain ⟨M1, hf, _, _, _, rfl⟩ := SetValue_ok_inv fresh row col v M M' hok
  have ha := hf.alloc
  refine ⟨?_, ?_, hf.format, hf.rows, hf.cols⟩
  · show M1.m_nz + 1 = M.m_nz + 1
    rw [hf.nz]
  · show M1.m_nz + 1 ≤ M1.m_elemSizeAllocated
    rw [hf.nz, ha]
    split_ifs <;> omega

/-- A run of `SetValue` calls that returns has stored one entry per call within the capacity,
and kept the format and the dimensions. -/
theorem setValues_ok_counts (calls : List (SetValueCall R)) (A M : CPUSparseMatrix R)
    (hcap : A.m_nz ≤ A.m_elemSizeAllocated) (hrun : setValues calls A = .ok M) :
    M.m_nz = A.m_nz + calls.length ∧ M.m_nz ≤ M.m_elemSizeAllocated
      ∧ M.m_format = A.m_format ∧ M.m_numRows = A.m_numRows ∧ M.m_numCols = A.m_numCols := by
  induction calls generalizing A with
  | nil =>
    simp only [setValues] at hrun
    injection hrun with h
    subst h
    exact ⟨rfl, hcap, rfl, rfl, rfl⟩
  | cons a rest ih =>
    simp only [setValues] at hrun
    cases hstep : CPUSparseMatrix.SetValue a.fresh a.row a.col a.v A with
    | raised e M1 => rw [hstep] at hrun; exact Outcome.noConfusion hrun
    | ok M1 =>
      rw [hstep] at hrun
      obtain ⟨h1, h2, h3, h4, h5⟩ := SetValue_ok_counts a.fresh a.row a.col a.v A M1 hstep
      obtain ⟨g1, g2, g3, g4, g5⟩ := ih M1 h2 hrun
      refine ⟨?_, g2, g3.trans h3, g4.trans h4, g5.trans h5⟩
      rw [g1, h1, List.length_cons]; omega

/-- The method `SetMatrixFromCSCFormat` always returns, with `m_nz = nz` within the capacity. -/
theorem SetMatrixFromCSCFormat_ok (fresh : FreshBuffers R) (colPtr rowIdx : Nat → Nat)
    (vals : Nat → R) (nz numRows numCols : Nat) (M : CPUSparseMatrix R) :
    ∃ M' : CPUSparseMatrix R,
      CPUSparseMatrix.SetMatrixFromCSCFormat fresh colPtr rowIdx vals nz numRows numCols M
          = .ok M'
        ∧ M'.m_nz = nz ∧ nz ≤ M'.m_elemSizeAllocated := by
  obtain ⟨M1, hres, h1, _, _, _, h5, _⟩ :=
    Resize_discard_spec fresh numRows numCols nz { M with m_format := .matrixFormatSparseCSC }
  have hf1 : M1.m_format = .matrixFormatSparseCSC := h1
  unfold CPUSparseMatrix.SetMatrixFromCSCFormat
  rw [hres]
  refine ⟨_, rfl, ?_, ?_⟩
  · simp [CPUSparseMatrix.copyToColLocation, CPUSparseMatrix.copyToRowLocation,
      CPUSparseMatrix.SetNzCount, hf1]
  · simpa [CPUSparseMatrix.copyToColLocation, CPUSparseMatrix.copyToRowLocation,
      CPUSparseMatrix.SetNzCount, hf1] using h5

/-- A `Resize` that returns keeps `m_nz` within the capacity when it does not reallocate or
reserves at least `m_nz` slots. -/
theorem Resize_capacity (fresh : FreshBuffers R) (numRows numCols reserve : Nat)
    (growOnly keep : Bool) (M M' : CPUSparseMatrix R) (hinv : CapacityInv M)
    (h : M.m_nz ≤ reserve ∨ ¬ ResizeReallocates M numRows numCols reserve growOnly)
    (hok : CPUSparseMatrix.Resize fresh numRows numCols reserve growOnly keep M = .ok M') :
    CapacityInv M' := by
  unfold CapacityInv at *
  by_cases hr : ResizeReallocates M numRows numCols reserve growOnly
  · obtain ⟨h1, _, _, _, h5, _⟩ :=
      Resize_reallocated fresh numRows numCols reserve growOnly keep M M' hr hok
    rw [h5, h1]
    exact h.resolve_right (fun hn => hn hr)
  · rw [Resize_keeps_buffers fresh numRows numCols reserve growOnly keep M hr] at hok
    cases hok
    exact hinv

end CapacityLemmas

section CapacityProduct

variable {R : Type} [CommRing R]

/-- A `MultiplyAndAdd` that returns leaves `m_nz` within the capacity of its result. -/
theorem MultiplyAndAdd_ok_capacity (fresh : FreshBuffers R) (alpha : R) (lhs : CPUMatrix R)
    (transposeA : Bool) (rhs : CPUSparseMatrix R) (transposeB : Bool)
    (c c' : CPUSparseMatrix R)
    (hok : MultiplyAndAdd fresh alpha lhs transposeA rhs transposeB c = .ok c') :
    CapacityInv c' := by
  unfold MultiplyAndAdd at hok
  by_cases he : (lhs.IsEmpty || rhs.IsEmpty) = true
  · rw [if_pos he] at hok
    exact Outcome.noConfusion hok
  rw [if_neg he] at hok
  cases transposeA <;> cases transposeB
  all_goals simp only [Bool.not_true, Bool.not_false, Bool.and_true, Bool.and_false,
    Bool.true_and, Bool.false_and, Bool.false_eq_true, if_true, if_false] at hok
  · split_ifs at hok
  · by_cases h1 : lhs.GetNumCols ≠ rhs.GetNumCols
    · rw [if_pos h1] at hok
      exact Outcome.noConfusion hok
    rw [if_neg h1] at hok
    by_cases h2 : rhs.GetFormat ≠ .matrixFormatSparseCSC
    · rw [if_pos h2] at hok
      exact Outcome.noConfusion hok
    rw [if_neg h2] at hok
    generalize CPUSparseMatrix.Resize fresh lhs.GetNumRows rhs.GetNumRows
      (lhs.GetNumRows * (rhs.GetNumRows ⊓ rhs.m_nz)) true false
      (CPUSparseMatrix.SetFormat .matrixFormatSparseBlockCol c.Reset) = res at hok
    cases res with
    | raised e c1 => exact Outcome.noConfusion hok
    | ok c1 =>
      simp only [] at hok
      generalize (cscScan rhs (fun i j val s => multiplyAndAddStep alpha lhs i j val s)
        { w2Id := [], c := c1 }) = s at hok
      split_ifs at hok with h3 h4
      injection hok with h
      rw [← h]
      exact Nat.le_of_not_lt h4
  · split_ifs at hok
  · split_ifs at hok

end CapacityProduct

/-- C14 (amended). The bound `nzCount <= allocatedCapacity` holds after construction and is
kept by every returning call of `SetValue`, `Reset`, `SetMatrixFromCSCFormat` and
`MultiplyAndAdd` (on its result matrix); `Resize` keeps it when it reserves at least `nzCount`
slots or does not reallocate, in particular whenever it is asked to keep the values of a
sparse-layout matrix at unchanged dimensions. -/
theorem CapacityInv_calls {R : Type} [CommRing R] :
    (∀ (fresh : FreshBuffers R) (format : MatrixFormat) (numRows numCols size : Nat)
        (M : CPUSparseMatrix R),
        CPUSparseMatrix.create fresh format numRows numCols size = .ok M → CapacityInv M)
      ∧ (∀ (fresh : FreshBuffers R) (numRows numCols reserve : Nat) (growOnly keep : Bool)
          (M M' : CPUSparseMatrix R), CapacityInv M →
          (M.m_nz ≤ reserve ∨ ¬ ResizeReallocates M numRows numCols reserve growOnly) →
          CPUSparseMatrix.Resize fresh numRows numCols reserve growOnly keep M = .ok M' →
          CapacityInv M')
      ∧ (∀ (fresh : FreshBuffers R) (reserve : Nat) (growOnly : Bool)
          (M M' : CPUSparseMatrix R), IsSparseLayout M → CapacityInv M →
          CPUSparseMatrix.Resize fresh M.m_numRows M.m_numCols reserve growOnly true M = .ok M' →
          CapacityInv M')
      ∧ (∀ (fresh : FreshBuffers R) (row col : Nat) (v : R) (M M' : CPUSparseMatrix R),
          CapacityInv M → CPUSparseMatrix.SetValue fresh row col v M = .ok M' → CapacityInv M')
      ∧ (∀ M : CPUSparseMatrix R, CapacityInv M → CapacityInv M.Reset)
      ∧ (∀ (fresh : FreshBuffers R) (colPtr rowIdx : Nat → Nat) (vals : Nat → R)
          (nz numRows numCols : Nat) (M M' : CPUSparseMatrix R), CapacityInv M →
          CPUSparseMatrix.SetMatrixFromCSCFormat fresh colPtr rowIdx vals nz numRows numCols M
            = .ok M' → CapacityInv M')
      ∧ (∀ (fresh : FreshBuffers R) (alpha : R) (lhs : CPUMatrix R) (transposeA : Bool)
          (rhs : CPUSparseMatrix R) (transposeB : Bool) (c c' : CPUSparseMatrix R),
          CapacityInv c →
          MultiplyAndAdd fresh alpha lhs transposeA rhs transposeB c = .ok c' →
          CapacityInv c') := by
  refine ⟨?_, ?_, ?_, ?_, ?_, ?_, ?_⟩
  · intro fresh format numRows numCols size M hok
    exact Resize_capacity fresh numRows numCols size true false
      (CPUSparseMatrix.ZeroInit fresh format) M (Nat.le_refl 0) (Or.inl (Nat.zero_le _)) hok
  · intro fresh numRows numCols reserve growOnly keep M M' hinv h hok
    exact Resize_capacity fresh numRows numCols reserve growOnly keep M M' hinv h hok
  · intro fresh reserve growOnly M M' hl hinv hok
    by_cases hr : ResizeReallocates M M.m_numRows M.m_numCols reserve growOnly
    · by_cases hnz : M.m_nz ≤ reserve
      · exact Resize_capacity fresh _ _ reserve growOnly true M M' hinv (Or.inl hnz) hok
      · have := Resize_keep_raises fresh reserve growOnly M hl hr (Or.inl (by omega))
        rw [this] at hok
        exact Outcome.noConfusion hok
    · exact Resize_capacity fresh _ _ reserve growOnly true M M' hinv (Or.inr hr) hok
  · intro fresh row col v M M' _ hok
    exact (SetValue_ok_counts fresh row col v M M' hok).2.1
  · intro M _
    exact Nat.zero_le _
  · intro fresh colPtr rowIdx vals nz numRows numCols M M' _ hok
    obtain ⟨M'', h1, h2, h3⟩ :=
      SetMatrixFromCSCFormat_ok fresh colPtr rowIdx vals nz numRows numCols M
    rw [h1] at hok
    injection hok with h
    subst h
    unfold CapacityInv
    rw [h2]
    exact h3
  · intro fresh alpha lhs transposeA rhs transposeB c c' _ hok
    exact MultiplyAndAdd_ok_capacity fresh alpha lhs transposeA rhs transposeB c c' hok

/-- C14, counterexample: the 2-by-2 CSC matrix holding 3 entries in a buffer of capacity 3
satisfies the bound; `Resize(2, 2, 0, false, false)` returns and leaves `nzCount = 3` above
`allocatedCapacity = 0`. -/
theorem Resize_discard_breaks_capacity :
    CapacityInv exRhs3
      ∧ (CPUSparseMatrix.Resize exFresh 2 2 0 false false exRhs3).error = none
      ∧ (CPUSparseMatrix.Resize exFresh 2 2 0 false false exRhs3).state.m_nz = 3
      ∧ (CPUSparseMatrix.Resize exFresh 2 2 0 false false exRhs3).state.m_elemSizeAllocated = 0
      ∧ ¬ CapacityInv (CPUSparseMatrix.Resize exFresh 2 2 0 false false exRhs3).state := by
  refine ⟨by decide, rfl, rfl, rfl, by decide⟩

/-- C14, witness: growing the 2-by-2 CSC matrix with 3 entries to capacity 5, values kept,
keeps `nzCount = 3` within the capacity. -/
theorem CapacityInv_calls_witness :
    CapacityInv exRhs3
      ∧ (exRhs3.m_nz ≤ 5 ∨ ¬ ResizeReallocates exRhs3 2 2 5 true)
      ∧ CPUSparseMatrix.Resize exFresh 2 2 5 true true exRhs3
          = .ok (CPUSparseMatrix.Resize exFresh 2 2 5 true true exRhs3).state
      ∧ CapacityInv (CPUSparseMatrix.Resize exFresh 2 2 5 true true exRhs3).state :=
  ⟨by decide, by decide, rfl,
    (@CapacityInv_calls Int _).2.1 exFresh 2 2 5 true true exRhs3 _ (by decide) (by decide) rfl⟩

/-- C15. The method `Reset` sets `nzCount` to 0, the fill-lane marker to none (`-1`) and the
block count to 0, and changes nothing else: the format, `numRows`, `numCols`,
`allocatedCapacity`, `secondaryIndexCapacity`, the name and the contents of every buffer are
the same as before the call. -/
theorem Reset_spec {R : Type} (M : CPUSparseMatrix R) :
    M.Reset.m_nz = 0 ∧ M.Reset.m_colIdx = -1 ∧ M.Reset.m_blockSize = 0
      ∧ M.Reset.m_format = M.m_format
      ∧ M.Reset.m_numRows = M.m_numRows ∧ M.Reset.m_numCols = M.m_numCols
      ∧ M.Reset.m_elemSizeAllocated = M.m_elemSizeAllocated
      ∧ M.Reset.m_compIndexSize = M.m_compIndexSize
      ∧ M.Reset.m_matrixName = M.m_matrixName
      ∧ M.Reset.m_pArray = M.m_pArray ∧ M.Reset.m_unCompIndex = M.m_unCompIndex
      ∧ M.Reset.m_compIndex = M.m_compIndex ∧ M.Reset.m_blockIds = M.m_blockIds :=
  ⟨rfl, rfl, rfl, rfl, rfl, rfl, rfl, rfl, rfl, rfl, rfl, rfl, rfl⟩

section ReplayLemmas

variable {R : Type}

/-- A `SetValue` on a matrix with a free slot does not resize: it stores its entry in place. -/
theorem SetValue_no_growth (fresh : FreshBuffers R) (row col : Nat) (v : R)
    (N : CPUSparseMatrix R) (hfmt : CPUSparseMatrix.isCompressed N.m_format = true)
    (hfree : N.m_nz + 1 ≤ N.m_elemSizeAllocated)
    (hr : row < N.m_numRows) (hc : col < N.m_numCols) (hv : ¬ FillOrderViolation N row col) :
    CPUSparseMatrix.SetValue fresh row col v N = .ok (storedEntry row col v N) := by
  have hgrow : CPUSparseMatrix.autoGrow fresh N = .ok N := by
    unfold CPUSparseMatrix.autoGrow
    rw [if_neg (by omega)]
  unfold CPUSparseMatrix.SetValue
  rw [if_neg, hgrow]
  · exact storeEntry_ok row col v N hr hc hv
  · simp only [CPUSparseMatrix.isCompressed, Bool.or_eq_true, beq_iff_eq] at hfmt
    rintro ⟨h1, h2⟩
    rcases hfmt with h3 | h3
    · exact h1 h3
    · exact h2 h3

theorem SameCalls_lanes (f : MatrixFormat) (s t : List (SetValueCall R)) (h : SameCalls s t) :
    callLanes f s = callLanes f t := by
  induction s generalizing t with
  | nil =>
    cases t with
    | nil => rfl
    | cons b t => exact h.elim
  | cons a s ih =>
    cases t with
    | nil => exact h.elim
    | cons b t =>
      obtain ⟨h1, h2, _, h4⟩ := h
      simp only [callLanes, List.map_cons, h1, h2]
      congr 1
      exact ih t h4

end ReplayLemmas

section ReplayStep

variable {R : Type}

/-- One step of the replay: the call that succeeded in the first fill succeeds in the replay
without resizing, and the lockstep invariant carries over. -/
theorem replay_step (M A A1 N : CPUSparseMatrix R) (done : List (SetValueCall R))
    (a b : SetValueCall R) (hab : a.row = b.row ∧ a.col = b.col ∧ a.v = b.v)
    (hinv : ReplayInv M done A N)
    (hstep : CPUSparseMatrix.SetValue a.fresh a.row a.col a.v A = .ok A1)
    (hfmtM : M.m_format = A.m_format) (hroom : A.m_nz + 1 ≤ M.m_elemSizeAllocated) :
    ∃ N1 : CPUSparseMatrix R,
      CPUSparseMatrix.SetValue b.fresh b.row b.col b.v N = .ok N1
        ∧ ReplayInv M (done ++ [a]) A1 N1 := by
  have hord := SetValue_ok_order a.fresh a.row a.col a.v A A1 hstep
  obtain ⟨A1g, hf, hr, hc, hfmt, rfl⟩ := SetValue_ok_inv a.fresh a.row a.col a.v A A1 hstep
  obtain ⟨h1, h2, h3⟩ := hab
  have hvN : ¬ FillOrderViolation N b.row b.col := by
    unfold FillOrderViolation at hord ⊢
    rw [hinv.format, hinv.nz, hinv.colIdx, ← h1, ← h2]
    rintro ⟨g1, g2, g3⟩
    exact hord ⟨g1, g2, by rw [← (hinv.low _ (by omega)).2]; exact g3⟩
  have hstepN := SetValue_no_growth b.fresh b.row b.col b.v N
    (by rw [hinv.format]; exact hfmt) (by rw [hinv.nz, hinv.alloc]; exact hroom)
    (by rw [hinv.rows, ← h1]; exact hr) (by rw [hinv.cols, ← h2]; exact hc) hvN
  refine ⟨_, hstepN, ?_⟩
  refine
    { format := ?_, rows := ?_, cols := ?_, nz := ?_, colIdx := ?_, alloc := hinv.alloc,
      cis := hinv.cis, low := ?_, high := ?_, unstamped := ?_ }
  · show N.m_format = A1g.m_format
    rw [hinv.format, hf.format]
  · show N.m_numRows = A1g.m_numRows
    rw [hinv.rows, hf.rows]
  · show N.m_numCols = A1g.m_numCols
    rw [hinv.cols, hf.cols]
  · show N.m_nz + 1 = A1g.m_nz + 1
    rw [hinv.nz, hf.nz]
  · show (fillLane N.m_format b.row b.col : Int) = (fillLane A1g.m_format a.row a.col : Int)
    rw [hinv.format, hf.format, h1, h2]
  · intro p hp
    have hp' : p < A.m_nz + 1 := by
      have : p < A1g.m_nz + 1 := hp
      rw [hf.nz] at this
      exact this
    show Function.update N.m_pArray N.m_nz b.v p = Function.update A1g.m_pArray A1g.m_nz a.v p
      ∧ Function.update N.m_unCompIndex N.m_nz (fillMajor N.m_format b.row b.col) p
        = Function.update A1g.m_unCompIndex A1g.m_nz (fillMajor A1g.m_format a.row a.col) p
    rw [hinv.nz, hf.nz, hinv.format, hf.format, ← h1, ← h2, ← h3]
    by_cases hpe : p = A.m_nz
    · rw [hpe]
      simp only [Function.update_same, and_self]
    · rw [Function.update_noteq hpe, Function.update_noteq hpe, Function.update_noteq hpe,
        Function.update_noteq hpe, hf.values p (by omega), hf.major p (by omega)]
      exact hinv.low p (by omega)
  · intro p hp
    have hp' : A.m_nz + 1 ≤ p := by
      have : A1g.m_nz + 1 ≤ p := hp
      rw [hf.nz] at this
      exact this
    have hne : p ≠ N.m_nz := by rw [hinv.nz]; omega
    show Function.update N.m_pArray N.m_nz b.v p = M.m_pArray p
      ∧ Function.update N.m_unCompIndex N.m_nz (fillMajor N.m_format b.row b.col) p
        = M.m_unCompIndex p
    rw [Function.update_noteq hne, Function.update_noteq hne]
    exact hinv.high p (by omega)
  · intro i hi
    rw [stampedLanes_concat, hfmtM, ← hinv.format, h1, h2] at hi
    simp only [List.mem_append, List.mem_cons, List.mem_singleton, List.not_mem_nil,
      or_false, not_or] at hi
    obtain ⟨hi0, hi1, hi2⟩ := hi
    rw [hinv.format, ← hfmtM] at hi0
    show Function.update
        (if (fillLane N.m_format b.row b.col : Int) ≠ N.m_colIdx then
          Function.update N.m_compIndex (fillLane N.m_format b.row b.col) N.m_nz
         else N.m_compIndex)
        (fillLane N.m_format b.row b.col + 1) (N.m_nz + 1) i = M.m_compIndex i
    rw [Function.update_noteq hi2]
    split_ifs
    · rw [Function.update_noteq hi1]
      exact hinv.unstamped i hi0
    · exact hinv.unstamped i hi0

/-- The replay of a successful fill: started in lockstep, it succeeds call by call, never
changes the capacities, and ends in lockstep with the final state. -/
theorem replay_run (rest rest' done : List (SetValueCall R)) (M A N : CPUSparseMatrix R)
    (hsame : SameCalls rest rest') (hrun : setValues rest A = .ok M)
    (hcap : A.m_nz ≤ A.m_elemSizeAllocated) (hinv : ReplayInv M done A N) :
    ∃ N' : CPUSparseMatrix R,
      setValues rest' N = .ok N' ∧ ReplayInv M (done ++ rest) M N'
        ∧ ∀ t, (setValues (rest'.take t) N).state.m_elemSizeAllocated = M.m_elemSizeAllocated
            ∧ (setValues (rest'.take t) N).state.m_compIndexSize = M.m_compIndexSize := by
  induction rest generalizing rest' done A N with
  | nil =>
    cases rest' with
    | cons b t => exact hsame.elim
    | nil =>
      simp only [setValues] at hrun
      injection hrun with h
      subst h
      refine ⟨N, rfl, by simpa using hinv, fun t => ?_⟩
      simp only [List.take_nil, setValues, Outcome.state]
      exact ⟨hinv.alloc, hinv.cis⟩
  | cons a rest ih =>
    cases rest' with
    | nil => exact hsame.elim
    | cons b rest' =>
      obtain ⟨h1, h2, h3, hsame'⟩ := hsame
      simp only [setValues] at hrun
      cases hstep : CPUSparseMatrix.SetValue a.fresh a.row a.col a.v A with
      | raised e A1 => rw [hstep] at hrun; exact Outcome.noConfusion hrun
      | ok A1 =>
        rw [hstep] at hrun
        obtain ⟨c1, c2, c3, _, _⟩ := SetValue_ok_counts a.fresh a.row a.col a.v A A1 hstep
        obtain ⟨d1, d2, d3, _, _⟩ := setValues_ok_counts rest A1 M c2 hrun
        obtain ⟨N1, hstepN, hinv1⟩ := replay_step M A A1 N done a b ⟨h1, h2, h3⟩ hinv hstep
          (d3.trans c3) (by omega)
        obtain ⟨N', hN', hinv', hall⟩ := ih rest' (done ++ [a]) A1 N1 hsame' hrun c2 hinv1
        refine ⟨N', ?_, by simpa using hinv', fun t => ?_⟩
        · simp only [setValues, hstepN]
          exact hN'
        · cases t with
          | zero =>
            simp only [List.take_zero, setValues, Outcome.state]
            exact ⟨hinv.alloc, hinv.cis⟩
          | succ t =>
            simp only [List.take_succ_cons, setValues, hstepN]
            exact hall t

end ReplayStep

/-- C16. For every sequence `s` of `SetValue` calls with non-decreasing lanes that succeeds on
a freshly constructed matrix (no entry, no fill lane) and gives the state `M`, replaying the
same calls on `Reset` of `M` (whatever the allocator holds by then) succeeds and yields
`M` again: same `nzCount`, fill lane, value, major-index and secondary-index buffers; and no
reallocation happens during the replay, `allocatedCapacity` and `secondaryIndexCapacity` being
those of `M` after every prefix of the replay. -/
theorem Reset_replay {R : Type} (s s' : List (SetValueCall R)) (M0 M : CPUSparseMatrix R)
    (hnz : M0.m_nz = 0) (hcol : M0.m_colIdx = -1) (hrun : setValues s M0 = .ok M)
    (hord : (callLanes M0.m_format s).Pairwise (· ≤ ·)) (hsame : SameCalls s s') :
    ∃ N : CPUSparseMatrix R,
      setValues s' M.Reset = .ok N
        ∧ N.m_nz = M.m_nz ∧ N.m_colIdx = M.m_colIdx
        ∧ N.m_pArray = M.m_pArray ∧ N.m_unCompIndex = M.m_unCompIndex
        ∧ N.m_compIndex = M.m_compIndex
        ∧ N.m_format = M.m_format ∧ N.m_numRows = M.m_numRows ∧ N.m_numCols = M.m_numCols
        ∧ ∀ t,
          (setValues (s'.take t) M.Reset).state.m_elemSizeAllocated = M.m_elemSizeAllocated
            ∧ (setValues (s'.take t) M.Reset).state.m_compIndexSize = M.m_compIndexSize := by
  obtain ⟨_, _, c3, c4, c5⟩ := setValues_ok_counts s M0 M (by omega) hrun
  have hinit : ReplayInv M [] M0 M.Reset :=
    { format := c3
      rows := c4
      cols := c5
      nz := hnz.symm
      colIdx := hcol.symm
      alloc := rfl
      cis := rfl
      low := by intro p hp; omega
      high := fun _ _ => ⟨rfl, rfl⟩
      unstamped := fun _ _ => rfl }
  obtain ⟨N, hN, hinv, hall⟩ := replay_run s s' [] M M0 M.Reset hsame hrun (by omega) hinit
  rw [List.nil_append] at hinv
  have hfill := setValues_fillInv s [] M0 M0 M (FillInv_init M0 hnz hcol) hrun
    (by simpa using hord)
  have hfill' := setValues_fillInv s' [] M.Reset M.Reset N (FillInv_init M.Reset rfl rfl) hN
    (by
      rw [List.nil_append, ← SameCalls_lanes _ s s' hsame]
      have : M.Reset.m_format = M0.m_format := c3
      rw [this]
      exact hord)
  rw [List.nil_append] at hfill hfill'
  have hfmtR : M.Reset.m_format = M0.m_format := c3
  refine ⟨N, hN, hinv.nz, hinv.colIdx, ?_, ?_, ?_, hinv.format, hinv.rows, hinv.cols, hall⟩
  · funext p
    by_cases hp : p < M.m_nz
    · exact (hinv.low p hp).1
    · exact (hinv.high p (by omega)).1
  · funext p
    by_cases hp : p < M.m_nz
    · exact (hinv.low p hp).2
    · exact (hinv.high p (by omega)).2
  · funext i
    by_cases hi : i ∈ stampedLanes M.m_format s
    · rw [c3] at hi
      have e1 := hfill.stamps i hi
      have hi' : i ∈ stampedLanes M.Reset.m_format s' := by
        rw [hfmtR]
        unfold stampedLanes at hi ⊢
        rw [← SameCalls_lanes _ s s' hsame]
        exact hi
      have e2 := hfill'.stamps i hi'
      rw [e1, e2, hfmtR]
      unfold countBelow
      rw [SameCalls_lanes _ s s' hsame]
    · exact hinv.unstamped i hi

/-- C16, witness: the fill `(1,0) = 5`, `(0,1) = 7`, `(1,1) = 9` of a fresh 2-by-2 CSC matrix,
then `Reset` and the same three calls with another allocator content. -/
theorem Reset_replay_witness :
    ∃ N : CPUSparseMatrix Int,
      setValues exReplayCalls (setValues exCalls exEmpty22).state.Reset = .ok N
        ∧ N.m_nz = 3 ∧ N.m_pArray = (setValues exCalls exEmpty22).state.m_pArray
        ∧ N.m_compIndex = (setValues exCalls exEmpty22).state.m_compIndex
        ∧ (setValues (exReplayCalls.take 2)
            (setValues exCalls exEmpty22).state.Reset).state.m_elemSizeAllocated = 100 := by
  obtain ⟨N, hN, h1, _, h3, _, h5, _, _, _, hall⟩ :=
    Reset_replay exCalls exReplayCalls exEmpty22 (setValues exCalls exEmpty22).state
      rfl rfl rfl (by decide) ⟨rfl, rfl, rfl, rfl, rfl, rfl, rfl, rfl, rfl, trivial⟩
  refine ⟨N, hN, ?_, h3, h5, ?_⟩
  · rw [h1]; rfl
  · rw [(hall 2).1]; rfl

section DenseWrites

variable {R : Type}

/-- A run of element writes keeps the shape of the dense matrix. -/
theorem writes_shape (ws : List (Nat × Nat × R)) (D0 : CPUMatrix R) :
    (ws.foldl (fun D w => D.set w.1 w.2.1 w.2.2) D0).m_numRows = D0.m_numRows
      ∧ (ws.foldl (fun D w => D.set w.1 w.2.1 w.2.2) D0).m_numCols = D0.m_numCols := by
  induction ws generalizing D0 with
  | nil => exact ⟨rfl, rfl⟩
  | cons w ws ih =>
    rw [List.foldl_cons]
    exact ih (D0.set w.1 w.2.1 w.2.2)

/-- An element that no write of the run addresses keeps its content. -/
theorem writes_untouched (ws : List (Nat × Nat × R)) (D0 : CPUMatrix R) (x : Nat)
    (h : ∀ w ∈ ws, IDX2C w.1 w.2.1 D0.m_numRows ≠ x) :
    (ws.foldl (fun D w => D.set w.1 w.2.1 w.2.2) D0).m_pArray x = D0.m_pArray x := by
  induction ws generalizing D0 with
  | nil => rfl
  | cons w ws ih =>
    rw [List.foldl_cons, ih (D0.set w.1 w.2.1 w.2.2)
      (fun w' hw' => h w' (List.mem_cons_of_mem _ hw'))]
    show Function.update D0.m_pArray (IDX2C w.1 w.2.1 D0.m_numRows) w.2.2 x = D0.m_pArray x
    rw [Function.update_noteq (Ne.symm (h w (List.mem_cons_self _ _)))]

/-- An element addressed by some write of the run, all writes addressing it carrying the value
`v`, ends with the content `v`. -/
theorem writes_written (ws : List (Nat × Nat × R)) (D0 : CPUMatrix R) (x : Nat) (v : R)
    (hex : ∃ w ∈ ws, IDX2C w.1 w.2.1 D0.m_numRows = x)
    (hall : ∀ w ∈ ws, IDX2C w.1 w.2.1 D0.m_numRows = x → w.2.2 = v) :
    (ws.foldl (fun D w => D.set w.1 w.2.1 w.2.2) D0).m_pArray x = v := by
  induction ws generalizing D0 with
  | nil =>
    obtain ⟨w, hw, _⟩ := hex
    exact absurd hw (List.not_mem_nil _)
  | cons w ws ih =>
    rw [List.foldl_cons]
    by_cases hlater : ∃ w' ∈ ws, IDX2C w'.1 w'.2.1 D0.m_numRows = x
    · exact ih (D0.set w.1 w.2.1 w.2.2) hlater
        (fun w' hw' => hall w' (List.mem_cons_of_mem _ hw'))
    · have hno : ∀ w' ∈ ws, IDX2C w'.1 w'.2.1 (D0.set w.1 w.2.1 w.2.2).m_numRows ≠ x :=
        fun w' hw' he => hlater ⟨w', hw', he⟩
      rw [writes_untouched ws (D0.set w.1 w.2.1 w.2.2) x hno]
      obtain ⟨w0, hw0, hx0⟩ := hex
      have hw : IDX2C w.1 w.2.1 D0.m_numRows = x := by
        rcases List.mem_cons.mp hw0 with rfl | hmem
        · exact hx0
        · exact absurd ⟨w0, hmem, hx0⟩ hlater
      show Function.update D0.m_pArray (IDX2C w.1 w.2.1 D0.m_numRows) w.2.2 x = v
      rw [hw, Function.update_same]
      exact hall w (List.mem_cons_self _ _) hw

theorem mem_sliceWrites (M : CPUSparseMatrix R) (startColumn numCols : Nat)
    (w : Nat × Nat × R) :
    w ∈ sliceWrites M startColumn numCols ↔ ∃ j < numCols, ∃ p,
      M.m_compIndex (startColumn + j) ≤ p ∧ p < M.m_compIndex (startColumn + j + 1)
        ∧ w = (M.m_unCompIndex p, j, M.m_pArray p) := by
  unfold sliceWrites loopRange
  simp only [List.mem_flatMap, List.mem_map, List.mem_range, List.mem_range'_1]
  constructor
  · rintro ⟨j, hj, p, ⟨hp1, hp2⟩, rfl⟩
    exact ⟨j, hj, p, hp1, by omega, rfl⟩
  · rintro ⟨j, hj, p, hp1, hp2, rfl⟩
    exact ⟨j, hj, p, ⟨hp1, by omega⟩, rfl⟩

/-- The supported case of `ColumnSliceToDense`: the slice is the zero matrix after the writes
of the scan. -/
theorem ColumnSliceToDense_ok [Zero R] (M : CPUSparseMatrix R) (startColumn numCols : Nat)
    (h0 : numCols ≠ 0) (hsize : startColumn + numCols < 2 ^ 64)
    (hrange : startColumn + numCols ≤ M.m_numCols)
    (hfmt : M.m_format = .matrixFormatSparseCSC) :
    M.ColumnSliceToDense startColumn numCols
      = .ok ((sliceWrites M startColumn numCols).foldl (fun D w => D.set w.1 w.2.1 w.2.2)
          (CPUMatrix.create M.m_numRows numCols)) := by
  unfold CPUSparseMatrix.ColumnSliceToDense sliceWrites
  rw [if_neg h0, if_neg (by rw [Nat.mod_eq_of_lt hsize]; omega), if_neg (by simp [hfmt]),
    foldl_flatMap_map]
  simp only [List.foldl_map]
  congr 1
  apply List.foldl_ext
  intro D j hj
  rw [List.mem_range] at hj
  rw [Nat.mod_eq_of_lt (by omega), Nat.mod_eq_of_lt (by omega)]

/-- The range guard of `ColumnSliceToDense` compares the wrapped sum: whatever the buffers
hold, a non-zero `numCols` with `(startColumn + numCols) % 2 ^ 64 ≤ m_numCols` does not raise
the logic error, also when `startColumn + numCols` itself exceeds `m_numCols`. -/
theorem ColumnSliceToDense_wrapped [Zero R] (M : CPUSparseMatrix R) (startColumn numCols : Nat)
    (h0 : numCols ≠ 0) (hwrap : (startColumn + numCols) % 2 ^ 64 ≤ M.m_numCols) :
    M.ColumnSliceToDense startColumn numCols ≠ .error .logicError := by
  unfold CPUSparseMatrix.ColumnSliceToDense
  rw [if_neg h0, if_neg (by omega)]
  split_ifs <;> simp

end DenseWrites

/-- The contract of `ColumnSliceToDense(start, count)` for arguments whose sum does not wrap
(`start + count < 2 ^ 64`): on a rows-by-cols matrix the call fails exactly when `count = 0`,
or `start + count > numCols`, or the format is not CSC; otherwise, for a well-formed CSC
matrix with distinct row ids within each column, it returns a rows-by-count dense matrix `D`
with `D(i, j) = v` for every stored entry (row `i`, column `start + j`, value `v`) and
`D(i, j) = 0` for every cell with no stored entry. The method is `const`: the sparse matrix
is only read, so it is the same after the call. -/
theorem ColumnSliceToDense_in_range {R : Type} [Zero R] (M : CPUSparseMatrix R)
    (start count : Nat) (hsize : start + count < 2 ^ 64) :
    ((∃ e, M.ColumnSliceToDense start count = .error e)
        ↔ (count = 0 ∨ start + count > M.m_numCols
            ∨ M.m_format ≠ .matrixFormatSparseCSC))
      ∧ (WellFormedCSC M → DistinctRowIds M → count ≠ 0 → start + count ≤ M.m_numCols →
          ∃ D : CPUMatrix R,
            M.ColumnSliceToDense start count = .ok D
              ∧ D.m_numRows = M.m_numRows ∧ D.m_numCols = count
              ∧ (∀ j < count, ∀ p, M.m_compIndex (start + j) ≤ p →
                  p < M.m_compIndex (start + j + 1) →
                  D.get (M.m_unCompIndex p) j = M.m_pArray p)
              ∧ (∀ i < M.m_numRows, ∀ j < count,
                  (∀ p, M.m_compIndex (start + j) ≤ p →
                    p < M.m_compIndex (start + j + 1) → M.m_unCompIndex p ≠ i) →
                  D.get i j = 0)) := by
  constructor
  · by_cases h0 : count = 0
    · simp [CPUSparseMatrix.ColumnSliceToDense, h0]
    by_cases hr : start + count > M.m_numCols
    · unfold CPUSparseMatrix.ColumnSliceToDense
      rw [Nat.mod_eq_of_lt hsize]
      simp [h0, hr]
    by_cases hf : M.m_format = .matrixFormatSparseCSC
    · rw [ColumnSliceToDense_ok M start count h0 hsize (by omega) hf]
      simp [h0, hr, hf]
    · unfold CPUSparseMatrix.ColumnSliceToDense
      rw [Nat.mod_eq_of_lt hsize]
      simp [h0, hr, hf]
  · intro hwf hdist h0 hrange
    obtain ⟨hfmt, hlanes⟩ := hwf
    have hrow : ∀ j < count, ∀ p, M.m_compIndex (start + j) ≤ p →
        p < M.m_compIndex (start + j + 1) → M.m_unCompIndex p < M.m_numRows :=
      fun j hj p hp1 hp2 =>
        hlanes.major_lt (by omega) (Finset.mem_Ico.mpr ⟨hp1, hp2⟩)
    have hshape := writes_shape (sliceWrites M start count)
      (CPUMatrix.create M.m_numRows count)
    refine ⟨_, ColumnSliceToDense_ok M start count h0 hsize hrange hfmt, hshape.1, hshape.2,
      ?_, ?_⟩
    · intro j hj p hp1 hp2
      unfold CPUMatrix.get
      rw [hshape.1]
      apply writes_written
      · exact ⟨(M.m_unCompIndex p, j, M.m_pArray p),
          (mem_sliceWrites M start count _).mpr ⟨j, hj, p, hp1, hp2, rfl⟩, rfl⟩
      · intro w hw hx
        obtain ⟨j', hj', q, hq1, hq2, rfl⟩ := (mem_sliceWrites M start count w).mp hw
        have hrq := hrow j' hj' q hq1 hq2
        have hrp := hrow j hj p hp1 hp2
        obtain ⟨e1, e2⟩ := (IDX2C_inj hrq hrp).mp hx
        have e2' : j' = j := e2
        subst e2'
        have : q = p := hdist (start + j') (by omega) q hq2 p hp2 ⟨hq1, hp1, e1⟩
        rw [this]
    · intro i hi j hj hnone
      unfold CPUMatrix.get
      rw [hshape.1, writes_untouched]
      · rfl
      · intro w hw hx
        obtain ⟨j', hj', q, hq1, hq2, rfl⟩ := (mem_sliceWrites M start count w).mp hw
        have hrq := hrow j' hj' q hq1 hq2
        obtain ⟨e1, e2⟩ := (IDX2C_inj hrq hi).mp hx
        have e2' : j' = j := e2
        subst e2'
        exact hnone q hq1 hq2 e1

/-- Example of a slice in range: column 0 of the 2-by-2 CSC matrix with nonzeros `(1,0) = 2`,
`(0,1) = 3`, `(1,1) = 4` is the dense 2-by-1 matrix with `D(1,0) = 2` and `D(0,0) = 0`. -/
theorem ColumnSliceToDense_in_range_example :
    WellFormedCSC exRhs3 ∧ DistinctRowIds exRhs3
      ∧ ∃ D : CPUMatrix Int,
          exRhs3.ColumnSliceToDense 0 1 = .ok D
            ∧ D.m_numRows = 2 ∧ D.m_numCols = 1 ∧ D.get 1 0 = 2 ∧ D.get 0 0 = 0 := by
  have hwf : WellFormedCSC exRhs3 := by decide
  have hd : DistinctRowIds exRhs3 := by decide
  obtain ⟨D, hD, h1, h2, h3, h4⟩ :=
    (ColumnSliceToDense_in_range exRhs3 0 1 (by norm_num)).2 hwf hd (by decide) (by decide)
  refine ⟨hwf, hd, D, hD, h1, h2, ?_, ?_⟩
  · exact h3 0 (by decide) 0 (by decide) (by decide)
  · apply h4 0 (by decide) 0 (by decide)
    intro p hp1 hp2
    have hp : p = 0 := by
      have : p < 1 := hp2
      omega
    rw [hp]
    decide

/-- C17, the failing input: the 2-by-2 CSC matrix with nonzeros `(1,0) = 2`, `(0,1) = 3`,
`(1,1) = 4` and the call `ColumnSliceToDense(2^64 - 1, 2)`. The slice is out of range
(`start + count = 2^64 + 1 > 2 = numCols`), so the call should fail with the logic error
"The slice is out of range of the source matrix"; but the guard compares the `size_t` sum,
which has wrapped to 1, with `numCols`, and the logic error is not raised: the call goes on
to read `m_compIndex` at the offset `2^64 - 1`. Two columns further (`count = 4`, wrapped sum
3) the same guard does raise. -/
theorem ColumnSliceToDense_range_guard_wraps :
    (2 ^ 64 - 1) + 2 > exRhs3.m_numCols
      ∧ ((2 ^ 64 - 1) + 2) % 2 ^ 64 = 1
      ∧ exRhs3.ColumnSliceToDense (2 ^ 64 - 1) 2 ≠ .error .logicError
      ∧ exRhs3.ColumnSliceToDense (2 ^ 64 - 1) 4 = .error .logicError := by
  refine ⟨by decide, by decide, ?_, rfl⟩
  intro h
  exact Except.noConfusion h

section SmoothingLemmas

variable {R : Type} [CommRing R]

/-- One step of `NormalGrad`: the cell of `c` and the gradient element both become the
smoothed value; shapes and every other member are kept. -/
theorem normalGradStep_spec (momentum : R) (p row col : Nat)
    (s : CPUSparseMatrix R × CPUMatrix R) :
    (normalGradStep momentum p row col s).2.m_numRows = s.2.m_numRows
      ∧ (normalGradStep momentum p row col s).2.m_numCols = s.2.m_numCols
      ∧ (normalGradStep momentum p row col s).1
          = { s.1 with m_pArray := (normalGradStep momentum p row col s).1.m_pArray }
      ∧ (normalGradStep momentum p row col s).2.m_pArray
          = Function.update s.2.m_pArray (IDX2C row col s.2.m_numRows)
              ((1 - momentum) * s.1.m_pArray p
                + momentum * s.2.m_pArray (IDX2C row col s.2.m_numRows))
      ∧ (normalGradStep momentum p row col s).1.m_pArray
          = Function.update s.1.m_pArray p
              ((1 - momentum) * s.1.m_pArray p
                + momentum * s.2.m_pArray (IDX2C row col s.2.m_numRows)) := by
  refine ⟨rfl, rfl, rfl, rfl, ?_⟩
  show Function.update s.1.m_pArray p
      (Function.update s.2.m_pArray (IDX2C row col s.2.m_numRows)
        ((1 - momentum) * s.1.m_pArray p
          + momentum * s.2.m_pArray (IDX2C row col s.2.m_numRows))
        (IDX2C row col s.2.m_numRows)) = _
  rw [Function.update_same]

/-- A run of `NormalGrad` steps addressing pairwise distinct buffer positions and pairwise
distinct cells: every addressed cell and gradient element ends with the smoothed value computed
from the contents before the run, everything else is kept. -/
theorem normalGrad_fold (momentum : R) (ws : List (Nat × Nat × Nat))
    (s : CPUSparseMatrix R × CPUMatrix R) (m : Nat) (hm : s.2.m_numRows = m)
    (hpw : ws.Pairwise fun w w' =>
      w.1 ≠ w'.1 ∧ IDX2C w.2.1 w.2.2 m ≠ IDX2C w'.2.1 w'.2.2 m) :
    (ws.foldl (fun s w => normalGradStep momentum w.1 w.2.1 w.2.2 s) s).2.m_numRows = m
      ∧ (ws.foldl (fun s w => normalGradStep momentum w.1 w.2.1 w.2.2 s) s).2.m_numCols
          = s.2.m_numCols
      ∧ (ws.foldl (fun s w => normalGradStep momentum w.1 w.2.1 w.2.2 s) s).1
          = { s.1 with
              m_pArray :=
                (ws.foldl (fun s w => normalGradStep momentum w.1 w.2.1 w.2.2 s) s).1.m_pArray }
      ∧ (∀ w ∈ ws,
          (ws.foldl (fun s w => normalGradStep momentum w.1 w.2.1 w.2.2 s) s).2.m_pArray
              (IDX2C w.2.1 w.2.2 m)
            = (1 - momentum) * s.1.m_pArray w.1
                + momentum * s.2.m_pArray (IDX2C w.2.1 w.2.2 m)
          ∧ (ws.foldl (fun s w => normalGradStep momentum w.1 w.2.1 w.2.2 s) s).1.m_pArray w.1
            = (ws.foldl (fun s w => normalGradStep momentum w.1 w.2.1 w.2.2 s) s).2.m_pArray
                (IDX2C w.2.1 w.2.2 m))
      ∧ (∀ x, (∀ w ∈ ws, IDX2C w.2.1 w.2.2 m ≠ x) →
          (ws.foldl (fun s w => normalGradStep momentum w.1 w.2.1 w.2.2 s) s).2.m_pArray x
            = s.2.m_pArray x)
      ∧ (∀ p, (∀ w ∈ ws, w.1 ≠ p) →
          (ws.foldl (fun s w => normalGradStep momentum w.1 w.2.1 w.2.2 s) s).1.m_pArray p
            = s.1.m_pArray p) := by
  induction ws generalizing s with
  | nil =>
    refine ⟨hm, rfl, rfl, ?_, fun _ _ => rfl, fun _ _ => rfl⟩
    intro w hw
    exact absurd hw (List.not_mem_nil _)
  | cons w ws ih =>
    obtain ⟨hhead, htail⟩ := List.pairwise_cons.mp hpw
    obtain ⟨a1, a2, a3, a4, a5⟩ := normalGradStep_spec momentum w.1 w.2.1 w.2.2 s
    rw [hm] at a1 a4 a5
    obtain ⟨b1, b2, b3, b4, b5, b6⟩ :=
      ih (normalGradStep momentum w.1 w.2.1 w.2.2 s) a1 htail
    rw [List.foldl_cons]
    refine ⟨b1, b2.trans a2, ?_, ?_, ?_, ?_⟩
    · rw [a3] at b3
      exact b3
    · intro w' hw'
      rcases List.mem_cons.mp hw' with rfl | hmem
      · have e1 := b5 (IDX2C w'.2.1 w'.2.2 m) (fun w0 hw0 => Ne.symm (hhead w0 hw0).2)
        have e2 := b6 w'.1 (fun w0 hw0 => Ne.symm (hhead w0 hw0).1)
        rw [e1, e2, a4, a5, Function.update_same, Function.update_same]
        exact ⟨rfl, rfl⟩
      · obtain ⟨c1, c2⟩ := b4 w' hmem
        obtain ⟨d1, d2⟩ := hhead w' hmem
        rw [c1, c2, c1, a4, a5, Function.update_noteq (Ne.symm d1),
          Function.update_noteq (Ne.symm d2)]
        exact ⟨rfl, rfl⟩
    · intro x hx
      rw [b5 x (fun w0 hw0 => hx w0 (List.mem_cons_of_mem _ hw0)), a4,
        Function.update_noteq (Ne.symm (hx w (List.mem_cons_self _ _)))]
    · intro p hp
      rw [b6 p (fun w0 hw0 => hp w0 (List.mem_cons_of_mem _ hw0)), a5,
        Function.update_noteq (Ne.symm (hp w (List.mem_cons_self _ _)))]

/-- On a block format `NormalGrad` returns the state reached by its steps. -/
theorem NormalGrad_eq_fold (fresh : Nat → R) (momentum : R) (M : CPUSparseMatrix R)
    (c : CPUMatrix R)
    (hfmt : M.m_format = .matrixFormatSparseBlockCol
      ∨ M.m_format = .matrixFormatSparseBlockRow) :
    NormalGrad fresh momentum M c
      = .ok ((gradSteps M).foldl (fun s w => normalGradStep momentum w.1 w.2.1 w.2.2 s)
          (M, if c.IsEmpty then
            (c.Resize fresh M.GetNumRows M.GetNumCols).SetValue 0 else c)) := by
  unfold NormalGrad gradSteps
  rw [if_pos hfmt, foldl_flatMap_map]
  simp only [List.foldl_map, blockLen, blockCellRow, blockCellCol,
    CPUSparseMatrix.GetNumRows, CPUSparseMatrix.GetNumCols]

/-- On any other format `NormalGrad` raises a runtime error. -/
theorem NormalGrad_unsupported (fresh : Nat → R) (momentum : R) (M : CPUSparseMatrix R)
    (c : CPUMatrix R) (hfmt : CPUSparseMatrix.isBlock M.m_format = false) :
    (NormalGrad fresh momentum M c).error = some .runtimeError := by
  unfold NormalGrad
  rw [if_neg]
  · rfl
  · simp only [CPUSparseMatrix.isBlock, Bool.or_eq_false_iff, beq_eq_false_iff_ne] at hfmt
    rintro (h | h)
    · exact hfmt.1 h
    · exact hfmt.2 h

end SmoothingLemmas

section SmoothingSteps

variable {R : Type}

theorem mem_gradSteps (M : CPUSparseMatrix R) (w : Nat × Nat × Nat) :
    w ∈ gradSteps M ↔ ∃ j < M.m_blockSize, ∃ h < blockLen M,
      w = (j * blockLen M + h, blockCellRow M j h, blockCellCol M j h) := by
  unfold gradSteps loopRange
  simp only [List.mem_flatMap, List.mem_map, List.mem_range, List.mem_range'_1]
  constructor
  · rintro ⟨j, hj, p, ⟨hp1, hp2⟩, rfl⟩
    have e : j * blockLen M + (p - j * blockLen M) = p := by omega
    exact ⟨j, hj, p - j * blockLen M, by omega, by rw [e]⟩
  · rintro ⟨j, hj, h, hh, rfl⟩
    exact ⟨j, hj, j * blockLen M + h, ⟨by omega, by omega⟩, by rw [Nat.add_sub_cancel_left]⟩

/-- The cells of the active blocks lie in rows of the matrix. -/
theorem blockCellRow_lt (M : CPUSparseMatrix R) (hwf : WellFormedBlocks M) {j h : Nat}
    (hj : j < M.m_blockSize) (hh : h < blockLen M) : blockCellRow M j h < M.m_numRows := by
  obtain ⟨hfmt, _, hrange⟩ := hwf
  have hr := hrange j hj
  unfold blockCellRow
  unfold blockLen at hh
  by_cases hc : M.m_format = .matrixFormatSparseBlockCol
  · rw [if_pos hc] at hh ⊢
    exact hh
  · rw [if_neg hc] at hr ⊢
    exact hr

/-- Distinct elements of the active blocks lie at distinct cells. -/
theorem blockCell_inj (M : CPUSparseMatrix R) (hwf : WellFormedBlocks M) {j h j' h' : Nat}
    (hj : j < M.m_blockSize) (hj' : j' < M.m_blockSize)
    (hrow : blockCellRow M j h = blockCellRow M j' h')
    (hcol : blockCellCol M j h = blockCellCol M j' h') : j = j' ∧ h = h' := by
  have hnd := hwf.2.1
  have hids : M.m_blockIds j = M.m_blockIds j' → j = j' := by
    intro e
    have e1 := (blockIds_index M hnd j hj).2
    have e2 := (blockIds_index M hnd j' hj').2
    rw [← e1, ← e2, e]
  unfold blockCellRow at hrow
  unfold blockCellCol at hcol
  by_cases hc : M.m_format = .matrixFormatSparseBlockCol
  · rw [if_pos hc, if_pos hc] at hrow hcol
    exact ⟨hids hcol, hrow⟩
  · rw [if_neg hc, if_neg hc] at hrow hcol
    exact ⟨hids hrow, hcol⟩

/-- The steps of `NormalGrad` on a well-formed block matrix address pairwise distinct buffer
positions and pairwise distinct cells of `c`. -/
theorem gradSteps_pairwise (M : CPUSparseMatrix R) (hwf : WellFormedBlocks M) :
    (gradSteps M).Pairwise fun w w' =>
      w.1 ≠ w'.1 ∧ IDX2C w.2.1 w.2.2 M.m_numRows ≠ IDX2C w'.2.1 w'.2.2 M.m_numRows := by
  have key : ∀ j < M.m_blockSize, ∀ j' < M.m_blockSize, ∀ h < blockLen M,
      ∀ h' < blockLen M, (j ≠ j' ∨ h ≠ h') →
      j * blockLen M + h ≠ j' * blockLen M + h'
        ∧ IDX2C (blockCellRow M j h) (blockCellCol M j h) M.m_numRows
          ≠ IDX2C (blockCellRow M j' h') (blockCellCol M j' h') M.m_numRows := by
    intro j hj j' hj' h hh h' hh' hne
    constructor
    · intro e
      have := (@IDX2C_inj (blockLen M) h h' j j' hh hh').mp e
      rcases hne with hn | hn
      · exact hn this.2
      · exact hn this.1
    · intro e
      obtain ⟨e1, e2⟩ := (IDX2C_inj (blockCellRow_lt M hwf hj hh)
        (blockCellRow_lt M hwf hj' hh')).mp e
      obtain ⟨g1, g2⟩ := blockCell_inj M hwf hj hj' e1 e2
      rcases hne with hn | hn
      · exact hn g1
      · exact hn g2
  unfold gradSteps loopRange
  rw [List.pairwise_flatMap]
  constructor
  · intro j hj
    rw [List.pairwise_map]
    refine List.Pairwise.imp_of_mem ?_ (List.pairwise_lt_range' _ _)
    intro p q hp hq hpq
    rw [List.mem_range'_1] at hp hq
    have ep : j * blockLen M + (p - j * blockLen M) = p := by omega
    have eq : j * blockLen M + (q - j * blockLen M) = q := by omega
    have := key j (List.mem_range.mp hj) j (List.mem_range.mp hj) (p - j * blockLen M)
      (by omega) (q - j * blockLen M) (by omega) (Or.inr (by omega))
    rw [ep, eq] at this
    exact this
  · refine List.Pairwise.imp_of_mem ?_ (List.pairwise_lt_range _)
    intro j j' hj hj' hjj x hx y hy
    obtain ⟨p, hp, rfl⟩ := List.mem_map.mp hx
    obtain ⟨q, hq, rfl⟩ := List.mem_map.mp hy
    rw [List.mem_range'_1] at hp hq
    have ep : j * blockLen M + (p - j * blockLen M) = p := by omega
    have eq : j' * blockLen M + (q - j' * blockLen M) = q := by omega
    have := key j (List.mem_range.mp hj) j' (List.mem_range.mp hj') (p - j * blockLen M)
      (by omega) (q - j' * blockLen M) (by omega) (Or.inl (by omega))
    rw [ep, eq] at this
    exact this

end SmoothingSteps

/-- C19. `NormalGrad` on a block-sparse gradient is an exponential moving average written to
both operands: for every block-sparse-column or block-sparse-row matrix with pairwise distinct
(in-range) block ids and every non-empty same-shaped dense `c`, the call returns, each element
`g` of an active block, lying at logical cell `(r, col)`, satisfies
`c(r, col) = (1-momentum)*g + momentum*c_old(r, col)` and the stored gradient element equals
that new `c(r, col)`; the cells of `c` outside the active blocks, `blockIds`, the block count
and `nzCount` are unchanged; on a CSC/CSR matrix the call fails with a runtime error. -/
theorem NormalGrad_spec {R : Type} [CommRing R] (fresh : Nat → R) (momentum : R)
    (M : CPUSparseMatrix R) (c : CPUMatrix R) :
    (WellFormedBlocks M → c.m_numRows = M.m_numRows → c.m_numCols = M.m_numCols →
        c.IsEmpty = false →
        ∃ (M' : CPUSparseMatrix R) (c' : CPUMatrix R),
          NormalGrad fresh momentum M c = .ok (M', c')
            ∧ c'.m_numRows = c.m_numRows ∧ c'.m_numCols = c.m_numCols
            ∧ (∀ j < M.m_blockSize, ∀ h < blockLen M,
                c'.get (blockCellRow M j h) (blockCellCol M j h)
                    = (1 - momentum) * M.m_pArray (j * blockLen M + h)
                      + momentum * c.get (blockCellRow M j h) (blockCellCol M j h)
                  ∧ M'.m_pArray (j * blockLen M + h)
                    = c'.get (blockCellRow M j h) (blockCellCol M j h))
            ∧ (∀ r < M.m_numRows, ∀ k < M.m_numCols,
                (if M.m_format = .matrixFormatSparseBlockCol then k else r) ∉ blockIdList M →
                c'.get r k = c.get r k)
            ∧ M'.m_blockIds = M.m_blockIds ∧ M'.m_blockSize = M.m_blockSize
            ∧ M'.m_nz = M.m_nz ∧ M'.m_format = M.m_format
            ∧ M'.m_numRows = M.m_numRows ∧ M'.m_numCols = M.m_numCols)
      ∧ (M.m_format = .matrixFormatSparseCSC ∨ M.m_format = .matrixFormatSparseCSR →
          (NormalGrad fresh momentum M c).error = some .runtimeError) := by
  constructor
  · intro hwf hrows _ hne
    obtain ⟨b1, b2, b3, b4, b5, _⟩ :=
      normalGrad_fold momentum (gradSteps M) (M, c) M.m_numRows hrows
        (gradSteps_pairwise M hwf)
    have hcall := NormalGrad_eq_fold fresh momentum M c hwf.1
    simp only [hne, Bool.false_eq_true, if_false] at hcall
    generalize (gradSteps M).foldl (fun s w => normalGradStep momentum w.1 w.2.1 w.2.2 s)
      (M, c) = S at b1 b2 b3 b4 b5 hcall
    have b3' : S.1 = { M with m_pArray := S.1.m_pArray } := b3
    refine ⟨S.1, S.2, hcall, b1.trans hrows.symm, b2, ?_, ?_, ?_, ?_, ?_, ?_, ?_, ?_⟩
    · intro j hj h hh
      obtain ⟨e1, e2⟩ := b4 (j * blockLen M + h, blockCellRow M j h, blockCellCol M j h)
        ((mem_gradSteps M _).mpr ⟨j, hj, h, hh, rfl⟩)
      unfold CPUMatrix.get
      rw [b1, hrows]
      exact ⟨e1, e2⟩
    · intro r hr k _ hout
      unfold CPUMatrix.get
      rw [b1, hrows]
      apply b5
      intro w hw hx
      obtain ⟨j, hj, h, hh, rfl⟩ := (mem_gradSteps M w).mp hw
      obtain ⟨e1, e2⟩ := (IDX2C_inj (blockCellRow_lt M hwf hj hh) hr).mp hx
      have hmem := (blockIds_index M hwf.2.1 j hj).1
      unfold blockCellRow at e1
      unfold blockCellCol at e2
      by_cases hc : M.m_format = .matrixFormatSparseBlockCol
      · rw [if_pos hc] at e2 hout
        rw [← e2] at hout
        exact hout hmem
      · rw [if_neg hc] at e1 hout
        rw [← e1] at hout
        exact hout hmem
    · rw [b3']
    · rw [b3']
    · rw [b3']
    · rw [b3']
    · rw [b3']
    · rw [b3']
  · intro hfmt
    apply NormalGrad_unsupported
    rcases hfmt with h | h <;> rw [h] <;> rfl

/-- C19, witness: the 2-by-2 block-sparse-column gradient with the active column 1 holding
`(3, 4)`, the state `c = [[10, 30], [20, 40]]` and momentum 2 (over the integers):
`c(0,1) = (1-2)*3 + 2*30 = 57`, `c(1,1) = (1-2)*4 + 2*40 = 76`, column 0 of `c` is kept and the
gradient holds `(57, 76)`. -/
theorem NormalGrad_witness :
    ∃ (M' : CPUSparseMatrix Int) (c' : CPUMatrix Int),
      NormalGrad (fun _ => 0) 2 exGrad exState22 = .ok (M', c')
        ∧ c'.get 0 1 = 57 ∧ c'.get 1 1 = 76 ∧ c'.get 0 0 = 10 ∧ c'.get 1 0 = 20
        ∧ M'.m_pArray 0 = 57 ∧ M'.m_pArray 1 = 76 ∧ M'.m_nz = 2 := by
  obtain ⟨M', c', hcall, _, _, h3, h4, _, _, h7, _⟩ :=
    (NormalGrad_spec (fun _ => 0) 2 exGrad exState22).1 (by decide) rfl rfl rfl
  have a0 := h3 0 (by decide) 0 (by decide)
  have a1 := h3 0 (by decide) 1 (by decide)
  refine ⟨M', c', hcall, ?_, ?_, ?_, ?_, ?_, ?_, h7⟩
  · exact a0.1
  · exact a1.1
  · exact h4 0 (by decide) 0 (by decide) (by decide)
  · exact h4 1 (by decide) 0 (by decide) (by decide)
  · exact a0.2.trans a0.1
  · exact a1.2.trans a1.1

/-- C20, the failing input: the 2-by-2 block-sparse-column gradient with the active column 1
and a non-empty 1-by-1 state `c`. `NormalGrad` returns without resizing `c`: it is still
1-by-1, not the gradient's 2-by-2, its element `10` was not zeroed, and the smoothed values
were written at the offsets 1 and 2, beyond its single element. -/
theorem NormalGrad_ignores_shape_mismatch :
    exState11.IsEmpty = false
      ∧ exState11.m_numRows ≠ exGrad.m_numRows
      ∧ (NormalGrad (fun _ => 0) 0 exGrad exState11).error = none
      ∧ (NormalGrad (fun _ => 0) 0 exGrad exState11).state.2.m_numRows = 1
      ∧ (NormalGrad (fun _ => 0) 0 exGrad exState11).state.2.m_numCols = 1
      ∧ (NormalGrad (fun _ => 0) 0 exGrad exState11).state.2.m_pArray 0 = 10
      ∧ (NormalGrad (fun _ => 0) 0 exGrad exState11).state.2.m_pArray 1 = 3
      ∧ (NormalGrad (fun _ => 0) 0 exGrad exState11).state.2.m_pArray 2 = 4 := by
  refine ⟨rfl, by decide, rfl, rfl, rfl, ?_, ?_, ?_⟩ <;> decide

section UnrolledLoop

variable {R : Type}

/-- The positions visited by the unrolled loop and the remainder loop, in program order. -/
theorem unrolled_positions_sorted (m : Nat) :
    ((unrolledRange m).flatMap (fun i => [i, i + 1, i + 2, i + 3])
      ++ loopRange (roundDown4 m) m).Pairwise (· < ·) := by
  unfold unrolledRange loopRange roundDown4
  rw [List.pairwise_append]
  refine ⟨?_, List.pairwise_lt_range' _ _, ?_⟩
  · rw [List.pairwise_flatMap]
    constructor
    · intro i _
      simp
    · rw [List.pairwise_map]
      refine List.Pairwise.imp ?_ (List.pairwise_lt_range _)
      intro a b hab x hx y hy
      simp only [List.mem_cons, List.mem_singleton, List.not_mem_nil, or_false] at hx hy
      omega
  · intro a ha b hb
    simp only [List.mem_flatMap, List.mem_map, List.mem_range, List.mem_cons,
      List.mem_singleton, List.not_mem_nil, or_false] at ha
    rw [List.mem_range'_1] at hb
    obtain ⟨i, ⟨k, hk, rfl⟩, hx⟩ := ha
    omega

theorem mem_unrolled_positions (m x : Nat) :
    x ∈ (unrolledRange m).flatMap (fun i => [i, i + 1, i + 2, i + 3])
        ++ loopRange (roundDown4 m) m ↔ x < m := by
  unfold unrolledRange loopRange roundDown4
  simp only [List.mem_append, List.mem_flatMap, List.mem_map, List.mem_range, List.mem_cons,
    List.mem_singleton, List.not_mem_nil, or_false, List.mem_range'_1]
  constructor
  · rintro (⟨i, ⟨k, hk, rfl⟩, hx⟩ | ⟨h1, h2⟩)
    · omega
    · omega
  · intro hx
    by_cases h : x < m / 4 * 4
    · left
      exact ⟨4 * (x / 4), ⟨x / 4, by omega, rfl⟩, by omega⟩
    · right
      omega

/-- A run of pointwise updates over pairwise distinct positions applies `f` once to each of
them and leaves the other positions alone. -/
theorem pointwise_foldl (f : R → R) (l : List Nat) (hnd : l.Nodup) (v : Nat → R) (x : Nat) :
    (l.foldl (fun v i => Function.update v i (f (v i))) v) x
      = if x ∈ l then f (v x) else v x := by
  induction l generalizing v with
  | nil => simp
  | cons i l ih =>
    obtain ⟨hi, hl⟩ := List.nodup_cons.mp hnd
    rw [List.foldl_cons, ih hl]
    by_cases hx : x ∈ l
    · have hne : x ≠ i := fun e => hi (e ▸ hx)
      simp [hx, Function.update_noteq hne]
    · by_cases hxi : x = i
      · subst hxi
        simp [hx]
      · simp [hx, hxi, Function.update_noteq hxi]

/-- The unrolled loop with a pointwise body applies the body's function to every position
below `m`, once, and to no other position. -/
theorem unrolledLoop_pointwise (m : Nat) (body : Nat → (Nat → R) → Nat → R) (f : R → R)
    (hbody : ∀ i v, body i v = Function.update v i (f (v i))) (v : Nat → R) (x : Nat) :
    unrolledLoop m body v x = if x < m then f (v x) else v x := by
  have e : unrolledLoop m body v
      = ((unrolledRange m).flatMap (fun i => [i, i + 1, i + 2, i + 3])
          ++ loopRange (roundDown4 m) m).foldl
        (fun v i => Function.update v i (f (v i))) v := by
    unfold unrolledLoop
    rw [List.foldl_append, foldl_flatMap_map]
    simp only [List.foldl_cons, List.foldl_nil, hbody]
  rw [e, pointwise_foldl f _ ((unrolled_positions_sorted m).imp (fun h => Nat.ne_of_lt h))]
  simp only [mem_unrolled_positions]

end UnrolledLoop

section TransformLemmas

variable {R : Type} [LinearOrderedRing R]

theorem truncateAt_pointwise (pos neg : R) (i : Nat) (v : Nat → R) :
    truncateAt pos neg i v
      = Function.update v i
          (if v i > pos then pos else if v i < neg then neg else v i) := by
  unfold truncateAt
  split_ifs
  · rfl
  · rfl
  · rw [Function.update_eq_self]

theorem softThresholdAt_pointwise (threshold : R) (i : Nat) (v : Nat → R) :
    softThresholdAt threshold i v
      = Function.update v i
          (if v i > threshold then v i - threshold
           else if v i < -threshold then v i + threshold else 0) := by
  unfold softThresholdAt
  split_ifs <;> rfl

/-- The two-sided test of `InplaceTruncate` is the clamp into `[neg, pos]` when
`neg <= pos`. -/
theorem clamp_eq_max_min (pos neg x : R) (h : neg ≤ pos) :
    (if x > pos then pos else if x < neg then neg else x) = max neg (min x pos) := by
  by_cases h1 : x > pos
  · rw [if_pos h1, min_eq_right (le_of_lt h1), max_eq_right h]
  · rw [if_neg h1, min_eq_left (not_lt.mp h1)]
    by_cases h2 : x < neg
    · rw [if_pos h2, max_eq_left (le_of_lt h2)]
    · rw [if_neg h2, max_eq_right (not_lt.mp h2)]

end TransformLemmas

/-- C22. `InplaceTruncate(threshold)` clamps every active value into
`[-|threshold|, |threshold|]`: for every matrix (the format is not looked at), every `nzCount`
(divisible by 4 or not) and every threshold of either sign, afterwards
`values[i] = max(-|threshold|, min(values_old[i], |threshold|))` for every `i < nzCount`, while
the values at positions `>= nzCount`, `nzCount`, the index buffers and every other member are
unchanged. -/
theorem InplaceTruncate_spec {R : Type} [LinearOrderedRing R] (threshold : R)
    (M : CPUSparseMatrix R) :
    (∀ i < M.m_nz,
        (M.InplaceTruncate threshold).m_pArray i
          = max (-|threshold|) (min (M.m_pArray i) |threshold|))
      ∧ (∀ i, M.m_nz ≤ i → (M.InplaceTruncate threshold).m_pArray i = M.m_pArray i)
      ∧ (M.InplaceTruncate threshold).m_nz = M.m_nz
      ∧ (M.InplaceTruncate threshold).m_unCompIndex = M.m_unCompIndex
      ∧ (M.InplaceTruncate threshold).m_compIndex = M.m_compIndex
      ∧ (M.InplaceTruncate threshold).m_blockIds = M.m_blockIds
      ∧ M.InplaceTruncate threshold
          = { M with m_pArray := (M.InplaceTruncate threshold).m_pArray } := by
  have key : ∀ x, (M.InplaceTruncate threshold).m_pArray x
      = if x < M.m_nz then max (-|threshold|) (min (M.m_pArray x) |threshold|)
        else M.m_pArray x := by
    intro x
    show unrolledLoop M.m_nz (truncateAt |threshold| (-|threshold|)) M.m_pArray x = _
    rw [unrolledLoop_pointwise M.m_nz _
      (fun x => if x > |threshold| then |threshold|
        else if x < -|threshold| then -|threshold| else x)
      (truncateAt_pointwise |threshold| (-|threshold|))]
    by_cases hx : x < M.m_nz
    · rw [if_pos hx, if_pos hx]
      exact clamp_eq_max_min _ _ _ (neg_le_self (abs_nonneg threshold))
    · rw [if_neg hx, if_neg hx]
  refine ⟨fun i hi => ?_, fun i hi => ?_, rfl, rfl, rfl, rfl, rfl⟩
  · rw [key, if_pos hi]
  · rw [key, if_neg (by omega)]

/-- C23. `InplaceSoftThreshold(t)` is the shrinkage operator on every active value: for every
`nzCount` (divisible by 4 or not) each value `v` at a position `< nzCount` becomes `v - t` if
`v > t`, `v + t` if `v < -t` and `0` otherwise, which for `t >= 0` is
`sign(v) * max(|v| - t, 0)`; in particular the five values `-2t, -t/2, 0, t/2, 2t` with `t > 0`
become `-t, 0, 0, 0, t`. The values at positions `>= nzCount` and every other member are
unchanged. -/
theorem InplaceSoftThreshold_spec {R : Type} [LinearOrderedField R] (t : R)
    (M : CPUSparseMatrix R) :
    (∀ i < M.m_nz,
        (M.InplaceSoftThreshold t).m_pArray i
          = if M.m_pArray i > t then M.m_pArray i - t
            else if M.m_pArray i < -t then M.m_pArray i + t else 0)
      ∧ (0 ≤ t → ∀ i < M.m_nz,
          (M.InplaceSoftThreshold t).m_pArray i
            = (SignType.sign (M.m_pArray i) : R) * max (|M.m_pArray i| - t) 0)
      ∧ (0 < t → M.m_nz = 5 → M.m_pArray 0 = -(2 * t) → M.m_pArray 1 = -(t / 2) →
          M.m_pArray 2 = 0 → M.m_pArray 3 = t / 2 → M.m_pArray 4 = 2 * t →
          (M.InplaceSoftThreshold t).m_pArray 0 = -t
            ∧ (M.InplaceSoftThreshold t).m_pArray 1 = 0
            ∧ (M.InplaceSoftThreshold t).m_pArray 2 = 0
            ∧ (M.InplaceSoftThreshold t).m_pArray 3 = 0
            ∧ (M.InplaceSoftThreshold t).m_pArray 4 = t)
      ∧ (∀ i, M.m_nz ≤ i → (M.InplaceSoftThreshold t).m_pArray i = M.m_pArray i)
      ∧ M.InplaceSoftThreshold t
          = { M with m_pArray := (M.InplaceSoftThreshold t).m_pArray } := by
  have key : ∀ x, (M.InplaceSoftThreshold t).m_pArray x
      = if x < M.m_nz then
          (if M.m_pArray x > t then M.m_pArray x - t
           else if M.m_pArray x < -t then M.m_pArray x + t else 0)
        else M.m_pArray x := by
    intro x
    show unrolledLoop M.m_nz (softThresholdAt t) M.m_pArray x = _
    rw [unrolledLoop_pointwise M.m_nz _
      (fun x => if x > t then x - t else if x < -t then x + t else 0)
      (softThresholdAt_pointwise t)]
  have h1 : ∀ i < M.m_nz, (M.InplaceSoftThreshold t).m_pArray i
      = if M.m_pArray i > t then M.m_pArray i - t
        else if M.m_pArray i < -t then M.m_pArray i + t else 0 := by
    intro i hi
    rw [key, if_pos hi]
  refine ⟨h1, fun ht i hi => ?_, ?_, fun i hi => ?_, rfl⟩
  · rw [h1 i hi]
    by_cases c1 : M.m_pArray i > t
    · have hpos : 0 < M.m_pArray i := lt_of_le_of_lt ht c1
      rw [if_pos c1, sign_pos hpos, abs_of_pos hpos, max_eq_left (by linarith)]
      simp
    · rw [if_neg c1]
      by_cases c2 : M.m_pArray i < -t
      · have hneg : M.m_pArray i < 0 := by linarith
        rw [if_pos c2, sign_neg hneg, abs_of_neg hneg, max_eq_left (by linarith)]
        simp
        ring
      · rw [if_neg c2, max_eq_right]
        · simp
        · have : |M.m_pArray i| ≤ t := abs_le.mpr ⟨by linarith, by linarith⟩
          linarith
  · intro ht hnz e0 e1 e2 e3 e4
    have ht2 : t / 2 < t := by linarith
    refine ⟨?_, ?_, ?_, ?_, ?_⟩
    · rw [h1 0 (by omega), e0, if_neg (by linarith), if_pos (by linarith)]
      ring
    · rw [h1 1 (by omega), e1, if_neg (by linarith), if_neg (by linarith)]
    · rw [h1 2 (by omega), e2, if_neg (by linarith), if_neg (by linarith)]
    · rw [h1 3 (by omega), e3, if_neg (by linarith), if_neg (by linarith)]
    · rw [h1 4 (by omega), e4, if_pos (by linarith)]
      ring
  · rw [key, if_neg (by omega)]

/-- C23, witness: the five values `-4, -1, 0, 1, 4` and `t = 2` over the rationals. -/
theorem InplaceSoftThreshold_witness :
    (exFive.InplaceSoftThreshold 2).m_pArray 0 = -2
      ∧ (exFive.InplaceSoftThreshold 2).m_pArray 1 = 0
      ∧ (exFive.InplaceSoftThreshold 2).m_pArray 2 = 0
      ∧ (exFive.InplaceSoftThreshold 2).m_pArray 3 = 0
      ∧ (exFive.InplaceSoftThreshold 2).m_pArray 4 = 2 :=
  (InplaceSoftThreshold_spec (2 : Rat) exFive).2.2.1 (by norm_num) rfl
    (by norm_num [exFive]) (by norm_num [exFive]) (by norm_num [exFive])
    (by norm_num [exFive]) (by norm_num [exFive])

section ComparisonLemmas

variable {R : Type} [LinearOrderedRing R]

theorem areEqualColumn_true (a b : CPUSparseMatrix R) (threshold : R) (j : Nat)
    (rows : List Nat) (result : Bool) :
    areEqualColumn a b threshold j rows result = true
      ↔ result = true ∧ ∀ i ∈ rows, |a.get i j - b.get i j| ≤ threshold := by
  induction rows with
  | nil => simp [areEqualColumn]
  | cons i rows ih =>
    unfold areEqualColumn
    by_cases h : |a.get i j - b.get i j| > threshold
    · rw [if_pos h]
      constructor
      · intro e
        exact Bool.noConfusion e
      · rintro ⟨_, hall⟩
        exact absurd (hall i (List.mem_cons_self _ _)) (not_le.mpr h)
    · rw [if_neg h, ih]
      constructor
      · rintro ⟨hr, hall⟩
        refine ⟨hr, fun i' hi' => ?_⟩
        rcases List.mem_cons.mp hi' with rfl | hmem
        · exact not_lt.mp h
        · exact hall i' hmem
      · rintro ⟨hr, hall⟩
        exact ⟨hr, fun i' hi' => hall i' (List.mem_cons_of_mem _ hi')⟩

theorem areEqual_scan_true (a b : CPUSparseMatrix R) (threshold : R) (cols rows : List Nat)
    (result : Bool) :
    cols.foldl (fun result j => areEqualColumn a b threshold j rows result) result = true
      ↔ result = true ∧ ∀ j ∈ cols, ∀ i ∈ rows, |a.get i j - b.get i j| ≤ threshold := by
  induction cols generalizing result with
  | nil => simp
  | cons j cols ih =>
    rw [List.foldl_cons, ih, areEqualColumn_true]
    constructor
    · rintro ⟨⟨hr, hj⟩, hall⟩
      refine ⟨hr, fun j' hj' => ?_⟩
      rcases List.mem_cons.mp hj' with rfl | hmem
      · exact hj
      · exact hall j' hmem
    · rintro ⟨hr, hall⟩
      exact ⟨⟨hr, hall j (List.mem_cons_self _ _)⟩,
        fun j' hj' => hall j' (List.mem_cons_of_mem _ hj')⟩

end ComparisonLemmas

/-- C24. `AreEqual` compares the whole dense footprint: for all non-empty sparse matrices `a`
and `b` and every threshold the call returns, and it returns true if and only if `a` and `b`
have the same numbers of rows and columns and `|a(i,j) - b(i,j)| <= threshold` for every
logical cell `(i,j)`, stored or not; a single mismatching cell makes the result false. -/
theorem AreEqual_spec {R : Type} [LinearOrderedRing R] (a b : CPUSparseMatrix R)
    (threshold : R) (ha : a.IsEmpty = false) (hb : b.IsEmpty = false) :
    ∃ r : Bool, AreEqual a b threshold = .ok r
      ∧ (r = true ↔ a.m_numRows = b.m_numRows ∧ a.m_numCols = b.m_numCols
          ∧ ∀ i < a.m_numRows, ∀ j < a.m_numCols, |a.get i j - b.get i j| ≤ threshold) := by
  unfold AreEqual
  rw [ha, hb]
  simp only [Bool.or_self, Bool.false_eq_true, if_false, CPUSparseMatrix.GetNumRows,
    CPUSparseMatrix.GetNumCols]
  by_cases hs : a.m_numRows ≠ b.m_numRows ∨ a.m_numCols ≠ b.m_numCols
  · rw [if_pos hs]
    refine ⟨false, rfl, ?_⟩
    constructor
    · intro e
      exact Bool.noConfusion e
    · rintro ⟨h1, h2, _⟩
      rcases hs with h | h
      · exact absurd h1 h
      · exact absurd h2 h
  · rw [if_neg hs]
    refine ⟨_, rfl, ?_⟩
    rw [areEqual_scan_true]
    have hs' : a.m_numRows = b.m_numRows ∧ a.m_numCols = b.m_numCols := by
      constructor
      · by_contra h
        exact hs (Or.inl h)
      · by_contra h
        exact hs (Or.inr h)
    constructor
    · rintro ⟨_, hall⟩
      exact ⟨hs'.1, hs'.2, fun i hi j hj =>
        hall j (List.mem_range.mpr hj) i (List.mem_range.mpr hi)⟩
    · rintro ⟨_, _, hall⟩
      exact ⟨rfl, fun j hj i hi => hall i (List.mem_range.mp hi) j (List.mem_range.mp hj)⟩

/-- C24, witness: the 2-by-2 CSC matrix with three nonzeros compared with itself at threshold
0, and with the empty-valued 2-by-2 matrix. -/
theorem AreEqual_witness :
    AreEqual exRhs3 exRhs3 0 = .ok true ∧ AreEqual exRhs3 exEmpty22 0 = .ok false := by
  obtain ⟨r, hr, hiff⟩ := AreEqual_spec exRhs3 exRhs3 0 rfl rfl
  obtain ⟨r', hr', hiff'⟩ := AreEqual_spec exRhs3 exEmpty22 0 rfl rfl
  constructor
  · have : r = true := hiff.mpr ⟨rfl, rfl, fun i _ j _ => by simp⟩
    rw [hr, this]
  · have : r' = false := by
      cases hc : r' with
      | false => rfl
      | true =>
        have h := (hiff'.mp hc).2.2 1 (by decide) 0 (by decide)
        exact absurd h (by decide)
    rw [hr', this]

/-- C26, the failing input: the 2-by-2 CSC matrix with three nonzeros written by `operator<<`.
With the uninitialised locals holding 0 the record carries `0, 0, 0` where the matrix has
`nzCount = 3`, 2 columns and 2 rows, and no array at all; with the locals holding `3, 2, 2` it
is the record the spec describes. The same matrix state gives two different records. -/
theorem operatorPut_writes_uninitialised_header :
    exRhs3.m_nz = 3 ∧ exRhs3.m_numCols = 2 ∧ exRhs3.m_numRows = 2
      ∧ operatorPut 4 0 0 0 [] exRhs3
          = .ok [.beginSection, .size 4, .name "nnmatrix", .tag .matrixFormatSparseCSC,
              .size 0, .size 0, .size 0, .endSection]
      ∧ operatorPut 4 3 2 2 [] exRhs3
          = .ok [.beginSection, .size 4, .name "nnmatrix", .tag .matrixFormatSparseCSC,
              .size 3, .size 2, .size 2, .value 2, .value 3, .value 4,
              .index 1, .index 0, .index 1, .index 0, .index 1, .index 3, .endSection] :=
  ⟨rfl, rfl, rfl, rfl, rfl⟩

/-- C25, the failing input: the 2-by-2 CSC matrix with three nonzeros, written and read back
into a freshly constructed CSC matrix. With the uninitialised locals of `operator<<` holding 0
the matrix read is 0-by-0 with no entry, and `AreEqual` of the original and the matrix read
raises (an operand is empty) instead of returning true; even with the locals holding the
matrix's own `3, 2, 2` the matrix read has the dimensions and the buffers of the original but
`nzCount = 0`, since `operator>>` never sets it. -/
theorem roundTrip_loses_header :
    (exRhs3.m_numRows, exRhs3.m_numCols, exRhs3.m_nz) = (2, 2, 3)
      ∧ (roundTrip exFresh 4 0 0 0 exRhs3
            (CPUSparseMatrix.ZeroInit exFresh .matrixFormatSparseCSC)).map
          (fun M' => (M'.m_numRows, M'.m_numCols, M'.m_nz)) = .ok (0, 0, 0)
      ∧ (roundTrip exFresh 4 0 0 0 exRhs3
            (CPUSparseMatrix.ZeroInit exFresh .matrixFormatSparseCSC)).map
          (fun M' => AreEqual exRhs3 M' 0) = .ok (.error .logicError)
      ∧ (roundTrip exFresh 4 3 2 2 exRhs3
            (CPUSparseMatrix.ZeroInit exFresh .matrixFormatSparseCSC)).map
          (fun M' => (M'.m_format, M'.m_numRows, M'.m_numCols, M'.m_nz,
            M'.m_pArray 0, M'.m_pArray 1, M'.m_pArray 2, M'.m_compIndex 2))
          = .ok (.matrixFormatSparseCSC, 2, 2, 0, 2, 3, 4, 3) :=
  ⟨rfl, rfl, rfl, rfl⟩

section FailureState

variable {R : Type} [CommRing R] [DecidableEq R]

/-- The dense result after the resize and the prescale that `MultiplyAndWeightedAdd` performs
before it looks at the format of `rhs` and at the transposes. -/
theorem prescaled_result (fresh : Nat → R) (beta : R) (c : CPUMatrix R) (m n : Nat) :
    ∃ c2 : CPUMatrix R,
      c2 = (let c1 : CPUMatrix R :=
              if c.GetNumRows ≠ m ∨ c.GetNumCols ≠ n then c.Resize fresh m n else c
            if beta = 0 then c1.memsetZero
            else if beta ≠ 1 then
              CPUMatrix.foreach_coord (fun i j c => c.set i j (beta * c.get i j)) c1
            else c1)
        ∧ c2.m_numRows = m ∧ c2.m_numCols = n
        ∧ (c.m_numRows = m → c.m_numCols = n →
            ∀ h < m, ∀ j < n, c2.get h j = beta * c.get h j)
        ∧ (c.m_numRows = m → c.m_numCols = n → beta = 1 → c2 = c) := by
  refine ⟨_, rfl, ?_, ?_, ?_, ?_⟩
  · by_cases hs : c.GetNumRows ≠ m ∨ c.GetNumCols ≠ n
    · have hpre := prescale_spec beta (c.Resize fresh m n)
      simp only [hs, if_true]
      rw [hpre.1]
      unfold CPUMatrix.Resize
      rw [if_neg]
      intro h
      rcases hs with h1 | h1
      · exact h1 h.1
      · exact h1 h.2
    · have hpre := prescale_spec beta c
      simp only [hs, if_false]
      rw [hpre.1]
      by_contra h
      exact hs (Or.inl h)
  · by_cases hs : c.GetNumRows ≠ m ∨ c.GetNumCols ≠ n
    · have hpre := prescale_spec beta (c.Resize fresh m n)
      simp only [hs, if_true]
      rw [hpre.2.1]
      unfold CPUMatrix.Resize
      rw [if_neg]
      intro h
      rcases hs with h1 | h1
      · exact h1 h.1
      · exact h1 h.2
    · have hpre := prescale_spec beta c
      simp only [hs, if_false]
      rw [hpre.2.1]
      by_contra h
      exact hs (Or.inr h)
  · intro h1 h2 h hh j hj
    have hs : ¬ (c.GetNumRows ≠ m ∨ c.GetNumCols ≠ n) := by
      simp [CPUMatrix.GetNumRows, CPUMatrix.GetNumCols, h1, h2]
    have hpre := prescale_spec beta c
    simp only [hs, if_false]
    exact hpre.2.2 h (by omega) j (by omega)
  · intro h1 h2 hb
    have hs : ¬ (c.GetNumRows ≠ m ∨ c.GetNumCols ≠ n) := by
      simp [CPUMatrix.GetNumRows, CPUMatrix.GetNumCols, h1, h2]
    have hb0 : beta ≠ 0 ∨ c.memsetZero = c := by
      by_cases h0 : (1 : R) = 0
      · right
        have hall : ∀ x y : R, x = y := fun x y => by
          rw [← mul_one x, ← mul_one y, h0, mul_zero, mul_zero]
        unfold CPUMatrix.memsetZero
        congr
        funext x
        exact hall _ _
      · left
        rw [hb]
        exact h0
    simp only [hs, if_false, hb, ne_eq, not_true_eq_false]
    rcases hb0 with h0 | h0
    · rw [hb] at h0
      rw [if_neg h0]
    · split_ifs
      · exact h0
      · rfl

end FailureState

/-- C27 (amended). The failures of `MultiplyAndWeightedAdd` and the state of the dense result
they leave: an empty operand (logic error) and an inner-dimension mismatch (invalid argument)
leave `c` exactly as it was; the not-implemented failures (`rhs` not in CSC format, or `lhs`
transposed) come after the resize and the prescale, so they leave `c` resized to `m`-by-`n` and
scaled by `beta`: a `c` that already was `m`-by-`n` has every cell multiplied by `beta`, and is
unchanged only when `beta = 1`. In every other case the call returns. -/
theorem MultiplyAndWeightedAdd_failure_state {R : Type} [CommRing R] [DecidableEq R]
    (fresh : Nat → R) (alpha beta : R) (lhs : CPUMatrix R) (transposeA : Bool)
    (rhs : CPUSparseMatrix R) (transposeB : Bool) (c : CPUMatrix R) (m k l n : Nat)
    (hm : m = if transposeA then lhs.m_numCols else lhs.m_numRows)
    (hk : k = if transposeA then lhs.m_numRows else lhs.m_numCols)
    (hl : l = if transposeB then rhs.m_numCols else rhs.m_numRows)
    (hn : n = if transposeB then rhs.m_numRows else rhs.m_numCols) :
    ((lhs.IsEmpty || rhs.IsEmpty) = true →
        MultiplyAndWeightedAdd fresh alpha lhs transposeA rhs transposeB beta c
          = .raised .logicError c)
      ∧ ((lhs.IsEmpty || rhs.IsEmpty) = false → k ≠ l →
          MultiplyAndWeightedAdd fresh alpha lhs transposeA rhs transposeB beta c
            = .raised .invalidArgument c)
      ∧ ((lhs.IsEmpty || rhs.IsEmpty) = false → k = l →
          (rhs.m_format ≠ .matrixFormatSparseCSC ∨ transposeA = true) →
          ∃ c2 : CPUMatrix R,
            MultiplyAndWeightedAdd fresh alpha lhs transposeA rhs transposeB beta c
                = .raised .notImplemented c2
              ∧ c2.m_numRows = m ∧ c2.m_numCols = n
              ∧ (c.m_numRows = m → c.m_numCols = n →
                  ∀ h < m, ∀ j < n, c2.get h j = beta * c.get h j)
              ∧ (c.m_numRows = m → c.m_numCols = n → beta = 1 → c2 = c))
      ∧ ((lhs.IsEmpty || rhs.IsEmpty) = false → k = l →
          rhs.m_format = .matrixFormatSparseCSC → transposeA = false →
          (MultiplyAndWeightedAdd fresh alpha lhs transposeA rhs transposeB beta c).error
            = none) := by
  refine ⟨fun he => ?_, fun he hkl => ?_, fun he hkl hbad => ?_, fun he hkl hfmt hta => ?_⟩
  · unfold MultiplyAndWeightedAdd
    rw [if_pos he]
  · unfold MultiplyAndWeightedAdd
    rw [if_neg (by simp [he])]
    simp only [CPUMatrix.GetNumRows, CPUMatrix.GetNumCols, CPUSparseMatrix.GetNumRows,
      CPUSparseMatrix.GetNumCols, ← hk, ← hl]
    rw [if_pos hkl]
  · obtain ⟨c2, hc2, h1, h2, h3, h4⟩ := prescaled_result fresh beta c m n
    refine ⟨c2, ?_, h1, h2, h3, h4⟩
    rw [hc2]
    unfold MultiplyAndWeightedAdd
    rw [if_neg (by simp [he])]
    simp only [CPUMatrix.GetNumRows, CPUMatrix.GetNumCols, CPUSparseMatrix.GetNumRows,
      CPUSparseMatrix.GetNumCols, CPUSparseMatrix.GetFormat, ← hk, ← hl, ← hm, ← hn]
    rw [if_neg (by simp [hkl])]
    by_cases hf : rhs.m_format ≠ .matrixFormatSparseCSC
    · rw [if_pos hf]
    · rw [if_neg hf]
      have hta : transposeA = true := hbad.resolve_left hf
      subst hta
      cases transposeB <;> simp
  · subst hta
    unfold MultiplyAndWeightedAdd
    rw [if_neg (by simp [he])]
    simp only [CPUMatrix.GetNumRows, CPUMatrix.GetNumCols, CPUSparseMatrix.GetNumRows,
      CPUSparseMatrix.GetNumCols, CPUSparseMatrix.GetFormat, ← hk, ← hl]
    rw [if_neg (by simp [hkl]), if_neg (by simp [hfmt])]
    cases transposeB <;> rfl

/-- C27, counterexample: with `lhs` transposed the call fails as not implemented, but only
after `beta = 0` has zero-filled the 2-by-2 result: `c(0,0)` was 7 before the call and is 0
after it. -/
theorem MultiplyAndWeightedAdd_failure_changes_result :
    (MultiplyAndWeightedAdd (fun _ => 0) 1 exIdentity2 true exSingle01 false 0 exDense2).error
        = some .notImplemented
      ∧ exDense2.get 0 0 = 7
      ∧ (MultiplyAndWeightedAdd (fun _ => 0) 1 exIdentity2 true exSingle01 false 0
          exDense2).state.get 0 0 = 0
      ∧ (MultiplyAndWeightedAdd (fun _ => 0) 1 exIdentity2 true exSingle01 false 0
          exDense2).state.m_numRows = exDense2.m_numRows := by
  decide

/-- C27, witness of the amended statement: the same failing call with `beta = 1` leaves the
result as it was. -/
theorem MultiplyAndWeightedAdd_failure_witness :
    ∃ c2 : CPUMatrix Int,
      MultiplyAndWeightedAdd (fun _ => 0) 1 exIdentity2 true exSingle01 false 1 exDense2
          = .raised .notImplemented c2
        ∧ c2 = exDense2 := by
  obtain ⟨c2, hcall, _, _, _, h4⟩ :=
    (MultiplyAndWeightedAdd_failure_state (fun _ => 0) 1 1 exIdentity2 true exSingle01 false
      exDense2 2 2 2 2 rfl rfl rfl rfl).2.2.1 rfl rfl (Or.inr rfl)
  exact ⟨c2, hcall, h4 rfl rfl rfl⟩

/-- C30, the failing inputs. (a) The 2-by-2 CSC matrix with 3 entries in a capacity of 5 and
`Resize(2, 2, 3, false, true)`: the bound `nzCount <= allocatedCapacity` holds, the dimensions
are unchanged, `reserveNz = nzCount`, the call reallocates and passes the logic-error check
(it returns, keeping the three values), yet the asserted `m_nz < numNZElemToReserve` is
`3 < 3`. (b) The 2-by-2 block-sparse-column matrix with 2 values in a capacity of 4 and
`Resize(2, 2, 2, false, true)`: same situation, the asserted
`m_elemSizeAllocated < numNZElemToReserve` is `4 < 2`. -/
theorem Resize_assertion_fails :
    (CapacityInv exRoomy ∧ exRoomy.m_nz ≤ 3
        ∧ ResizeReallocates exRoomy exRoomy.m_numRows exRoomy.m_numCols 3 false
        ∧ (CPUSparseMatrix.Resize exFresh exRoomy.m_numRows exRoomy.m_numCols 3 false true
            exRoomy).error = none
        ∧ (CPUSparseMatrix.Resize exFresh exRoomy.m_numRows exRoomy.m_numCols 3 false true
            exRoomy).state.m_pArray 2 = 4
        ∧ CPUSparseMatrix.ResizeAssertion exRoomy.m_numRows exRoomy.m_numCols 3 false true
            exRoomy = some false)
      ∧ (CapacityInv exGradRoomy ∧ exGradRoomy.m_nz ≤ 2
        ∧ ResizeReallocates exGradRoomy exGradRoomy.m_numRows exGradRoomy.m_numCols 2 false
        ∧ (CPUSparseMatrix.Resize exFresh exGradRoomy.m_numRows exGradRoomy.m_numCols 2 false
            true exGradRoomy).error = none
        ∧ CPUSparseMatrix.ResizeAssertion exGradRoomy.m_numRows exGradRoomy.m_numCols 2 false
            true exGradRoomy = some false) := by
  decide

section ProductCapacity

variable {R : Type} [CommRing R]

end ProductCapacity

section ScaleAndAddBlocks

variable {R : Type} [CommRing R]

end ScaleAndAddBlocks

section ProductAgreement

variable {R : Type} [CommRing R] [DecidableEq R]

end ProductAgreement

section AdaptiveLemmas

variable {R : Type} [Field R]

/-- The two loop bodies of `Adagrad` compute the same thing. -/
theorem adagradBlockStep_eq (sqrt : R → R) (need : Bool) (p row col : Nat)
    (s : AdagradState R) :
    adagradBlockStep sqrt need p row col s = adagradCompressedStep sqrt need p row col s := by
  unfold adagradBlockStep adagradCompressedStep
  simp only [CPUMatrix.get, CPUMatrix.set, Function.update_same]

/-- One step of `Adagrad`: the cell of `c` accumulates the square of the gradient element,
which is divided by the square root of the floored new cell; shapes and every other member
are kept. -/
theorem adagradStep_spec (sqrt : R → R) (need : Bool) (p row col : Nat)
    (s : AdagradState R) :
    (adagradCompressedStep sqrt need p row col s).c.m_numRows = s.c.m_numRows
      ∧ (adagradCompressedStep sqrt need p row col s).c.m_numCols = s.c.m_numCols
      ∧ (adagradCompressedStep sqrt need p row col s).grad
          = { s.grad with
              m_pArray := (adagradCompressedStep sqrt need p row col s).grad.m_pArray }
      ∧ (adagradCompressedStep sqrt need p row col s).c.m_pArray
          = Function.update s.c.m_pArray (IDX2C row col s.c.m_numRows)
              (s.c.m_pArray (IDX2C row col s.c.m_numRows)
                + s.grad.m_pArray p * s.grad.m_pArray p)
      ∧ (adagradCompressedStep sqrt need p row col s).grad.m_pArray
          = Function.update s.grad.m_pArray p
              (s.grad.m_pArray p
                / sqrt (adagradFloor + (s.c.m_pArray (IDX2C row col s.c.m_numRows)
                    + s.grad.m_pArray p * s.grad.m_pArray p))) :=
  ⟨rfl, rfl, rfl, rfl, rfl⟩

/-- A run of `Adagrad` steps addressing pairwise distinct buffer positions and pairwise
distinct cells: every addressed cell has accumulated the square of its gradient element, every
addressed gradient element is divided by the square root of its floored new cell, everything
else is kept. -/
theorem adagrad_fold (sqrt : R → R) (need : Bool) (ws : List (Nat × Nat × Nat))
    (s : AdagradState R) (m : Nat) (hm : s.c.m_numRows = m)
    (hpw : ws.Pairwise fun w w' =>
      w.1 ≠ w'.1 ∧ IDX2C w.2.1 w.2.2 m ≠ IDX2C w'.2.1 w'.2.2 m) :
    (ws.foldl (fun s w => adagradCompressedStep sqrt need w.1 w.2.1 w.2.2 s) s).c.m_numRows = m
      ∧ (ws.foldl (fun s w => adagradCompressedStep sqrt need w.1 w.2.1 w.2.2 s) s).c.m_numCols
          = s.c.m_numCols
      ∧ (ws.foldl (fun s w => adagradCompressedStep sqrt need w.1 w.2.1 w.2.2 s) s).grad
          = { s.grad with
              m_pArray :=
                (ws.foldl (fun s w => adagradCompressedStep sqrt need w.1 w.2.1 w.2.2 s)
                  s).grad.m_pArray }
      ∧ (∀ w ∈ ws,
          (ws.foldl (fun s w => adagradCompressedStep sqrt need w.1 w.2.1 w.2.2 s) s).c.m_pArray
              (IDX2C w.2.1 w.2.2 m)
            = s.c.m_pArray (IDX2C w.2.1 w.2.2 m) + s.grad.m_pArray w.1 * s.grad.m_pArray w.1
          ∧ (ws.foldl (fun s w => adagradCompressedStep sqrt need w.1 w.2.1 w.2.2 s)
                s).grad.m_pArray w.1
            = s.grad.m_pArray w.1
                / sqrt (adagradFloor
                    + (ws.foldl (fun s w => adagradCompressedStep sqrt need w.1 w.2.1 w.2.2 s)
                        s).c.m_pArray (IDX2C w.2.1 w.2.2 m)))
      ∧ (∀ x, (∀ w ∈ ws, IDX2C w.2.1 w.2.2 m ≠ x) →
          (ws.foldl (fun s w => adagradCompressedStep sqrt need w.1 w.2.1 w.2.2 s) s).c.m_pArray x
            = s.c.m_pArray x)
      ∧ (∀ p, (∀ w ∈ ws, w.1 ≠ p) →
          (ws.foldl (fun s w => adagradCompressedStep sqrt need w.1 w.2.1 w.2.2 s)
              s).grad.m_pArray p
            = s.grad.m_pArray p) := by
  induction ws generalizing s with
  | nil =>
    refine ⟨hm, rfl, rfl, ?_, fun _ _ => rfl, fun _ _ => rfl⟩
    intro w hw
    exact absurd hw (List.not_mem_nil _)
  | cons w ws ih =>
    obtain ⟨hhead, htail⟩ := List.pairwise_cons.mp hpw
    obtain ⟨a1, a2, a3, a4, a5⟩ := adagradStep_spec sqrt need w.1 w.2.1 w.2.2 s
    rw [hm] at a1 a4 a5
    obtain ⟨b1, b2, b3, b4, b5, b6⟩ :=
      ih (adagradCompressedStep sqrt need w.1 w.2.1 w.2.2 s) a1 htail
    rw [List.foldl_cons]
    refine ⟨b1, b2.trans a2, ?_, ?_, ?_, ?_⟩
    · rw [a3] at b3
      exact b3
    · intro w' hw'
      rcases List.mem_cons.mp hw' with rfl | hmem
      · have e1 := b5 (IDX2C w'.2.1 w'.2.2 m) (fun w0 hw0 => Ne.symm (hhead w0 hw0).2)
        have e2 := b6 w'.1 (fun w0 hw0 => Ne.symm (hhead w0 hw0).1)
        rw [e1, e2, a4, a5, Function.update_same, Function.update_same]
        exact ⟨rfl, rfl⟩
      · obtain ⟨c1, c2⟩ := b4 w' hmem
        obtain ⟨d1, d2⟩ := hhead w' hmem
        rw [c2, c1, a4, a5, Function.update_noteq (Ne.symm d1),
          Function.update_noteq (Ne.symm d2)]
        exact ⟨rfl, rfl⟩
    · intro x hx
      rw [b5 x (fun w0 hw0 => hx w0 (List.mem_cons_of_mem _ hw0)), a4,
        Function.update_noteq (Ne.symm (hx w (List.mem_cons_self _ _)))]
    · intro p hp
      rw [b6 p (fun w0 hw0 => hp w0 (List.mem_cons_of_mem _ hw0)), a5,
        Function.update_noteq (Ne.symm (hp w (List.mem_cons_self _ _)))]

end AdaptiveLemmas

/-- A loop that carries a running position, advanced by `d` in every iteration, is the loop
that computes the position from the loop index. -/
theorem counter_foldl {σ : Type} (G : Nat → Nat → σ → σ) (d n : Nat) (s : σ) (p0 : Nat) :
    (List.range n).foldl (fun (sp : σ × Nat) j => (G sp.2 j sp.1, sp.2 + d)) (s, p0)
      = ((List.range n).foldl (fun s j => G (p0 + j * d) j s) s, p0 + n * d) := by
  induction n with
  | zero => simp
  | succ n ih =>
    rw [List.range_succ, List.foldl_append, List.foldl_append, ih]
    simp only [List.foldl_cons, List.foldl_nil]
    rw [Nat.add_mul, Nat.one_mul, Nat.add_assoc]

/-- Two nested loops whose inner loop advances a running position by one are the loops that
compute the position as `j * len + i`. -/
theorem nested_counter_foldl {σ : Type} (F : Nat → Nat → Nat → σ → σ) (bs len : Nat) (s0 : σ) :
    ((List.range bs).foldl
        (fun (sp : σ × Nat) j =>
          (List.range len).foldl
            (fun (sp : σ × Nat) i => (F j i sp.2 sp.1, sp.2 + 1)) sp) (s0, 0)).1
      = (List.range bs).foldl
          (fun s j => (List.range len).foldl (fun s i => F j i (j * len + i) s) s) s0 := by
  have inner : ∀ (j : Nat) (sp : σ × Nat),
      (List.range len).foldl (fun (sp : σ × Nat) i => (F j i sp.2 sp.1, sp.2 + 1)) sp
        = ((List.range len).foldl (fun s i => F j i (sp.2 + i) s) sp.1, sp.2 + len) := by
    intro j sp
    obtain ⟨s, p⟩ := sp
    have := counter_foldl (fun p i s => F j i p s) 1 len s p
    simpa using this
  simp only [inner]
  have outer := counter_foldl
    (fun p j s => (List.range len).foldl (fun s i => F j i (p + i) s) s) len bs s0 0
  rw [outer]
  simp only [Nat.zero_add]

theorem foldl_loopRange_offset {σ : Type} (f : σ → Nat → σ) (lo len : Nat) (s : σ) :
    (loopRange lo (lo + len)).foldl f s = (List.range len).foldl (fun s i => f s (lo + i)) s := by
  unfold loopRange
  rw [Nat.add_sub_cancel_left, List.range'_eq_map_range, List.foldl_map]

section AdaptiveUnfold

variable {R : Type} [Field R]

/-- For a dense `c` of the shape of the gradient the lazy re-initialisation of `Adagrad`
changes nothing. -/
theorem adagrad_init_same (fresh : Nat → R) (M : CPUSparseMatrix R) (c : CPUMatrix R)
    (hrows : c.m_numRows = M.m_numRows) (hcols : c.m_numCols = M.m_numCols) :
    (if c.IsEmpty = true ∨ c.GetNumCols ≠ M.GetNumCols ∨ c.GetNumRows ≠ M.GetNumRows then
        (c.Resize fresh M.GetNumRows M.GetNumCols).SetValue 0
      else c) = c := by
  by_cases he : c.IsEmpty = true
  · rw [if_pos (Or.inl he)]
    have hres : c.Resize fresh M.GetNumRows M.GetNumCols = c := by
      unfold CPUMatrix.Resize
      rw [if_pos ⟨hrows, hcols⟩]
    rw [hres]
    have hz : c.GetNumElements = 0 := by
      unfold CPUMatrix.GetNumElements
      simp only [CPUMatrix.IsEmpty, Bool.or_eq_true, beq_iff_eq] at he
      rcases he with h | h <;> simp [h]
    unfold CPUMatrix.SetValue
    rw [hz]
    simp
  · rw [if_neg]
    simp only [CPUMatrix.GetNumRows, CPUMatrix.GetNumCols, CPUSparseMatrix.GetNumRows,
      CPUSparseMatrix.GetNumCols, hrows, hcols]
    simp [he]

/-- On a sparse layout `Adagrad` leaves the state reached by its steps over the active
elements, started from the gradient and the (lazily re-initialised) `c`. -/
theorem Adagrad_eq_fold (sqrt : R → R) (fresh : Nat → R) (need : Bool)
    (M : CPUSparseMatrix R) (c : CPUMatrix R) (hfmt : IsSparseLayout M) :
    (Adagrad sqrt fresh need M c).2
      = (((activeElements M).foldl
            (fun s w => adagradCompressedStep sqrt need w.1 w.2.1 w.2.2 s)
            { grad := M
              c := if c.IsEmpty = true ∨ c.GetNumCols ≠ M.GetNumCols
                    ∨ c.GetNumRows ≠ M.GetNumRows then
                  (c.Resize fresh M.GetNumRows M.GetNumCols).SetValue 0
                else c
              aveMultiplier := 0 }).grad,
         ((activeElements M).foldl
            (fun s w => adagradCompressedStep sqrt need w.1 w.2.1 w.2.2 s)
            { grad := M
              c := if c.IsEmpty = true ∨ c.GetNumCols ≠ M.GetNumCols
                    ∨ c.GetNumRows ≠ M.GetNumRows then
                  (c.Resize fresh M.GetNumRows M.GetNumCols).SetValue 0
                else c
              aveMultiplier := 0 }).c) := by
  by_cases hc : CPUSparseMatrix.isCompressed M.m_format = true
  · have hc' : M.m_format = .matrixFormatSparseCSC ∨ M.m_format = .matrixFormatSparseCSR := by
      simpa [CPUSparseMatrix.isCompressed] using hc
    unfold Adagrad activeElements compressedSteps
    rw [if_pos hc, foldl_flatMap_map]
    simp only [hc', if_true, List.foldl_map, CPUSparseMatrix.laneCount,
      CPUSparseMatrix.GetNumRows, CPUSparseMatrix.GetNumCols]
  · have hb : M.m_format = .matrixFormatSparseBlockCol
        ∨ M.m_format = .matrixFormatSparseBlockRow := by
      rcases hfmt with h | h
      · exact absurd h hc
      · simpa [CPUSparseMatrix.isBlock] using h
    have hc' : ¬ (M.m_format = .matrixFormatSparseCSC
        ∨ M.m_format = .matrixFormatSparseCSR) := by
      simpa [CPUSparseMatrix.isCompressed] using hc
    unfold Adagrad activeElements gradSteps
    rw [if_neg hc, foldl_flatMap_map]
    simp only [hc', hb, if_true, if_false, List.foldl_map, foldl_loopRange_offset,
      Nat.add_sub_cancel_left, adagradBlockStep_eq, blockLen, blockCellRow, blockCellCol,
      CPUSparseMatrix.GetNumRows, CPUSparseMatrix.GetNumCols]
    rw [nested_counter_foldl
      (fun j i p s => adagradCompressedStep sqrt need p
        (if M.m_format = .matrixFormatSparseBlockCol then i else M.m_blockIds j)
        (if M.m_format = .matrixFormatSparseBlockCol then M.m_blockIds j else i) s)]

end AdaptiveUnfold

theorem WellFormedLanes.mono {R : Type} {M : CPUSparseMatrix R} {lanes bound : Nat}
    (hwf : WellFormedLanes M lanes bound) {j j' : Nat} (hjj : j ≤ j') (hj' : j' ≤ lanes) :
    M.m_compIndex j ≤ M.m_compIndex j' := by
  obtain ⟨_, hmono, _, _⟩ := hwf
  obtain ⟨d, rfl⟩ : ∃ d, j' = j + d := ⟨j' - j, by omega⟩
  clear hjj
  induction d with
  | zero => exact Nat.le_refl _
  | succ d ih =>
    exact Nat.le_trans (ih (by omega)) (hmono (j + d) (by omega))

section AdaptiveSteps

variable {R : Type}

theorem mem_compressedSteps (M : CPUSparseMatrix R) (w : Nat × Nat × Nat) :
    w ∈ compressedSteps M ↔ ∃ j < M.laneCount, ∃ p, M.m_compIndex j ≤ p
      ∧ p < M.m_compIndex (j + 1)
      ∧ w = (p, if M.m_format = .matrixFormatSparseCSC then M.m_unCompIndex p else j,
              if M.m_format = .matrixFormatSparseCSC then j else M.m_unCompIndex p) := by
  unfold compressedSteps loopRange
  simp only [List.mem_flatMap, List.mem_map, List.mem_range, List.mem_range'_1]
  constructor
  · rintro ⟨j, hj, p, ⟨hp1, hp2⟩, rfl⟩
    exact ⟨j, hj, p, hp1, by omega, rfl⟩
  · rintro ⟨j, hj, p, hp1, hp2, rfl⟩
    exact ⟨j, hj, p, ⟨hp1, by omega⟩, rfl⟩

/-- The stored elements of a well-formed compressed matrix with one stored element per cell
lie at pairwise distinct buffer positions and pairwise distinct cells. -/
theorem compressedSteps_pairwise (M : CPUSparseMatrix R) (bound : Nat)
    (hwf : WellFormedLanes M M.laneCount bound) (hd : DistinctInLanes M M.laneCount)
    (hrow : ∀ j < M.laneCount, ∀ p, M.m_compIndex j ≤ p → p < M.m_compIndex (j + 1) →
      (if M.m_format = .matrixFormatSparseCSC then M.m_unCompIndex p else j) < M.m_numRows) :
    (compressedSteps M).Pairwise fun w w' =>
      w.1 ≠ w'.1 ∧ IDX2C w.2.1 w.2.2 M.m_numRows ≠ IDX2C w'.2.1 w'.2.2 M.m_numRows := by
  have key : ∀ j < M.laneCount, ∀ j' < M.laneCount, ∀ p q,
      M.m_compIndex j ≤ p → p < M.m_compIndex (j + 1) →
      M.m_compIndex j' ≤ q → q < M.m_compIndex (j' + 1) → p ≠ q →
      IDX2C (if M.m_format = .matrixFormatSparseCSC then M.m_unCompIndex p else j)
          (if M.m_format = .matrixFormatSparseCSC then j else M.m_unCompIndex p) M.m_numRows
        ≠ IDX2C (if M.m_format = .matrixFormatSparseCSC then M.m_unCompIndex q else j')
          (if M.m_format = .matrixFormatSparseCSC then j' else M.m_unCompIndex q)
          M.m_numRows := by
    intro j hj j' hj' p q hp1 hp2 hq1 hq2 hne e
    obtain ⟨e1, e2⟩ := (IDX2C_inj (hrow j hj p hp1 hp2) (hrow j' hj' q hq1 hq2)).mp e
    have hjj : j = j' ∧ M.m_unCompIndex p = M.m_unCompIndex q := by
      by_cases hc : M.m_format = .matrixFormatSparseCSC
      · rw [if_pos hc, if_pos hc] at e1 e2
        exact ⟨e2, e1⟩
      · rw [if_neg hc, if_neg hc] at e1 e2
        exact ⟨e1, e2⟩
    obtain ⟨rfl, hu⟩ := hjj
    exact hne (hd j hj p hp2 q hq2 ⟨hp1, hq1, hu⟩)
  unfold compressedSteps loopRange
  rw [List.pairwise_flatMap]
  constructor
  · intro j hj
    rw [List.pairwise_map]
    refine List.Pairwise.imp_of_mem ?_ (List.pairwise_lt_range' _ _)
    intro p q hp hq hpq
    rw [List.mem_range'_1] at hp hq
    have hj' := List.mem_range.mp hj
    exact ⟨by omega, key j hj' j hj' p q hp.1 (by omega) hq.1 (by omega) (by omega)⟩
  · refine List.Pairwise.imp_of_mem ?_ (List.pairwise_lt_range _)
    intro j j' hj hj' hjj x hx y hy
    obtain ⟨p, hp, rfl⟩ := List.mem_map.mp hx
    obtain ⟨q, hq, rfl⟩ := List.mem_map.mp hy
    rw [List.mem_range'_1] at hp hq
    have hj1 := List.mem_range.mp hj
    have hj2 := List.mem_range.mp hj'
    have hmono : M.m_compIndex (j + 1) ≤ M.m_compIndex j' := hwf.mono (by omega) (by omega)
    have hpq : p ≠ q := by omega
    exact ⟨hpq, key j hj1 j' hj2 p q hp.1 (by omega) hq.1 (by omega) hpq⟩

/-- The active elements of a gradient satisfying `AdagradReady` lie at pairwise distinct buffer
positions and pairwise distinct cells, in rows of the matrix. -/
theorem activeElements_pairwise (M : CPUSparseMatrix R) (hM : AdagradReady M) :
    IsSparseLayout M
      ∧ (activeElements M).Pairwise fun w w' =>
          w.1 ≠ w'.1 ∧ IDX2C w.2.1 w.2.2 M.m_numRows ≠ IDX2C w'.2.1 w'.2.2 M.m_numRows := by
  rcases hM with ⟨⟨hf, hwf⟩, hd⟩ | ⟨⟨hf, hwf⟩, hd⟩ | hb
  · have hl : M.laneCount = M.m_numCols := by simp [CPUSparseMatrix.laneCount, hf]
    have hc : CPUSparseMatrix.isCompressed M.m_format = true := by rw [hf]; rfl
    refine ⟨Or.inl hc, ?_⟩
    unfold activeElements
    rw [if_pos hc]
    apply compressedSteps_pairwise M M.m_numRows (by rw [hl]; exact hwf) (by rw [hl]; exact hd)
    intro j hj p hp1 hp2
    rw [if_pos hf]
    exact hwf.major_lt (by rw [← hl]; exact hj) (Finset.mem_Ico.mpr ⟨hp1, hp2⟩)
  · have hne : M.m_format ≠ .matrixFormatSparseCSC := by rw [hf]; decide
    have hl : M.laneCount = M.m_numRows := by simp [CPUSparseMatrix.laneCount, hf]
    have hc : CPUSparseMatrix.isCompressed M.m_format = true := by rw [hf]; rfl
    refine ⟨Or.inl hc, ?_⟩
    unfold activeElements
    rw [if_pos hc]
    apply compressedSteps_pairwise M M.m_numCols (by rw [hl]; exact hwf) (by rw [hl]; exact hd)
    intro j hj p _ _
    rw [if_neg hne, ← hl]
    exact hj
  · have hc : CPUSparseMatrix.isCompressed M.m_format = false := by
      rcases hb.1 with h | h <;> rw [h] <;> rfl
    have hbk : CPUSparseMatrix.isBlock M.m_format = true := by
      rcases hb.1 with h | h <;> rw [h] <;> rfl
    refine ⟨Or.inr hbk, ?_⟩
    unfold activeElements
    rw [hc]
    exact gradSteps_pairwise M hb

end AdaptiveSteps

section AdaptiveCells

variable {R : Type} [Field R]

/-- What `Adagrad` leaves, for any square-root function: the shape of `c`, every member of the
gradient but its values, and at every active element the accumulated cell and the rescaled
gradient element. -/
theorem Adagrad_cells (sqrt : R → R) (fresh : Nat → R) (need : Bool) (M : CPUSparseMatrix R)
    (c : CPUMatrix R) (hM : AdagradReady M)
    (hrows : c.m_numRows = M.m_numRows) (hcols : c.m_numCols = M.m_numCols) :
    (Adagrad sqrt fresh need M c).2.2.m_numRows = c.m_numRows
      ∧ (Adagrad sqrt fresh need M c).2.2.m_numCols = c.m_numCols
      ∧ (Adagrad sqrt fresh need M c).2.1
          = { M with m_pArray := (Adagrad sqrt fresh need M c).2.1.m_pArray }
      ∧ ∀ w ∈ activeElements M,
          (Adagrad sqrt fresh need M c).2.2.get w.2.1 w.2.2
              = c.get w.2.1 w.2.2 + M.m_pArray w.1 * M.m_pArray w.1
            ∧ (Adagrad sqrt fresh need M c).2.1.m_pArray w.1
              = M.m_pArray w.1
                  / sqrt (adagradFloor + (Adagrad sqrt fresh need M c).2.2.get w.2.1 w.2.2) := by
  obtain ⟨hlay, hpw⟩ := activeElements_pairwise M hM
  rw [Adagrad_eq_fold sqrt fresh need M c hlay, adagrad_init_same fresh M c hrows hcols]
  obtain ⟨b1, b2, b3, b4, _, _⟩ :=
    adagrad_fold sqrt need (activeElements M) { grad := M, c := c, aveMultiplier := 0 }
      M.m_numRows hrows hpw
  refine ⟨b1.trans hrows.symm, b2, b3, fun w hw => ?_⟩
  obtain ⟨e1, e2⟩ := b4 w hw
  unfold CPUMatrix.get
  rw [b1, hrows]
  exact ⟨e1, e2⟩

end AdaptiveCells

/-- The floor of `Adagrad` is positive. -/
theorem adagradFloor_pos : (0 : Real) < adagradFloor := by
  unfold adagradFloor
  positivity

/-- C21. The per-element update of `Adagrad` has a growing denominator (over the reals, with
the real square root): for every well-formed CSC/CSR gradient with one stored element per
logical cell or well-formed block-sparse gradient and every same-shaped dense `c`, after
`Adagrad(c, _)` each active element `g` at cell `(r, col)` satisfies
`c(r,col) = c_old(r,col) + g*g >= c_old(r,col)` and the stored element equals
`g / sqrt(floor + c(r,col))` with `floor = 10^-16`. Consequently, for an active element `v`
(nonzero) whose cell of `c` starts at 0, the first call gives `c = v^2` and the stored value
`v / sqrt(v^2 + floor)`, and applying the same raw gradient again (to the `c` left by the first
call) gives `c = 2*v^2` and a stored value of strictly smaller magnitude. -/
theorem Adagrad_spec (fresh fresh2 : Nat → Real) (need need2 : Bool)
    (M : CPUSparseMatrix Real) (c : CPUMatrix Real) (hM : AdagradReady M)
    (hrows : c.m_numRows = M.m_numRows) (hcols : c.m_numCols = M.m_numCols) :
    (∀ w ∈ activeElements M,
        (Adagrad Real.sqrt fresh need M c).2.2.get w.2.1 w.2.2
            = c.get w.2.1 w.2.2 + M.m_pArray w.1 * M.m_pArray w.1
          ∧ c.get w.2.1 w.2.2 ≤ (Adagrad Real.sqrt fresh need M c).2.2.get w.2.1 w.2.2
          ∧ (Adagrad Real.sqrt fresh need M c).2.1.m_pArray w.1
            = M.m_pArray w.1
                / Real.sqrt (adagradFloor
                    + (Adagrad Real.sqrt fresh need M c).2.2.get w.2.1 w.2.2))
      ∧ (∀ w ∈ activeElements M, c.get w.2.1 w.2.2 = 0 → M.m_pArray w.1 ≠ 0 →
          (Adagrad Real.sqrt fresh need M c).2.2.get w.2.1 w.2.2 = M.m_pArray w.1 ^ 2
            ∧ (Adagrad Real.sqrt fresh need M c).2.1.m_pArray w.1
              = M.m_pArray w.1 / Real.sqrt (M.m_pArray w.1 ^ 2 + adagradFloor)
            ∧ (Adagrad Real.sqrt fresh2 need2 M
                  (Adagrad Real.sqrt fresh need M c).2.2).2.2.get w.2.1 w.2.2
                = 2 * M.m_pArray w.1 ^ 2
            ∧ (Adagrad Real.sqrt fresh2 need2 M
                  (Adagrad Real.sqrt fresh need M c).2.2).2.1.m_pArray w.1
                = M.m_pArray w.1 / Real.sqrt (2 * M.m_pArray w.1 ^ 2 + adagradFloor)
            ∧ |(Adagrad Real.sqrt fresh2 need2 M
                  (Adagrad Real.sqrt fresh need M c).2.2).2.1.m_pArray w.1|
                < |(Adagrad Real.sqrt fresh need M c).2.1.m_pArray w.1|) := by
  obtain ⟨r1, r2, _, r4⟩ := Adagrad_cells Real.sqrt fresh need M c hM hrows hcols
  obtain ⟨_, _, _, t4⟩ := Adagrad_cells Real.sqrt fresh2 need2 M
    (Adagrad Real.sqrt fresh need M c).2.2 hM (r1.trans hrows) (r2.trans hcols)
  constructor
  · intro w hw
    obtain ⟨e1, e2⟩ := r4 w hw
    refine ⟨e1, ?_, e2⟩
    rw [e1]
    nlinarith [mul_self_nonneg (M.m_pArray w.1)]
  · intro w hw hzero hv
    obtain ⟨e1, e2⟩ := r4 w hw
    obtain ⟨f1, f2⟩ := t4 w hw
    have hfl := adagradFloor_pos
    have hsq : 0 < M.m_pArray w.1 ^ 2 := by positivity
    have c1 : (Adagrad Real.sqrt fresh need M c).2.2.get w.2.1 w.2.2 = M.m_pArray w.1 ^ 2 := by
      rw [e1, hzero]; ring
    have c2 : (Adagrad Real.sqrt fresh2 need2 M
        (Adagrad Real.sqrt fresh need M c).2.2).2.2.get w.2.1 w.2.2
          = 2 * M.m_pArray w.1 ^ 2 := by
      rw [f1, c1]; ring
    have s1 : (Adagrad Real.sqrt fresh need M c).2.1.m_pArray w.1
        = M.m_pArray w.1 / Real.sqrt (M.m_pArray w.1 ^ 2 + adagradFloor) := by
      rw [e2, c1, add_comm]
    have s2 : (Adagrad Real.sqrt fresh2 need2 M
        (Adagrad Real.sqrt fresh need M c).2.2).2.1.m_pArray w.1
          = M.m_pArray w.1 / Real.sqrt (2 * M.m_pArray w.1 ^ 2 + adagradFloor) := by
      rw [f2, c2, add_comm]
    refine ⟨c1, s1, c2, s2, ?_⟩
    rw [s1, s2, abs_div, abs_div]
    have hpos1 : 0 < Real.sqrt (M.m_pArray w.1 ^ 2 + adagradFloor) :=
      Real.sqrt_pos.mpr (by linarith)
    have hlt : Real.sqrt (M.m_pArray w.1 ^ 2 + adagradFloor)
        < Real.sqrt (2 * M.m_pArray w.1 ^ 2 + adagradFloor) :=
      Real.sqrt_lt_sqrt (by linarith) (by linarith)
    have hpos2 : 0 < Real.sqrt (2 * M.m_pArray w.1 ^ 2 + adagradFloor) :=
      lt_trans hpos1 hlt
    rw [abs_of_pos hpos1, abs_of_pos hpos2]
    exact div_lt_div_of_pos_left (abs_pos.mpr hv) hpos1 hlt

/-- C21, witness: the 1-by-1 CSC gradient holding `v = 3` and the 1-by-1 zero state: the first
call leaves `c = 9` and the stored value `3 / sqrt(9 + floor)`, the second `c = 18` and a
stored value of smaller magnitude. -/
theorem Adagrad_witness :
    (Adagrad Real.sqrt (fun _ => 0) false (exOne 3) (CPUMatrix.create 1 1)).2.2.get 0 0 = 3 ^ 2
      ∧ (Adagrad Real.sqrt (fun _ => 0) false (exOne 3)
          (Adagrad Real.sqrt (fun _ => 0) false (exOne 3)
            (CPUMatrix.create 1 1)).2.2).2.2.get 0 0 = 2 * 3 ^ 2
      ∧ |(Adagrad Real.sqrt (fun _ => 0) false (exOne 3)
          (Adagrad Real.sqrt (fun _ => 0) false (exOne 3)
            (CPUMatrix.create 1 1)).2.2).2.1.m_pArray 0|
          < |(Adagrad Real.sqrt (fun _ => 0) false (exOne 3)
              (CPUMatrix.create 1 1)).2.1.m_pArray 0| := by
  have hM : AdagradReady (exOne (3 : Real)) := by
    left
    refine ⟨⟨rfl, rfl, ?_, rfl, ?_⟩, ?_⟩
    · intro j hj
      have : j = 0 := by
        have : j < 1 := hj
        omega
      subst this
      decide
    · intro p _
      exact Nat.zero_lt_one
    · intro j hj p hp q hq _
      have hj0 : j = 0 := by
        have : j < 1 := hj
        omega
      subst hj0
      have hp' : p < 1 := hp
      have hq' : q < 1 := hq
      omega
  have hmem : ((0, 0, 0) : Nat × Nat × Nat) ∈ activeElements (exOne (3 : Real)) := by
    have : activeElements (exOne (3 : Real)) = [(0, 0, 0)] := rfl
    rw [this]
    exact List.mem_singleton.mpr rfl
  obtain ⟨h1, _, h3, _, h5⟩ :=
    (Adagrad_spec (fun _ => 0) (fun _ => 0) false false (exOne 3) (CPUMatrix.create 1 1) hM
      rfl rfl).2 (0, 0, 0) hmem rfl (by norm_num [exOne])
  exact ⟨h1, h3, h5⟩

/-- C22, witness: the three values `2, 3, 4` (a count not divisible by 4) truncated with the
negative threshold `-3` become `2, 3, 3`. -/
theorem InplaceTruncate_witness :
    (exRhs3.InplaceTruncate (-3)).m_pArray 0 = 2
      ∧ (exRhs3.InplaceTruncate (-3)).m_pArray 1 = 3
      ∧ (exRhs3.InplaceTruncate (-3)).m_pArray 2 = 3 :=
  ⟨((InplaceTruncate_spec (-3) exRhs3).1 0 (by decide)).trans (by decide),
    ((InplaceTruncate_spec (-3) exRhs3).1 1 (by decide)).trans (by decide),
    ((InplaceTruncate_spec (-3) exRhs3).1 2 (by decide)).trans (by decide)⟩

end CNTK
